import Mathlib

/-!
# Verification of `compacta.py` (INF1040-TaskApp)

Shallow embedding of `src/compacta/compacta.py` and proofs about the claims of
the specification.  Python strings are modelled as `List Char`, byte strings as
`List Nat` (each entry `< 256` in every flow), Python dictionaries as
association lists (keys are pairwise distinct wherever the source builds them),
and exceptions as an explicit `Except` layer whose error type mirrors the
exception classes the source distinguishes in its `except` clauses.
-/

namespace Compacta

/-- A Python `str`, modelled as its list of characters. -/
abbrev PyStr := List Char

/-- A `[simbolo, codigo]` pair of the working heap and of the code table. -/
abbrev Pair := PyStr × PyStr

/-- A heap entry `[freq, [simbolo, codigo], ...]` of `_construir_arvore_huffman`. -/
abbrev Entry := Nat × List Pair

/-- The apostrophe character `chr 39` (the quote Python `repr` prefers). -/
def quoteChar : Char := Char.ofNat 39

/-- The double-quote character `chr 34` (the JSON string quote). -/
def dquoteChar : Char := Char.ofNat 34

/-- The backslash character `chr 92`. -/
def backslashChar : Char := Char.ofNat 92

/-- The opening curly bracket `chr 123`. -/
def lbraceChar : Char := Char.ofNat 123

/-- The closing curly bracket `chr 125`. -/
def rbraceChar : Char := Char.ofNat 125

/-- The exception classes the source's `try/except` structure distinguishes.
`jsonDecodeError` is kept separate from `valueError` because `_ler_binario`
catches it specifically; a Python `except ValueError` clause catches both
(`json.JSONDecodeError` subclasses `ValueError`, as does `UnicodeDecodeError`).
`otherExc` stands for every remaining exception class the flows can raise
(`zlib.error`, `IndexError`, `TypeError`, `AttributeError`, `OverflowError`):
they are only ever caught by `except Exception`.  Diagnostic message strings
are abstracted away: no claim depends on them. -/
inductive PyExc where
  | osError
  | valueError
  | jsonDecodeError
  | runtimeError
  | otherExc
  deriving DecidableEq

instance {ε α : Type _} [DecidableEq ε] [DecidableEq α] : DecidableEq (Except ε α) :=
  fun a b =>
    match a, b with
    | .ok x, .ok y =>
      match decEq x y with
      | isTrue h => isTrue (by rw [h])
      | isFalse h => isFalse (fun hh => h (Except.ok.inj hh))
    | .error x, .error y =>
      match decEq x y with
      | isTrue h => isTrue (by rw [h])
      | isFalse h => isFalse (fun hh => h (Except.error.inj hh))
    | .ok _, .error _ => isFalse (fun h => nomatch h)
    | .error _, .ok _ => isFalse (fun h => nomatch h)

/- ## Python comparison of the heap entries

`heap.sort()` sorts lists of the form `[freq, [simbolo, codigo], ...]` with
Python's lexicographic comparison: the integer `freq` first, then the
`[simbolo, codigo]` string pairs pointwise, a strict prefix comparing smaller.
We model the strict order as `Bool`-valued comparators built from two
combinators, and model `list.sort` itself as `List.insertionSort` of the
associated non-strict order: Python's sort is stable, and below the order is
total and antisymmetric, so *any* sorted rearrangement is unique
(`List.eq_of_perm_of_sorted`) — the model is extensionally Python's sort. -/

/-- Lexicographic strict order on lists over a strict order on elements
(Python's `list`/`str` comparison; a strict prefix is smaller). -/
def lexLt [DecidableEq α] (lt : α → α → Bool) : List α → List α → Bool
  | _, [] => false
  | [], _ :: _ => true
  | a :: as, b :: bs => if a = b then lexLt lt as bs else lt a b

/-- Lexicographic strict order on pairs (Python tuple/two-element-list
comparison). -/
def prodLt [DecidableEq α] (ltA : α → α → Bool) (ltB : β → β → Bool) :
    α × β → α × β → Bool :=
  fun p q => if p.1 = q.1 then ltB p.2 q.2 else ltA p.1 q.1

/-- Strict order on characters: by code point, as Python compares `str`. -/
def charLt (a b : Char) : Bool := a.toNat < b.toNat

/-- Strict order on naturals, `Bool`-valued. -/
def natLt (a b : Nat) : Bool := a < b

/-- Python `str < str`. -/
def strLt : PyStr → PyStr → Bool := lexLt charLt

/-- Python `[simbolo, codigo] < [simbolo, codigo]`. -/
def pairLt : Pair → Pair → Bool := prodLt strLt strLt

/-- Python comparison of the tails `[ [s, c], ... ]` of two heap entries. -/
def pairsLt : List Pair → List Pair → Bool := lexLt pairLt

/-- Python comparison of two heap entries `[freq, pair, ...]`. -/
def entryLt : Entry → Entry → Bool := prodLt natLt pairsLt

/-- The sort key `lambda p: (len(p[-1]), p)` of the final
`sorted(heap[0][1:], key=...)`: code length first, then the pair itself. -/
def pairKeyLt : Pair → Pair → Bool :=
  fun p q => if p.2.length = q.2.length then pairLt p q else p.2.length < q.2.length

/-- A strict linear order packaged on a `Bool` comparator. -/
structure IsSLO {α : Type _} (lt : α → α → Bool) : Prop where
  irrefl : ∀ a, lt a a = false
  trans : ∀ a b c, lt a b = true → lt b c = true → lt a c = true
  connex : ∀ a b, a ≠ b → lt a b = true ∨ lt b a = true



/-- The non-strict order associated with a strict comparator:
`a ≤ b` iff not `b < a`. -/
def leOf (lt : α → α → Bool) (a b : α) : Prop := lt b a = false

instance (lt : α → α → Bool) : DecidableRel (leOf lt) := by
  intro a b
  unfold leOf
  infer_instance



/-- Python's `list.sort()` / `sorted()`, modelled by insertion sort under the
associated non-strict order.  Because that order is total, transitive and
antisymmetric, the sorted permutation is unique, so this is extensionally the
same function as Python's (stable) sort. -/
def pySort (lt : α → α → Bool) [DecidableEq α] (l : List α) : List α :=
  List.insertionSort (leOf lt) l



/- ## `_calcular_frequencias` -/

/-- One step of the frequency loop:
`frequencias[caractere] = frequencias.get(caractere, 0) + 1`.  A present key is
updated in place (Python dicts keep the insertion position), a missing key is
appended.  Keys are the one-character strings produced by iterating the text. -/
def bump : List (PyStr × Nat) → Char → List (PyStr × Nat)
  | [], c => [([c], 1)]
  | kv :: rest, c =>
    if kv.1 = [c] then (kv.1, kv.2 + 1) :: rest else kv :: bump rest c

/-- `_calcular_frequencias`: character frequencies of the rendered list, as the
insertion-ordered association list behind the Python dict. -/
def calcular_frequencias (representacao_lista : PyStr) : List (PyStr × Nat) :=
  representacao_lista.foldl bump []

/- ## `_construir_arvore_huffman` -/

/-- Merging the two minimal entries: `'0'` is prepended to every code of the
lower entry, `'1'` to every code of the higher one, and the merged entry
carries the summed weight, in the order `lo[1:] + hi[1:]`. -/
def mergeEntry (lo hi : Entry) : Entry :=
  (lo.1 + hi.1,
    lo.2.map (fun p => (p.1, '0' :: p.2)) ++ hi.2.map (fun p => (p.1, '1' :: p.2)))

/-- The `while len(heap) > 1` loop, fuel-indexed so it is structurally
recursive: sort, pop the two smallest, merge, append.  Each pass shrinks the
heap by one, so the initial length is always enough fuel.  The `[]`/singleton
match arms after the sort are unreachable (the sort preserves length, which is
at least 2 in that branch). -/
def construirLoopAux : Nat → List Entry → List Entry
  | 0, heap => heap
  | fuel + 1, heap =>
    if heap.length ≤ 1 then heap
    else
      match pySort entryLt heap with
      | [] => heap
      | [_] => heap
      | lo :: hi :: rest => construirLoopAux fuel (rest ++ [mergeEntry lo hi])

/-- The `while len(heap) > 1` loop of `_construir_arvore_huffman`. -/
def construirLoop (heap : List Entry) : List Entry :=
  construirLoopAux heap.length heap

/-- `_construir_arvore_huffman`.  The initial heap has one
`[freq, [simbolo, ""]]` entry per symbol, in dict order.  `heap[0]` on an empty
heap raises `IndexError` (only reachable from an empty frequency table). -/
def construir_arvore_huffman (frequencias : List (PyStr × Nat)) :
    Except PyExc (List Pair) :=
  match construirLoop (frequencias.map (fun sf => (sf.2, [(sf.1, [])]))) with
  | [] => .error .otherExc
  | e :: _ => .ok (pySort pairKeyLt e.2)

/- ## `_gerar_codigo_huffman` -/

/-- `_gerar_codigo_huffman`: `{simbolo: codigo for simbolo, codigo in arvore}`.
The dict built from the pair list is the association list itself: the symbols
coming out of the tree are pairwise distinct, so insertion order and lookups
coincide with the list's. -/
def gerar_codigo_huffman (arvore_huffman : List Pair) : List Pair :=
  arvore_huffman

/-- Lookup in a Python dict that was built from an association list whose keys
are distinct (every dict in the flows is): first match. -/
def dictGet (d : List Pair) (k : PyStr) : Option PyStr :=
  (d.find? (fun p => p.1 = k)).map (·.2)

/- ## `_codificar_lista` -/

/-- `_codificar_lista`: concatenate each character's code; a character missing
from the code table raises `ValueError`. -/
def codificar_lista (representacao_lista : PyStr) (codigo_huffman : List Pair) :
    Except PyExc PyStr :=
  match representacao_lista with
  | [] => .ok []
  | c :: rest =>
    match dictGet codigo_huffman [c] with
    | some code => (codificar_lista rest codigo_huffman).map (fun tl => code ++ tl)
    | none => .error .valueError

/- ## `_decodificar_texto` -/

/-- The bit-scanning loop of `_decodificar_texto` over the inverted code dict
(modelled with later entries shadowing earlier ones, i.e. lookup on the
reversed list).  When the bits run out, any non-empty accumulated prefix is
silently dropped and the symbols matched so far are returned. -/
def decodLoop (inv : List Pair) : PyStr → PyStr → PyStr
  | _, [] => []
  | acc, b :: rest =>
    let acc2 := acc ++ [b]
    match dictGet inv acc2 with
    | some simbolo => simbolo ++ decodLoop inv [] rest
    | none => decodLoop inv acc2 rest

/-- `codigo_invertido = {codigo: simbolo for simbolo, codigo in ...}`:
swap the pairs; a duplicate code keeps the last symbol, modelled by reversing
so that the first match is Python's surviving entry. -/
def invertDict (codigo : List Pair) : List Pair :=
  (codigo.map (fun p => (p.2, p.1))).reverse

/-- `_decodificar_texto` on a `str -> str` code table (the shape the encoder
produces; the reader-side variant taking an arbitrary parsed JSON value is
`decodificar_texto_json` below). -/
def decodificar_texto (texto_codificado : PyStr) (codigo_huffman : List Pair) : PyStr :=
  decodLoop (invertDict codigo_huffman) [] texto_codificado

/- ## Numerals, bytes, bit packing -/

/-- The decimal digits of a natural number, fuel-indexed so the definition is
structurally recursive (and hence computes inside the kernel); any fuel above
the number of digits gives the same answer. -/
def natToDecAux : Nat → Nat → PyStr
  | 0, _ => []
  | fuel + 1, n =>
    if n < 10 then [Char.ofNat (48 + n)]
    else natToDecAux fuel (n / 10) ++ [Char.ofNat (48 + n % 10)]

/-- The decimal digits of a natural number, most significant first
(Python `str(n)` for `n ≥ 0`; `natToDec 0 = "0"`). -/
def natToDec (n : Nat) : PyStr := natToDecAux (n + 1) n

/-- Python `str(i)` for an integer. -/
def intToDec (i : Int) : PyStr :=
  if i < 0 then '-' :: natToDec i.natAbs else natToDec i.natAbs

/-- The binary digits of a natural number, fuel-indexed (see `natToDecAux`). -/
def natToBinAux : Nat → Nat → PyStr
  | 0, _ => []
  | fuel + 1, n =>
    if n < 2 then [Char.ofNat (48 + n)]
    else natToBinAux fuel (n / 2) ++ [Char.ofNat (48 + n % 2)]

/-- The binary digits of a natural number, most significant first
(Python `bin(n)[2:]`; `natToBin 0 = "0"`). -/
def natToBin (n : Nat) : PyStr := natToBinAux (n + 1) n

/-- Value of a decimal digit string (all characters assumed `'0'..'9'`). -/
def decVal (s : PyStr) : Nat :=
  s.foldl (fun a c => 10 * a + (c.toNat - 48)) 0

/-- `int(s, 2)`: fails with `ValueError` on an empty string or any character
other than `'0'`/`'1'` (the sign/whitespace tolerance of Python's `int` is not
modelled: every string reaching this point in the flows is pure binary). -/
def binToNat? (s : PyStr) : Except PyExc Nat :=
  if s.isEmpty then .error .valueError
  else if s.all (fun c => c = '0' || c = '1') then
    .ok (s.foldl (fun a c => 2 * a + (if c = '1' then 1 else 0)) 0)
  else .error .valueError

/-- The value of a binary digit list (helper for stating `binToNat?`). -/
def binVal (s : PyStr) : Nat :=
  s.foldl (fun a c => 2 * a + (if c = '1' then 1 else 0)) 0

/-- Big-endian base-256 digits with a fixed width (the digits of
`v.to_bytes(len, 'big')`, overflow not yet checked). -/
def natToBytesBE : Nat → Nat → List Nat
  | 0, _ => []
  | len + 1, v => natToBytesBE len (v / 256) ++ [v % 256]

/-- Little-endian base-256 digits with a fixed width. -/
def natToBytesLE : Nat → Nat → List Nat
  | 0, _ => []
  | len + 1, v => v % 256 :: natToBytesLE len (v / 256)

/-- `v.to_bytes(len, 'big')`: raises `OverflowError` when the value does not
fit. -/
def toBytesBE (len v : Nat) : Except PyExc (List Nat) :=
  if v < 256 ^ len then .ok (natToBytesBE len v) else .error .otherExc

/-- `v.to_bytes(len, 'little')`. -/
def toBytesLE (len v : Nat) : Except PyExc (List Nat) :=
  if v < 256 ^ len then .ok (natToBytesLE len v) else .error .otherExc

/-- `int.from_bytes(bs, 'big')`. -/
def fromBytesBE (bs : List Nat) : Nat :=
  bs.foldl (fun a b => 256 * a + b) 0

/-- `int.from_bytes(bs, 'little')`. -/
def fromBytesLE (bs : List Nat) : Nat :=
  bs.foldr (fun b a => b + 256 * a) 0

/-- Python `str.zfill(n)`: left-pad with `'0'` to length `n` (no-op when the
string is already at least that long). -/
def zfill (n : Nat) (s : PyStr) : PyStr :=
  List.replicate (n - s.length) '0' ++ s

/-- The payload packing of `_escrever_binario` (line 209):
`int(texto_codificado, 2).to_bytes((tamanho + 7) // 8, 'big')`. -/
def packBits (texto_codificado : PyStr) : Except PyExc (List Nat) := do
  let v ← binToNat? texto_codificado
  toBytesBE ((texto_codificado.length + 7) / 8) v

/-- The payload unpacking of `_ler_binario` (line 238):
`bin(int.from_bytes(valor, 'big'))[2:].zfill(tamanho)`. -/
def unpackBits (valor : List Nat) (tamanho : Nat) : PyStr :=
  zfill tamanho (natToBin (fromBytesBE valor))

/- ## The JSON-like data model

The lists the codec accepts hold JSON-representable Python values: strings,
integers, booleans, `None`, nested lists and string-keyed dicts (floats are
outside the model).  Dicts are insertion-ordered association lists, as in
Python. -/

inductive PyVal where
  | pInt : Int → PyVal
  | pStr : PyStr → PyVal
  | pBool : Bool → PyVal
  | pNull : PyVal
  | pList : List PyVal → PyVal
  | pDict : List (PyStr × PyVal) → PyVal

mutual

/-- Decidable equality of Python values (hand-rolled: the automatic deriving
does not handle the nested occurrences of `List`). -/
def decEqPyVal : (a b : PyVal) → Decidable (a = b)
  | .pInt a, .pInt b =>
    match decEq a b with
    | isTrue h => isTrue (by rw [h])
    | isFalse h => isFalse (fun hh => h (PyVal.pInt.inj hh))
  | .pStr a, .pStr b =>
    match decEq a b with
    | isTrue h => isTrue (by rw [h])
    | isFalse h => isFalse (fun hh => h (PyVal.pStr.inj hh))
  | .pBool a, .pBool b =>
    match decEq a b with
    | isTrue h => isTrue (by rw [h])
    | isFalse h => isFalse (fun hh => h (PyVal.pBool.inj hh))
  | .pNull, .pNull => isTrue rfl
  | .pList a, .pList b =>
    match decEqPyList a b with
    | isTrue h => isTrue (by rw [h])
    | isFalse h => isFalse (fun hh => h (PyVal.pList.inj hh))
  | .pDict a, .pDict b =>
    match decEqPyDict a b with
    | isTrue h => isTrue (by rw [h])
    | isFalse h => isFalse (fun hh => h (PyVal.pDict.inj hh))
  | .pInt _, .pStr _ => isFalse (fun h => nomatch h)
  | .pInt _, .pBool _ => isFalse (fun h => nomatch h)
  | .pInt _, .pNull => isFalse (fun h => nomatch h)
  | .pInt _, .pList _ => isFalse (fun h => nomatch h)
  | .pInt _, .pDict _ => isFalse (fun h => nomatch h)
  | .pStr _, .pInt _ => isFalse (fun h => nomatch h)
  | .pStr _, .pBool _ => isFalse (fun h => nomatch h)
  | .pStr _, .pNull => isFalse (fun h => nomatch h)
  | .pStr _, .pList _ => isFalse (fun h => nomatch h)
  | .pStr _, .pDict _ => isFalse (fun h => nomatch h)
  | .pBool _, .pInt _ => isFalse (fun h => nomatch h)
  | .pBool _, .pStr _ => isFalse (fun h => nomatch h)
  | .pBool _, .pNull => isFalse (fun h => nomatch h)
  | .pBool _, .pList _ => isFalse (fun h => nomatch h)
  | .pBool _, .pDict _ => isFalse (fun h => nomatch h)
  | .pNull, .pInt _ => isFalse (fun h => nomatch h)
  | .pNull, .pStr _ => isFalse (fun h => nomatch h)
  | .pNull, .pBool _ => isFalse (fun h => nomatch h)
  | .pNull, .pList _ => isFalse (fun h => nomatch h)
  | .pNull, .pDict _ => isFalse (fun h => nomatch h)
  | .pList _, .pInt _ => isFalse (fun h => nomatch h)
  | .pList _, .pStr _ => isFalse (fun h => nomatch h)
  | .pList _, .pBool _ => isFalse (fun h => nomatch h)
  | .pList _, .pNull => isFalse (fun h => nomatch h)
  | .pList _, .pDict _ => isFalse (fun h => nomatch h)
  | .pDict _, .pInt _ => isFalse (fun h => nomatch h)
  | .pDict _, .pStr _ => isFalse (fun h => nomatch h)
  | .pDict _, .pBool _ => isFalse (fun h => nomatch h)
  | .pDict _, .pNull => isFalse (fun h => nomatch h)
  | .pDict _, .pList _ => isFalse (fun h => nomatch h)

def decEqPyList : (a b : List PyVal) → Decidable (a = b)
  | [], [] => isTrue rfl
  | [], _ :: _ => isFalse (fun h => nomatch h)
  | _ :: _, [] => isFalse (fun h => nomatch h)
  | x :: xs, y :: ys =>
    match decEqPyVal x y, decEqPyList xs ys with
    | isTrue h1, isTrue h2 => isTrue (by rw [h1, h2])
    | isFalse h1, _ => isFalse (fun h => h1 (List.cons.inj h).1)
    | _, isFalse h2 => isFalse (fun h => h2 (List.cons.inj h).2)

def decEqPyDict : (a b : List (PyStr × PyVal)) → Decidable (a = b)
  | [], [] => isTrue rfl
  | [], _ :: _ => isFalse (fun h => nomatch h)
  | _ :: _, [] => isFalse (fun h => nomatch h)
  | (k1, v1) :: xs, (k2, v2) :: ys =>
    match decEq k1 k2, decEqPyVal v1 v2, decEqPyDict xs ys with
    | isTrue h1, isTrue h2, isTrue h3 => isTrue (by rw [h1, h2, h3])
    | isFalse h1, _, _ =>
      isFalse (fun h => h1 (congrArg Prod.fst (List.cons.inj h).1))
    | _, isFalse h2, _ =>
      isFalse (fun h => h2 (congrArg Prod.snd (List.cons.inj h).1))
    | _, _, isFalse h3 => isFalse (fun h => h3 (List.cons.inj h).2)

end

instance : DecidableEq PyVal := decEqPyVal

/-- Whether a Python value is a `dict` (the `isinstance(item, dict)` check). -/
def PyVal.isDict : PyVal → Bool
  | .pDict _ => true
  | _ => false

/-- Whether a Python value is hashable (usable as a dict key). -/
def PyVal.isHashable : PyVal → Bool
  | .pList _ => false
  | .pDict _ => false
  | _ => true

/- ## Python `str()` rendering (`str(lista_dicionarios)`) -/

/-- Lowercase hex digit. -/
def hexDigit (n : Nat) : Char :=
  if n < 10 then Char.ofNat (48 + n) else Char.ofNat (87 + n)

/-- The quote `repr` picks for a string: `'` unless the string contains `'`
but no `"`. -/
def reprQuote (s : PyStr) : Char :=
  if s.contains quoteChar && !s.contains dquoteChar then dquoteChar else quoteChar

/-- `repr` escaping of one character inside quotes `q`: backslash and the
chosen quote are backslash-escaped, tab/newline/carriage-return get their
short escapes, other characters below 32 (and 127) become `\xXX`.  The
category-based escaping of non-printable characters above 127 is not
modelled (no flow in the development reaches it). -/
def reprEscChar (q c : Char) : PyStr :=
  if c = backslashChar then [backslashChar, backslashChar]
  else if c = q then [backslashChar, q]
  else if c = Char.ofNat 9 then [backslashChar, 't']
  else if c = Char.ofNat 10 then [backslashChar, 'n']
  else if c = Char.ofNat 13 then [backslashChar, 'r']
  else if c.toNat < 32 || c.toNat = 127 then
    [backslashChar, 'x', hexDigit (c.toNat / 16 % 16), hexDigit (c.toNat % 16)]
  else [c]

/-- Python `repr` of a string. -/
def reprStr (s : PyStr) : PyStr :=
  let q := reprQuote s
  q :: s.flatMap (reprEscChar q) ++ [q]

mutual

/-- Python `str`/`repr` of a value (for lists and dicts `str` calls `repr` on
the elements, so the two coincide on the shapes the codec renders). -/
def reprPy : PyVal → PyStr
  | .pInt i => intToDec i
  | .pStr s => reprStr s
  | .pBool b => if b then ['T', 'r', 'u', 'e'] else ['F', 'a', 'l', 's', 'e']
  | .pNull => ['N', 'o', 'n', 'e']
  | .pList l => '[' :: (reprItems l ++ [']'])
  | .pDict d => lbraceChar :: (reprMembers d ++ [rbraceChar])

/-- `", "`-separated renderings of list elements. -/
def reprItems : List PyVal → PyStr
  | [] => []
  | [v] => reprPy v
  | v :: vs => reprPy v ++ ',' :: ' ' :: reprItems vs

/-- `", "`-separated `key: value` renderings of dict entries. -/
def reprMembers : List (PyStr × PyVal) → PyStr
  | [] => []
  | [(k, v)] => reprStr k ++ ':' :: ' ' :: reprPy v
  | (k, v) :: kvs => reprStr k ++ ':' :: ' ' :: reprPy v ++ ',' :: ' ' :: reprMembers kvs

end

/- ## `json.dumps` -/

/-- `json.dumps` escaping of one character (default `ensure_ascii=True`):
everything outside printable ASCII is escaped, `\uXXXX` with a surrogate pair
above `0xFFFF`. -/
def jsonEscChar (c : Char) : PyStr :=
  if c = dquoteChar then [backslashChar, dquoteChar]
  else if c = backslashChar then [backslashChar, backslashChar]
  else if c = Char.ofNat 8 then [backslashChar, 'b']
  else if c = Char.ofNat 9 then [backslashChar, 't']
  else if c = Char.ofNat 10 then [backslashChar, 'n']
  else if c = Char.ofNat 12 then [backslashChar, 'f']
  else if c = Char.ofNat 13 then [backslashChar, 'r']
  else if 32 ≤ c.toNat && c.toNat ≤ 126 then [c]
  else if c.toNat < 65536 then
    backslashChar :: 'u' :: (List.range 4).reverse.map
      (fun i => hexDigit (c.toNat / 16 ^ i % 16))
  else
    let v := c.toNat - 65536
    (backslashChar :: 'u' :: (List.range 4).reverse.map
      (fun i => hexDigit ((55296 + v / 1024) / 16 ^ i % 16))) ++
    (backslashChar :: 'u' :: (List.range 4).reverse.map
      (fun i => hexDigit ((56320 + v % 1024) / 16 ^ i % 16)))

/-- `json.dumps` of a string. -/
def jsonDumpStr (s : PyStr) : PyStr :=
  dquoteChar :: s.flatMap jsonEscChar ++ [dquoteChar]

mutual

/-- `json.dumps` with the default separators `", "` and `": "`. -/
def json_dumps : PyVal → PyStr
  | .pInt i => intToDec i
  | .pStr s => jsonDumpStr s
  | .pBool b => if b then ['t', 'r', 'u', 'e'] else ['f', 'a', 'l', 's', 'e']
  | .pNull => ['n', 'u', 'l', 'l']
  | .pList l => '[' :: (jsonDumpItems l ++ [']'])
  | .pDict d => lbraceChar :: (jsonDumpMembers d ++ [rbraceChar])

def jsonDumpItems : List PyVal → PyStr
  | [] => []
  | [v] => json_dumps v
  | v :: vs => json_dumps v ++ ',' :: ' ' :: jsonDumpItems vs

def jsonDumpMembers : List (PyStr × PyVal) → PyStr
  | [] => []
  | [(k, v)] => jsonDumpStr k ++ ':' :: ' ' :: json_dumps v
  | (k, v) :: kvs => jsonDumpStr k ++ ':' :: ' ' :: json_dumps v ++ ',' :: ' ' :: jsonDumpMembers kvs

end

/-- The code table as the Python dict value `json.dumps` receives. -/
def tableVal (codigo : List Pair) : PyVal :=
  .pDict (codigo.map (fun p => (p.1, .pStr p.2)))

/-- `json.dumps(codigo_huffman)`. -/
def json_dumps_table (codigo : List Pair) : PyStr :=
  json_dumps (tableVal codigo)

/- ## `json.loads`

A parser for the JSON fragment the model speaks: objects, arrays, strings
(with the standard escapes; surrogate-pair recombination is not modelled),
integers, `true`/`false`/`null`.  A number continuing with a fraction or an
exponent would be a float, which is outside the model, and is rejected.
Failure (`none`) models `json.JSONDecodeError`. -/

/-- JSON whitespace. -/
def isJsonWs (c : Char) : Bool :=
  c = ' ' || c = Char.ofNat 9 || c = Char.ofNat 10 || c = Char.ofNat 13

/-- Skip JSON whitespace. -/
def skipWs (s : PyStr) : PyStr := s.dropWhile isJsonWs

/-- ASCII decimal digit. -/
def isDigitChar (c : Char) : Bool := 48 ≤ c.toNat && c.toNat ≤ 57

/-- Value of one hex digit, if any. -/
def hexDigitVal? (c : Char) : Option Nat :=
  if 48 ≤ c.toNat && c.toNat ≤ 57 then some (c.toNat - 48)
  else if 97 ≤ c.toNat && c.toNat ≤ 102 then some (c.toNat - 87)
  else if 65 ≤ c.toNat && c.toNat ≤ 70 then some (c.toNat - 55)
  else none

/-- Body of a JSON string, after the opening quote: the decoded characters and
the remaining input after the closing quote.  Raw control characters are
rejected (`json.loads` is strict by default). -/
def parseStrBody : PyStr → Option (PyStr × PyStr)
  | [] => none
  | c :: r =>
    if c = dquoteChar then some ([], r)
    else if c = backslashChar then
      match r with
      | [] => none
      | e :: r2 =>
        if e = dquoteChar then (parseStrBody r2).map (fun p => (dquoteChar :: p.1, p.2))
        else if e = backslashChar then
          (parseStrBody r2).map (fun p => (backslashChar :: p.1, p.2))
        else if e = '/' then (parseStrBody r2).map (fun p => ('/' :: p.1, p.2))
        else if e = 'b' then (parseStrBody r2).map (fun p => (Char.ofNat 8 :: p.1, p.2))
        else if e = 'f' then (parseStrBody r2).map (fun p => (Char.ofNat 12 :: p.1, p.2))
        else if e = 'n' then (parseStrBody r2).map (fun p => (Char.ofNat 10 :: p.1, p.2))
        else if e = 'r' then (parseStrBody r2).map (fun p => (Char.ofNat 13 :: p.1, p.2))
        else if e = 't' then (parseStrBody r2).map (fun p => (Char.ofNat 9 :: p.1, p.2))
        else if e = 'u' then
          match r2 with
          | h1 :: h2 :: h3 :: h4 :: r3 =>
            match hexDigitVal? h1, hexDigitVal? h2, hexDigitVal? h3, hexDigitVal? h4 with
            | some a, some b, some c2, some d =>
              (parseStrBody r3).map
                (fun p => (Char.ofNat (4096 * a + 256 * b + 16 * c2 + d) :: p.1, p.2))
            | _, _, _, _ => none
          | _ => none
        else none
    else if c.toNat < 32 then none
    else (parseStrBody r).map (fun p => (c :: p.1, p.2))

/-- The digit run of a JSON number: its value and the remaining input.  A
leading zero before further digits is rejected, as `json.loads` does, and so
is a following `.`/`e`/`E` (that would be a float, which is outside the
model). -/
def parseNumCore (t : PyStr) : Option (Nat × PyStr) :=
  if (t.takeWhile isDigitChar).isEmpty then none
  else if 2 ≤ (t.takeWhile isDigitChar).length &&
      (t.takeWhile isDigitChar).head? = some '0' then none
  else
    match t.dropWhile isDigitChar with
    | [] => some (decVal (t.takeWhile isDigitChar), t.dropWhile isDigitChar)
    | c :: _ =>
      if c = '.' || c = 'e' || c = 'E' then none
      else some (decVal (t.takeWhile isDigitChar), t.dropWhile isDigitChar)

/-- A JSON number starting at `s` (first character `-` or a digit). -/
def parseNum (s : PyStr) : Option (PyVal × PyStr) :=
  match s with
  | [] => none
  | c :: rest =>
    if c = '-' then (parseNumCore rest).map (fun p => (.pInt (-(p.1 : Int)), p.2))
    else (parseNumCore (c :: rest)).map (fun p => (.pInt (p.1 : Int), p.2))

mutual

/-- One JSON value, fuel-indexed (the fuel only bounds the nesting of the
mutual recursion; `json_loads` supplies more than the input length). -/
def parseVal : Nat → PyStr → Option (PyVal × PyStr)
  | 0, _ => none
  | f + 1, s =>
    match skipWs s with
    | [] => none
    | c :: r =>
      if c = dquoteChar then (parseStrBody r).map (fun p => (.pStr p.1, p.2))
      else if c = '[' then
        match skipWs r with
        | c2 :: r2 =>
          if c2 = ']' then some (.pList [], r2)
          else (parseItems f r).map (fun p => (.pList p.1, p.2))
        | [] => (parseItems f r).map (fun p => (.pList p.1, p.2))
      else if c = lbraceChar then
        match skipWs r with
        | [] => none
        | c2 :: r2 =>
          if c2 = rbraceChar then some (.pDict [], r2)
          else (parseMembers f r).map (fun p => (.pDict p.1, p.2))
      else if c = 't' then
        match r with
        | 'r' :: 'u' :: 'e' :: r2 => some (.pBool true, r2)
        | _ => none
      else if c = 'f' then
        match r with
        | 'a' :: 'l' :: 's' :: 'e' :: r2 => some (.pBool false, r2)
        | _ => none
      else if c = 'n' then
        match r with
        | 'u' :: 'l' :: 'l' :: r2 => some (.pNull, r2)
        | _ => none
      else if c = '-' || isDigitChar c then parseNum (c :: r)
      else none

/-- The comma-separated values of a non-empty JSON array, up to and including
the closing bracket. -/
def parseItems : Nat → PyStr → Option (List PyVal × PyStr)
  | 0, _ => none
  | f + 1, s => do
    let (v, r) ← parseVal f s
    match skipWs r with
    | c :: r2 =>
      if c = ',' then do
        let (vs, r3) ← parseItems f r2
        some (v :: vs, r3)
      else if c = ']' then some ([v], r2)
      else none
    | [] => none

/-- The comma-separated `"key": value` members of a non-empty JSON object, up
to and including the closing brace. -/
def parseMembers : Nat → PyStr → Option (List (PyStr × PyVal) × PyStr)
  | 0, _ => none
  | f + 1, s =>
    match skipWs s with
    | [] => none
    | c :: r =>
      if c = dquoteChar then do
        let (k, r2) ← parseStrBody r
        match skipWs r2 with
        | c1 :: r3 =>
          if c1 = ':' then do
            let (v, r4) ← parseVal f r3
            match skipWs r4 with
            | c2 :: r5 =>
              if c2 = ',' then do
                let (ms, r6) ← parseMembers f r5
                some ((k, v) :: ms, r6)
              else if c2 = rbraceChar then some ([(k, v)], r5)
              else none
            | [] => none
          else none
        | [] => none
      else none

end

/-- `json.loads`: parse one value and require only whitespace after it. -/
def json_loads (s : PyStr) : Option PyVal :=
  match parseVal (s.length + 1) s with
  | some (v, rest) => if skipWs rest = [] then some v else none
  | none => none

/- ## `_texto_para_lista` -/

/-- The quote substitution `texto.replace("'", '"')`. -/
def repl (c : Char) : Char := if c = quoteChar then dquoteChar else c

/-- `_texto_para_lista`: substitute quotes, `json.loads`, then require a list
of dicts.  `json.JSONDecodeError` is caught and re-raised as `ValueError`, and
the two shape checks raise `ValueError` themselves. -/
def texto_para_lista (texto : PyStr) : Except PyExc (List PyVal) :=
  match json_loads (texto.map repl) with
  | none => .error .valueError
  | some v =>
    match v with
    | .pList l => if l.all PyVal.isDict then .ok l else .error .valueError
    | _ => .error .valueError

/- ## UTF-8 -/

/-- UTF-8 encoding of one character (`str.encode('utf-8')`). -/
def utf8EncodeChar (c : Char) : List Nat :=
  if c.toNat < 128 then [c.toNat]
  else if c.toNat < 2048 then [192 + c.toNat / 64, 128 + c.toNat % 64]
  else if c.toNat < 65536 then
    [224 + c.toNat / 4096, 128 + c.toNat / 64 % 64, 128 + c.toNat % 64]
  else
    [240 + c.toNat / 262144, 128 + c.toNat / 4096 % 64,
      128 + c.toNat / 64 % 64, 128 + c.toNat % 64]

/-- `str.encode('utf-8')`. -/
def utf8Encode (s : PyStr) : List Nat := s.flatMap utf8EncodeChar

/-- Read `n` continuation bytes (`0x80..0xBF`), folding their payloads into
`acc`; `none` models an invalid or truncated sequence. -/
def utf8Cont : Nat → Nat → List Nat → Option (Nat × List Nat)
  | 0, acc, bs => some (acc, bs)
  | n + 1, acc, b :: r =>
    if 128 ≤ b && b ≤ 191 then utf8Cont n (acc * 64 + (b - 128)) r else none
  | _ + 1, _, [] => none

/-- The decoding loop of `bytes.decode('utf-8')`, fuel-indexed so it is
structurally recursive; any fuel at least the byte count gives the answer. -/
def utf8DecodeAux : Nat → List Nat → Option PyStr
  | _, [] => some []
  | 0, _ :: _ => none
  | fuel + 1, b :: r =>
    if b < 128 then (utf8DecodeAux fuel r).map (Char.ofNat b :: ·)
    else if 194 ≤ b && b ≤ 223 then
      match utf8Cont 1 (b - 192) r with
      | some (v, r2) => (utf8DecodeAux fuel r2).map (Char.ofNat v :: ·)
      | none => none
    else if 224 ≤ b && b ≤ 239 then
      match utf8Cont 2 (b - 224) r with
      | some (v, r2) => (utf8DecodeAux fuel r2).map (Char.ofNat v :: ·)
      | none => none
    else if 240 ≤ b && b ≤ 244 then
      match utf8Cont 3 (b - 240) r with
      | some (v, r2) => (utf8DecodeAux fuel r2).map (Char.ofNat v :: ·)
      | none => none
    else none

/-- `bytes.decode('utf-8')`: failure models `UnicodeDecodeError` (a subclass
of `ValueError`).  Continuation bytes are validated; the finer overlong and
surrogate-range rejections are not modelled (no flow reaches them). -/
def utf8Decode (bs : List Nat) : Option PyStr := utf8DecodeAux bs.length bs

/- ## The compression of the code table

Modelled from the spec: §1 describes the code-table compression step as "a
generic deflate-style compressor as an opaque external byte-transform, not
itself part of the core design" (`zlib.compress`/`zlib.decompress` in the
source — library code outside this repository).  The model is a reversible
framed byte transform: a decimal length header, a separator byte, then the
raw data.  What the claims rely on is exactly the contract of the real pair:
decompression inverts compression, and a truncated stream is rejected with
`zlib.error` (an exception class that is neither `OSError` nor `ValueError`),
as zlib rejects incomplete streams. -/

/-- Model of `zlib.compress`. -/
def zlib_compress (d : List Nat) : List Nat :=
  (natToDec d.length).map Char.toNat ++ [58] ++ d

/-- Model of `zlib.decompress`; `none` models `zlib.error`. -/
def zlib_decompress (bs : List Nat) : Option (List Nat) :=
  let hdr := bs.takeWhile (fun b => b ≠ 58)
  match bs.dropWhile (fun b => b ≠ 58) with
  | 58 :: d =>
    if hdr ≠ [] && hdr.all (fun b => 48 ≤ b && b ≤ 57) &&
        hdr.foldl (fun a b => 10 * a + (b - 48)) 0 = d.length
    then some d else none
  | _ => none

/- ## File objects

A binary file object opened by the caller.  `failAfter = some k` makes the
`(k+1)`-th read/write call raise `OSError`; `none` is a healthy stream.
Reading past the end returns the available bytes (Python short read), which is
how truncation shows up in the source: no exception at the read. -/

structure PyWriteFile where
  written : List Nat
  failAfter : Option Nat
  deriving DecidableEq

structure PyReadFile where
  data : List Nat
  failAfter : Option Nat
  deriving DecidableEq

/-- `arquivo.write(bs)`. -/
def pyWrite (f : PyWriteFile) (bs : List Nat) : Except PyExc PyWriteFile :=
  match f.failAfter with
  | some 0 => .error .osError
  | some (k + 1) => .ok ⟨f.written ++ bs, some k⟩
  | none => .ok ⟨f.written ++ bs, none⟩

/-- `arquivo.read(n)`. -/
def pyRead (f : PyReadFile) (n : Nat) : Except PyExc (List Nat × PyReadFile) :=
  match f.failAfter with
  | some 0 => .error .osError
  | some (k + 1) => .ok (f.data.take n, ⟨f.data.drop n, some k⟩)
  | none => .ok (f.data.take n, ⟨f.data.drop n, none⟩)

/-- A fresh, healthy output file. -/
def freshFile : PyWriteFile := ⟨[], none⟩

/-- A healthy input file holding `bs`. -/
def readFileOf (bs : List Nat) : PyReadFile := ⟨bs, none⟩

/- ## `_escrever_binario` / `_ler_binario` -/

/-- The `try` body of `_escrever_binario`: bit length (4 bytes little-endian),
packed payload, compressed-table length (4 bytes little-endian), compressed
table. -/
def escrever_binario_body (texto_codificado : PyStr) (codigo_huffman : List Pair)
    (arquivo : PyWriteFile) : Except PyExc PyWriteFile := do
  let tamanho := texto_codificado.length
  let tb ← toBytesLE 4 tamanho
  let f1 ← pyWrite arquivo tb
  let valor ← packBits texto_codificado
  let f2 ← pyWrite f1 valor
  let compressed := zlib_compress (utf8Encode (json_dumps_table codigo_huffman))
  let lb ← toBytesLE 4 compressed.length
  let f3 ← pyWrite f2 lb
  pyWrite f3 compressed

/-- `_escrever_binario`: the body with `except (OSError, IOError)` re-raised
as `RuntimeError`. -/
def escrever_binario (texto_codificado : PyStr) (codigo_huffman : List Pair)
    (arquivo : PyWriteFile) : Except PyExc PyWriteFile :=
  match escrever_binario_body texto_codificado codigo_huffman arquivo with
  | .error .osError => .error .runtimeError
  | r => r

/-- The `try` body of `_ler_binario`. -/
def ler_binario_body (arquivo : PyReadFile) :
    Except PyExc ((PyStr × PyVal) × PyReadFile) := do
  let (b1, f1) ← pyRead arquivo 4
  let tamanho := fromBytesLE b1
  let num_bytes := (tamanho + 7) / 8
  let (valor, f2) ← pyRead f1 num_bytes
  let texto_codificado := unpackBits valor tamanho
  let (b3, f3) ← pyRead f2 4
  let tamanho_comprimido := fromBytesLE b3
  let (conteudo, f4) ← pyRead f3 tamanho_comprimido
  let descomp ←
    match zlib_decompress conteudo with
    | some d => Except.ok d
    | none => Except.error PyExc.otherExc
  let json_data ←
    match utf8Decode descomp with
    | some s => Except.ok s
    | none => Except.error PyExc.valueError
  let codigo_huffman ←
    match json_loads json_data with
    | some v => Except.ok v
    | none => Except.error PyExc.jsonDecodeError
  Except.ok ((texto_codificado, codigo_huffman), f4)

/-- `_ler_binario`: the body with `except (OSError, IOError)` re-raised as
`RuntimeError` and `except json.JSONDecodeError` re-raised as `ValueError`. -/
def ler_binario (arquivo : PyReadFile) :
    Except PyExc ((PyStr × PyVal) × PyReadFile) :=
  match ler_binario_body arquivo with
  | .error .osError => .error .runtimeError
  | .error .jsonDecodeError => .error .valueError
  | r => r

/- ## `_decodificar_texto` on the parsed JSON table -/

/-- `{codigo: simbolo for ...}` over the parsed JSON dict: later duplicate
codes shadow earlier ones (reverse + first match). -/
def invertJ (entries : List (PyStr × PyVal)) : List (PyVal × PyStr) :=
  (entries.map (fun e => (e.2, e.1))).reverse

/-- The scanning loop over the JSON-typed inverted dict. -/
def decodJLoop (inv : List (PyVal × PyStr)) : PyStr → PyStr → PyStr
  | _, [] => []
  | acc, b :: rest =>
    let acc2 := acc ++ [b]
    match (inv.find? (fun p => p.1 = PyVal.pStr acc2)).map (·.2) with
    | some simbolo => simbolo ++ decodJLoop inv [] rest
    | none => decodJLoop inv acc2 rest

/-- `_decodificar_texto` as called by `descompactar_lista`, where the code
table is whatever `json.loads` produced: `.items()` on a non-dict raises
`AttributeError`; an unhashable code value (list/dict) raises `TypeError` when
the inverted dict is built.  Both are only caught by `except Exception`. -/
def decodificar_texto_json (texto_codificado : PyStr) (codigo_huffman : PyVal) :
    Except PyExc PyStr :=
  match codigo_huffman with
  | .pDict entries =>
    if entries.all (fun e => e.2.isHashable) then
      .ok (decodJLoop (invertJ entries) [] texto_codificado)
    else .error .otherExc
  | _ => .error .otherExc

/- ## The public boundary -/

def CODES_SUCESSO : Nat := 0
def CODES_ERRO_ARQUIVO : Nat := 1
def CODES_ERRO_CODIFICACAO : Nat := 2
def CODES_ERRO_DECODIFICACAO : Nat := 3
def CODES_ERRO_CONSTRUCAO_ARVORE : Nat := 4
def CODES_ERRO_FORMATO_DADOS : Nat := 5

/-- The pipeline inside `compactar_lista`'s `try`. -/
def compactarRun (lista_dicionarios : List PyVal) (arquivo : PyWriteFile) :
    Except PyExc PyWriteFile := do
  let lista_string := reprPy (.pList lista_dicionarios)
  let frequencias := calcular_frequencias lista_string
  let arvore_huffman ← construir_arvore_huffman frequencias
  let codigo_huffman := gerar_codigo_huffman arvore_huffman
  let texto_codificado ← codificar_lista lista_string codigo_huffman
  escrever_binario texto_codificado codigo_huffman arquivo

/-- The return-code mapping of `compactar_lista`'s `except` chain:
`(OSError, IOError)` to `ERRO_ARQUIVO`, `ValueError` (including
`json.JSONDecodeError`) to `ERRO_CODIFICACAO`, everything else
(`RuntimeError`, `zlib.error`, `IndexError`, ...) to `ERRO_CODIFICACAO` via
the final `except Exception`. -/
def compactExcCode : PyExc → Nat
  | .osError => CODES_ERRO_ARQUIVO
  | _ => CODES_ERRO_CODIFICACAO

/-- `compactar_lista`.  It returns only the code (despite its docstring). -/
def compactar_lista (lista_dicionarios : List PyVal) (arquivo : PyWriteFile) : Nat :=
  match compactarRun lista_dicionarios arquivo with
  | .ok _ => CODES_SUCESSO
  | .error e => compactExcCode e

/-- The bytes `compactar_lista` writes to a fresh healthy file, when it
succeeds. -/
def compactarBytes (lista_dicionarios : List PyVal) : Option (List Nat) :=
  match compactarRun lista_dicionarios freshFile with
  | .ok f => some f.written
  | .error _ => none

/-- The result value of `descompactar_lista`: `(code, list)` on success and on
the (dead) `OSError` branch, `(code, str(e))` otherwise — message strings are
abstracted by the exception value. -/
inductive DescompRet where
  | lista : List PyVal → DescompRet
  | errMsg : PyExc → DescompRet
  deriving DecidableEq

/-- The pipeline inside `descompactar_lista`'s `try`. -/
def descompactarRun (arquivo : PyReadFile) : Except PyExc (List PyVal) := do
  let ((texto_codificado, codigo_huffman), _) ← ler_binario arquivo
  let texto_decodificado ← decodificar_texto_json texto_codificado codigo_huffman
  texto_para_lista texto_decodificado

/-- `descompactar_lista`. -/
def descompactar_lista (arquivo : PyReadFile) : Nat × DescompRet :=
  match descompactarRun arquivo with
  | .ok l => (CODES_SUCESSO, .lista l)
  | .error .osError => (CODES_ERRO_ARQUIVO, .lista [])
  | .error e => (CODES_ERRO_DECODIFICACAO, .errMsg e)

/- ## Specification predicates -/

/-- The encoded bit string: in-order concatenation of the characters' codes. -/
def encBits (t : PyStr) (d : List Pair) : PyStr :=
  t.flatMap (fun c => (dictGet d [c]).getD [])

/-- No code in the pair list is a prefix of another (equal codes included, so
all codes are also pairwise distinct): the prefix-freeness invariant of a
generated code table. -/
def PrefFree (ps : List Pair) : Prop :=
  ps.Pairwise (fun p q => ¬ p.2 <+: q.2 ∧ ¬ q.2 <+: p.2)

/-- All symbols of a heap, across its entries, in order. -/
def heapSyms (heap : List Entry) : List PyStr :=
  heap.flatMap (fun e => e.2.map (·.1))

/-- The invariant of the tree-construction loop: the symbols across the heap
are pairwise distinct, and each entry's accumulated codes are prefix-free. -/
structure HeapInv (heap : List Entry) : Prop where
  nodup : (heapSyms heap).Nodup
  pf : ∀ e ∈ heap, PrefFree e.2

/-- Characters that `json.dumps` renders unescaped and UTF-8 keeps as a single
ASCII byte: printable ASCII except the double quote and the backslash. -/
def jsonSafeChar (c : Char) : Bool :=
  32 ≤ c.toNat && c.toNat ≤ 126 && c ≠ dquoteChar && c ≠ backslashChar

/-- Characters allowed in record strings and keys for the round-trip: also no
apostrophe, the quote of the `str()` rendering that `replace` rewrites. -/
def goodChar (c : Char) : Bool := jsonSafeChar c && c ≠ quoteChar

mutual

/-- Values whose `json.dumps` rendering parses back unchanged: strings over
the JSON-safe alphabet, integers, and nested lists/dicts of such values
(booleans, `None` and floats excluded). -/
def jsonOkVal : PyVal → Bool
  | .pInt _ => true
  | .pStr s => s.all jsonSafeChar
  | .pBool _ => false
  | .pNull => false
  | .pList l => jsonOkItems l
  | .pDict d => jsonOkMembers d

def jsonOkItems : List PyVal → Bool
  | [] => true
  | v :: vs => jsonOkVal v && jsonOkItems vs

def jsonOkMembers : List (PyStr × PyVal) → Bool
  | [] => true
  | (k, v) :: kvs => k.all jsonSafeChar && jsonOkVal v && jsonOkMembers kvs

end

mutual

/-- Values for which the whole record round-trip holds: like `jsonOkVal`, with
strings and keys further avoiding the apostrophe. -/
def goodVal : PyVal → Bool
  | .pInt _ => true
  | .pStr s => s.all goodChar
  | .pBool _ => false
  | .pNull => false
  | .pList l => goodItems l
  | .pDict d => goodMembers d

def goodItems : List PyVal → Bool
  | [] => true
  | v :: vs => goodVal v && goodItems vs

def goodMembers : List (PyStr × PyVal) → Bool
  | [] => true
  | (k, v) :: kvs => k.all goodChar && goodVal v && goodMembers kvs

end

/-- A tail that cannot extend a just-parsed JSON number: empty, or starting
with neither a digit nor `.`/`e`/`E`. -/
def numSafe : PyStr → Bool
  | [] => true
  | c :: _ => !isDigitChar c && c ≠ '.' && c ≠ 'e' && c ≠ 'E'

/-- The compressed code-table blob `_escrever_binario` builds for a code
table: `zlib.compress(json.dumps(codigo_huffman).encode('utf-8'))`. -/
def tableBlob (ps : List Pair) : List Nat :=
  zlib_compress (utf8Encode (json_dumps_table ps))

/-- The byte layout `_escrever_binario` writes on a healthy file: 4-byte
little-endian bit length, big-endian packed payload, 4-byte little-endian blob
length, the blob. -/
def containerBytes (texto : PyStr) (ps : List Pair) : List Nat :=
  natToBytesLE 4 texto.length ++
    natToBytesBE ((texto.length + 7) / 8) (binVal texto) ++
    natToBytesLE 4 (tableBlob ps).length ++ tableBlob ps

/-! ## Theorems: the sort model -/

theorem IsSLO.asymm {lt : α → α → Bool} (h : IsSLO lt) :
    ∀ a b, lt a b = true → lt b a = false := by
  intro a b hab
  by_contra hba
  exact absurd (h.trans a b a hab (by simpa using hba)) (by simp [h.irrefl a])

theorem charLt_slo : IsSLO charLt := by
  refine ⟨?_, ?_, ?_⟩
  · intro a; simp [charLt]
  · intro a b c hab hbc
    simp only [charLt, decide_eq_true_eq] at *
    omega
  · intro a b hne
    simp only [charLt, decide_eq_true_eq]
    rcases Nat.lt_trichotomy a.toNat b.toNat with h | h | h
    · exact Or.inl h
    · refine absurd (Char.eq_of_val_eq ?_) hne
      have h2 : a.val.toNat = b.val.toNat := by simpa [Char.toNat] using h
      exact UInt32.toNat.inj h2
    · exact Or.inr h

theorem natLt_slo : IsSLO natLt := by
  refine ⟨?_, ?_, ?_⟩
  · intro a; simp [natLt]
  · intro a b c hab hbc
    simp only [natLt, decide_eq_true_eq] at *
    omega
  · intro a b hne
    simp only [natLt, decide_eq_true_eq]
    omega

theorem lexLt_slo [DecidableEq α] {lt : α → α → Bool} (h : IsSLO lt) :
    IsSLO (lexLt lt) := by
  refine ⟨?_, ?_, ?_⟩
  · intro a
    induction a with
    | nil => simp [lexLt]
    | cons x xs ih => simpa [lexLt] using ih
  · intro a
    induction a with
    | nil =>
      intro b c hab hbc
      cases b with
      | nil => simpa [lexLt] using hab
      | cons y ys =>
        cases c with
        | nil => simpa [lexLt] using hbc
        | cons z zs => simp [lexLt]
    | cons x xs ih =>
      intro b c hab hbc
      cases b with
      | nil => simp [lexLt] at hab
      | cons y ys =>
        cases c with
        | nil => simp [lexLt] at hbc
        | cons z zs =>
          simp only [lexLt] at hab hbc ⊢
          by_cases hxy : x = y
          · subst hxy
            simp only [if_pos rfl] at hab
            by_cases hyz : x = z
            · subst hyz
              simp only [if_pos rfl] at hbc ⊢
              exact ih ys zs hab hbc
            · simp only [if_neg hyz] at hbc ⊢
              exact hbc
          · simp only [if_neg hxy] at hab
            by_cases hyz : y = z
            · subst hyz
              simp [hxy, hab]
            · simp only [if_neg hyz] at hbc
              by_cases hxz : x = z
              · subst hxz
                exact absurd (h.asymm x y hab) (by simp [hbc])
              · simp [hxz, h.trans x y z hab hbc]
  · intro a
    induction a with
    | nil =>
      intro b hne
      cases b with
      | nil => exact absurd rfl hne
      | cons y ys => simp [lexLt]
    | cons x xs ih =>
      intro b hne
      cases b with
      | nil => simp [lexLt]
      | cons y ys =>
        by_cases hxy : x = y
        · subst hxy
          have hne' : xs ≠ ys := by
            intro hh; exact hne (by rw [hh])
          rcases ih ys hne' with h1 | h1
          · exact Or.inl (by simpa [lexLt] using h1)
          · exact Or.inr (by simpa [lexLt] using h1)
        · rcases h.connex x y hxy with h1 | h1
          · exact Or.inl (by simp [lexLt, hxy, h1])
          · exact Or.inr (by simp [lexLt, Ne.symm hxy, h1])

theorem prodLt_slo [DecidableEq α] {ltA : α → α → Bool} {ltB : β → β → Bool}
    (hA : IsSLO ltA) (hB : IsSLO ltB) : IsSLO (prodLt ltA ltB) := by
  refine ⟨?_, ?_, ?_⟩
  · intro a; simp [prodLt, hB.irrefl]
  · rintro ⟨a1, a2⟩ ⟨b1, b2⟩ ⟨c1, c2⟩ hab hbc
    simp only [prodLt] at *
    by_cases h1 : a1 = b1
    · subst h1
      by_cases h2 : a1 = c1
      · subst h2
        simp only [if_pos rfl] at *
        exact hB.trans _ _ _ hab hbc
      · simpa [h2] using hbc
    · simp only [if_neg h1] at hab
      by_cases h2 : b1 = c1
      · subst h2
        simp [h1, hab]
      · simp only [if_neg h2] at hbc
        by_cases h3 : a1 = c1
        · subst h3
          exact absurd (hA.asymm _ _ hab) (by simp [hbc])
        · simp [h3, hA.trans _ _ _ hab hbc]
  · rintro ⟨a1, a2⟩ ⟨b1, b2⟩ hne
    simp only [prodLt]
    by_cases h1 : a1 = b1
    · subst h1
      have hne2 : a2 ≠ b2 := by
        intro hh; exact hne (by rw [hh])
      rcases hB.connex a2 b2 hne2 with h2 | h2
      · exact Or.inl (by simp [h2])
      · exact Or.inr (by simp [h2])
    · rcases hA.connex a1 b1 h1 with h2 | h2
      · exact Or.inl (by simp [h1, h2])
      · exact Or.inr (by simp [Ne.symm h1, h2])

theorem strLt_slo : IsSLO strLt := lexLt_slo charLt_slo

theorem pairLt_slo : IsSLO pairLt := prodLt_slo strLt_slo strLt_slo

theorem pairsLt_slo : IsSLO pairsLt := lexLt_slo pairLt_slo

theorem entryLt_slo : IsSLO entryLt := prodLt_slo natLt_slo pairsLt_slo

theorem pairKeyLt_slo : IsSLO pairKeyLt := by
  have h := prodLt_slo natLt_slo pairLt_slo
  refine ⟨?_, ?_, ?_⟩
  · intro a
    have := h.irrefl (a.2.length, a)
    simpa [pairKeyLt, prodLt, natLt] using this
  · intro a b c hab hbc
    have := h.trans (a.2.length, a) (b.2.length, b) (c.2.length, c)
    simp only [pairKeyLt] at hab hbc ⊢
    simp only [prodLt, natLt] at this
    exact this (by simpa using hab) (by simpa using hbc)
  · intro a b hne
    have := h.connex (a.2.length, a) (b.2.length, b)
      (by intro hh; exact hne (congrArg Prod.snd hh))
    simp only [prodLt, natLt] at this
    simpa [pairKeyLt] using this

theorem leOf_total {lt : α → α → Bool} (h : IsSLO lt) :
    ∀ a b, leOf lt a b ∨ leOf lt b a := by
  intro a b
  unfold leOf
  by_cases hab : lt b a = true
  · exact Or.inr (h.asymm b a hab)
  · exact Or.inl (by simpa using hab)

theorem leOf_trans {lt : α → α → Bool} (h : IsSLO lt) :
    ∀ a b c, leOf lt a b → leOf lt b c → leOf lt a c := by
  intro a b c hab hbc
  unfold leOf at *
  by_contra hca
  have hca' : lt c a = true := by simpa using hca
  by_cases hcb : c = b
  · subst hcb; simp_all
  · rcases h.connex c b hcb with h1 | h1
    · simp_all
    · have := h.trans b c a h1 hca'
      simp_all

theorem leOf_antisymm {lt : α → α → Bool} (h : IsSLO lt) :
    ∀ a b, leOf lt a b → leOf lt b a → a = b := by
  intro a b hab hba
  unfold leOf at *
  by_contra hne
  rcases h.connex a b hne with h1 | h1 <;> simp_all

theorem pySort_sorted {lt : α → α → Bool} [DecidableEq α] (h : IsSLO lt)
    (l : List α) : List.Sorted (leOf lt) (pySort lt l) :=
  @List.sorted_insertionSort _ (leOf lt) _
    ⟨leOf_total h⟩ ⟨leOf_trans h⟩ l

theorem pySort_perm {lt : α → α → Bool} [DecidableEq α] (l : List α) :
    (pySort lt l).Perm l :=
  List.perm_insertionSort _ l

/-- Two permutation-equal lists have the same sort: the tie-breaking order is a
linear order, so the sorted arrangement of a multiset is unique. -/
theorem pySort_eq_of_perm {lt : α → α → Bool} [DecidableEq α] (h : IsSLO lt)
    {l₁ l₂ : List α} (hp : l₁.Perm l₂) : pySort lt l₁ = pySort lt l₂ :=
  @List.eq_of_perm_of_sorted _ (leOf lt) ⟨leOf_antisymm h⟩ _ _
    (((pySort_perm l₁).trans hp).trans (pySort_perm l₂).symm)
    (pySort_sorted h l₁) (pySort_sorted h l₂)

theorem pySort_length {lt : α → α → Bool} [DecidableEq α] (l : List α) :
    (pySort lt l).length = l.length :=
  (pySort_perm l).length_eq

/-! ## Theorems: numerals, bytes, bit packing -/

theorem natToDecAux_irrel (n : Nat) :
    ∀ f1 f2 : Nat, n < f1 → n < f2 → natToDecAux f1 n = natToDecAux f2 n := by
  induction n using Nat.strong_induction_on with
  | _ n ih =>
    intro f1 f2 h1 h2
    rcases f1 with _ | f1
    · omega
    rcases f2 with _ | f2
    · omega
    simp only [natToDecAux]
    by_cases h : n < 10
    · rw [if_pos h, if_pos h]
    · rw [if_neg h, if_neg h]
      have hlt : n / 10 < n := Nat.div_lt_self (by omega) (by omega)
      rw [ih (n / 10) hlt f1 f2 (by omega) (by omega)]

theorem natToDec_eq (n : Nat) :
    natToDec n = if n < 10 then [Char.ofNat (48 + n)]
      else natToDec (n / 10) ++ [Char.ofNat (48 + n % 10)] := by
  show natToDecAux (n + 1) n = _
  simp only [natToDecAux]
  by_cases h : n < 10
  · rw [if_pos h, if_pos h]
  · rw [if_neg h, if_neg h]
    have hlt : n / 10 < n := Nat.div_lt_self (by omega) (by omega)
    rw [natToDecAux_irrel (n / 10) n (n / 10 + 1) (by omega) (by omega)]
    rfl

theorem natToBinAux_irrel (n : Nat) :
    ∀ f1 f2 : Nat, n < f1 → n < f2 → natToBinAux f1 n = natToBinAux f2 n := by
  induction n using Nat.strong_induction_on with
  | _ n ih =>
    intro f1 f2 h1 h2
    rcases f1 with _ | f1
    · omega
    rcases f2 with _ | f2
    · omega
    simp only [natToBinAux]
    by_cases h : n < 2
    · rw [if_pos h, if_pos h]
    · rw [if_neg h, if_neg h]
      have hlt : n / 2 < n := Nat.div_lt_self (by omega) (by omega)
      rw [ih (n / 2) hlt f1 f2 (by omega) (by omega)]

theorem natToBin_eq (n : Nat) :
    natToBin n = if n < 2 then [Char.ofNat (48 + n)]
      else natToBin (n / 2) ++ [Char.ofNat (48 + n % 2)] := by
  show natToBinAux (n + 1) n = _
  simp only [natToBinAux]
  by_cases h : n < 2
  · rw [if_pos h, if_pos h]
  · rw [if_neg h, if_neg h]
    have hlt : n / 2 < n := Nat.div_lt_self (by omega) (by omega)
    rw [natToBinAux_irrel (n / 2) n (n / 2 + 1) (by omega) (by omega)]
    rfl

theorem natToBytesBE_length (len v : Nat) : (natToBytesBE len v).length = len := by
  induction len generalizing v with
  | zero => simp [natToBytesBE]
  | succ n ih => simp [natToBytesBE, ih]

theorem fromBytesBE_append_one (bs : List Nat) (b : Nat) :
    fromBytesBE (bs ++ [b]) = 256 * fromBytesBE bs + b := by
  simp [fromBytesBE, List.foldl_append]

theorem fromBytesBE_natToBytesBE {len v : Nat} (h : v < 256 ^ len) :
    fromBytesBE (natToBytesBE len v) = v := by
  induction len generalizing v with
  | zero =>
    simp only [Nat.pow_zero, Nat.lt_one_iff] at h
    simp [natToBytesBE, fromBytesBE, h]
  | succ n ih =>
    have hdiv : v / 256 < 256 ^ n := by
      rw [Nat.div_lt_iff_lt_mul (by omega)]
      calc v < 256 ^ (n + 1) := h
        _ = 256 ^ n * 256 := by ring
    rw [natToBytesBE, fromBytesBE_append_one, ih hdiv]
    omega

theorem natToBytesLE_length (len v : Nat) : (natToBytesLE len v).length = len := by
  induction len generalizing v with
  | zero => simp [natToBytesLE]
  | succ n ih => simp [natToBytesLE, ih]

theorem fromBytesLE_natToBytesLE {len v : Nat} (h : v < 256 ^ len) :
    fromBytesLE (natToBytesLE len v) = v := by
  induction len generalizing v with
  | zero =>
    simp only [Nat.pow_zero, Nat.lt_one_iff] at h
    simp [natToBytesLE, fromBytesLE, h]
  | succ n ih =>
    have hdiv : v / 256 < 256 ^ n := by
      rw [Nat.div_lt_iff_lt_mul (by omega)]
      calc v < 256 ^ (n + 1) := h
        _ = 256 ^ n * 256 := by ring
    rw [natToBytesLE]
    show v % 256 + 256 * fromBytesLE (natToBytesLE n (v / 256)) = v
    rw [ih hdiv]
    omega

/-- `binVal` with a running accumulator. -/
theorem binVal_foldl (s : PyStr) (a : Nat) :
    s.foldl (fun x c => 2 * x + (if c = '1' then 1 else 0)) a =
      a * 2 ^ s.length + binVal s := by
  induction s generalizing a with
  | nil => simp [binVal]
  | cons c t ih =>
    simp only [List.foldl_cons, List.length_cons, binVal]
    rw [ih, ih (2 * 0 + _)]
    ring

theorem binVal_cons (c : Char) (t : PyStr) :
    binVal (c :: t) = (if c = '1' then 1 else 0) * 2 ^ t.length + binVal t := by
  have h := binVal_foldl t (2 * 0 + (if c = '1' then 1 else 0))
  show t.foldl (fun x c => 2 * x + (if c = '1' then 1 else 0))
      (2 * 0 + (if c = '1' then 1 else 0)) = _
  rw [h]
  ring

theorem binVal_append_one (s : PyStr) (c : Char) :
    binVal (s ++ [c]) = 2 * binVal s + (if c = '1' then 1 else 0) := by
  simp [binVal, List.foldl_append]

theorem binVal_lt (s : PyStr) : binVal s < 2 ^ s.length := by
  induction s with
  | nil => simp [binVal]
  | cons c t ih =>
    rw [binVal_cons]
    simp only [List.length_cons, pow_succ]
    by_cases h : c = '1' <;> simp [h] <;> omega

/-- `bin(n)[2:]` of a positive value starts with `'1'`. -/
theorem natToBin_head (v : Nat) (hv : 1 ≤ v) :
    ∃ t, natToBin v = '1' :: t := by
  induction v using Nat.strong_induction_on with
  | _ v ih =>
    rw [natToBin_eq]
    by_cases h : v < 2
    · have : v = 1 := by omega
      subst this
      exact ⟨[], rfl⟩
    · have hdivpos : 1 ≤ v / 2 := by omega
      have hdivlt : v / 2 < v := Nat.div_lt_self (by omega) (by omega)
      obtain ⟨t, ht⟩ := ih (v / 2) hdivlt hdivpos
      rw [if_neg h, ht]
      exact ⟨t ++ [Char.ofNat (48 + v % 2)], rfl⟩

theorem natToBin_binary (v : Nat) :
    ∀ c ∈ natToBin v, c = '0' ∨ c = '1' := by
  induction v using Nat.strong_induction_on with
  | _ v ih =>
    rw [natToBin_eq]
    by_cases h : v < 2
    · rw [if_pos h]
      intro c hc
      simp only [List.mem_singleton] at hc
      subst hc
      interval_cases v
      · exact Or.inl rfl
      · exact Or.inr rfl
    · rw [if_neg h]
      intro c hc
      rcases List.mem_append.mp hc with h1 | h1
      · exact ih (v / 2) (Nat.div_lt_self (by omega) (by omega)) c h1
      · simp only [List.mem_singleton] at h1
        subst h1
        have : v % 2 = 0 ∨ v % 2 = 1 := by omega
        rcases this with h2 | h2 <;> rw [h2]
        · exact Or.inl rfl
        · exact Or.inr rfl

/-- `bin` inverts the binary value on strings with a leading `'1'`. -/
theorem natToBin_binVal_head_one (t : PyStr)
    (hbin : ∀ c ∈ t, c = '0' ∨ c = '1') :
    ∀ h1t, t = '1' :: h1t → natToBin (binVal t) = t := by
  induction t using List.reverseRecOn with
  | nil => intro h1t h; cases h
  | append_singleton s c ih =>
    intro h1t heq
    rcases s with _ | ⟨s0, srest⟩
    · simp only [List.nil_append] at heq
      cases heq
      simp only [List.nil_append]
      rfl
    · have hs0 : s0 = '1' := by
        have := congrArg (fun l => l.head?) heq
        simpa using this
      subst hs0
      have hbin_s : ∀ x ∈ '1' :: srest, x = '0' ∨ x = '1' := by
        intro x hx
        exact hbin x (List.mem_append.mpr (Or.inl hx))
      have hpos : 1 ≤ binVal ('1' :: srest) := by
        rw [binVal_cons]
        have h2 := Nat.pos_pow_of_pos (srest.length) (show 0 < 2 by omega)
        have h3 : (if ('1' : Char) = '1' then (1 : Nat) else 0) = 1 := by decide
        rw [h3]
        omega
      have ihs := ih hbin_s srest rfl
      rw [binVal_append_one, natToBin_eq]
      have hge : ¬ (2 * binVal ('1' :: srest) + (if c = '1' then 1 else 0) < 2) := by
        by_cases hc : c = '1' <;> simp [hc] <;> omega
      rw [if_neg hge]
      have hc01 : c = '0' ∨ c = '1' :=
        hbin c (List.mem_append.mpr (Or.inr (List.mem_singleton.mpr rfl)))
      have hdiv2 : (2 * binVal ('1' :: srest) + (if c = '1' then 1 else 0)) / 2 =
          binVal ('1' :: srest) := by
        rcases hc01 with hc | hc <;> simp [hc] <;> omega
      have hmod2 : (2 * binVal ('1' :: srest) + (if c = '1' then 1 else 0)) % 2 =
          (if c = '1' then 1 else 0) := by
        omega
      rw [hdiv2, hmod2, ihs]
      congr 1
      rcases hc01 with hc | hc <;> subst hc <;> simp <;> rfl

/-- The characteristic unpack property: `zfill` recovers exactly the original
bit string, leading zeros included. -/
theorem zfill_natToBin_binVal (s : PyStr) (hne : s ≠ [])
    (hbin : ∀ c ∈ s, c = '0' ∨ c = '1') :
    zfill s.length (natToBin (binVal s)) = s := by
  classical
  -- split s into its leading zeros and the rest
  obtain ⟨zs, t, hzs, hsplit, hthead⟩ :
      ∃ zs t, zs = List.takeWhile (fun c => c = '0') s ∧
        s = zs ++ t ∧ t = List.dropWhile (fun c => c = '0') s := by
    exact ⟨_, _, rfl, (List.takeWhile_append_dropWhile _ s).symm, rfl⟩
  have hz : ∀ c ∈ zs, c = '0' := by
    intro c hc
    rw [hzs] at hc
    have := List.takeWhile_subset (p := fun c => (c = '0' : Bool)) hc
    have h2 := List.mem_takeWhile_imp hc
    simpa using h2
  have hbv : binVal s = binVal t := by
    rw [hsplit]
    have : ∀ zsl, (∀ c ∈ zsl, c = '0') → binVal (zsl ++ t) = binVal t := by
      intro zsl
      induction zsl with
      | nil => simp
      | cons z zrest ih =>
        intro hall
        have hz0 : z = '0' := hall z (by simp)
        rw [List.cons_append, binVal_cons, ih (fun c hc => hall c (by simp [hc]))]
        simp [hz0]
    exact this zs hz
  rcases t with _ | ⟨t0, trest⟩
  · -- s is all zeros
    have hall0 : ∀ c ∈ s, c = '0' := by
      rw [hsplit]
      simpa using hz
    have hbv0 : binVal s = 0 := by
      rw [hbv]; rfl
    rw [hbv0]
    have hbin0 : natToBin 0 = ['0'] := rfl
    rw [hbin0]
    have : s = List.replicate s.length '0' := List.eq_replicate_of_mem hall0
    conv_rhs => rw [this]
    rcases hlen : s.length with _ | n
    · exact absurd (List.length_eq_zero.mp hlen) hne
    · simp [zfill, List.replicate_succ']
  · -- t starts with a nonzero digit, which must be '1'
    have ht0 : t0 = '1' := by
      have hmem : t0 ∈ s := by
        rw [hsplit]; simp
      rcases hbin t0 hmem with h0 | h1
      · -- contradiction: dropWhile's head does not satisfy the predicate
        have := List.head?_dropWhile_not (fun c => (c = '0' : Bool)) s
        rw [← hthead] at this
        simp only [List.head?_cons] at this
        simp [h0] at this
      · exact h1
    subst ht0
    have hbint : ∀ c ∈ '1' :: trest, c = '0' ∨ c = '1' := by
      intro c hc
      refine hbin c ?_
      rw [hsplit]
      exact List.mem_append.mpr (Or.inr hc)
    have hrec := natToBin_binVal_head_one ('1' :: trest) hbint trest rfl
    rw [hbv, hrec]
    unfold zfill
    have hlen : s.length = zs.length + ('1' :: trest).length := by
      rw [hsplit]; simp
    rw [hlen]
    have : zs.length + ('1' :: trest).length - ('1' :: trest).length = zs.length := by
      omega
    rw [this, hsplit]
    congr 1
    exact (List.eq_replicate_of_mem hz).symm

theorem binToNat?_ok (s : PyStr) (hne : s ≠ [])
    (hbin : ∀ c ∈ s, c = '0' ∨ c = '1') :
    binToNat? s = .ok (binVal s) := by
  unfold binToNat?
  rw [if_neg (by simpa using hne), if_pos]
  · rfl
  · rw [List.all_eq_true]
    intro c hc
    rcases hbin c hc with h | h <;> simp [h]

theorem packBits_ok (s : PyStr) (hne : s ≠ [])
    (hbin : ∀ c ∈ s, c = '0' ∨ c = '1') :
    packBits s = .ok (natToBytesBE ((s.length + 7) / 8) (binVal s)) := by
  unfold packBits
  rw [binToNat?_ok s hne hbin]
  show toBytesBE ((s.length + 7) / 8) (binVal s) = _
  unfold toBytesBE
  rw [if_pos]
  calc binVal s < 2 ^ s.length := binVal_lt s
    _ ≤ 2 ^ (8 * ((s.length + 7) / 8)) := by
      apply Nat.pow_le_pow_right (by omega)
      omega
    _ = 256 ^ ((s.length + 7) / 8) := by
      rw [Nat.pow_mul]

theorem charToNat_ofNat {n : Nat} (h : n < 55296) : (Char.ofNat n).toNat = n := by
  unfold Char.ofNat
  split
  · rfl
  · rename_i hv
    exact absurd (Or.inl h) hv

theorem natToDec_ne_nil (n : Nat) : natToDec n ≠ [] := by
  rw [natToDec_eq]
  by_cases h : n < 10
  · simp [h]
  · simp [h]

theorem natToDec_digits (n : Nat) :
    ∀ c ∈ natToDec n, 48 ≤ c.toNat ∧ c.toNat ≤ 57 := by
  induction n using Nat.strong_induction_on with
  | _ n ih =>
    rw [natToDec_eq]
    by_cases h : n < 10
    · rw [if_pos h]
      intro c hc
      simp only [List.mem_singleton] at hc
      subst hc
      rw [charToNat_ofNat (by omega)]
      omega
    · rw [if_neg h]
      intro c hc
      rcases List.mem_append.mp hc with h1 | h1
      · exact ih (n / 10) (Nat.div_lt_self (by omega) (by omega)) c h1
      · simp only [List.mem_singleton] at h1
        subst h1
        have hm : n % 10 < 10 := Nat.mod_lt _ (by omega)
        rw [charToNat_ofNat (by omega)]
        omega

theorem decVal_append_one (s : PyStr) (c : Char) :
    decVal (s ++ [c]) = 10 * decVal s + (c.toNat - 48) := by
  simp [decVal, List.foldl_append]

theorem decVal_natToDec (n : Nat) : decVal (natToDec n) = n := by
  induction n using Nat.strong_induction_on with
  | _ n ih =>
    rw [natToDec_eq]
    by_cases h : n < 10
    · rw [if_pos h]
      simp only [decVal, List.foldl_cons, List.foldl_nil]
      rw [charToNat_ofNat (by omega)]
      omega
    · rw [if_neg h]
      rw [decVal_append_one, ih (n / 10) (Nat.div_lt_self (by omega) (by omega))]
      rw [charToNat_ofNat (by omega)]
      omega

theorem natToDec_head_ne_zero (n : Nat) (hn : 1 ≤ n) :
    (natToDec n).head? ≠ some '0' := by
  induction n using Nat.strong_induction_on with
  | _ n ih =>
    rw [natToDec_eq]
    by_cases h : n < 10
    · rw [if_pos h]
      intro hc
      simp only [List.head?_cons, Option.some.injEq] at hc
      have := congrArg Char.toNat hc
      rw [charToNat_ofNat (by omega)] at this
      have h0 : ('0' : Char).toNat = 48 := by decide
      omega
    · rw [if_neg h]
      have hdiv : 1 ≤ n / 10 := by omega
      have := ih (n / 10) (Nat.div_lt_self (by omega) (by omega)) hdiv
      intro hc
      refine this ?_
      rcases hh : natToDec (n / 10) with _ | ⟨c, t⟩
      · exact absurd hh (natToDec_ne_nil _)
      · rw [hh] at hc
        simp only [List.cons_append, List.head?_cons, Option.some.injEq] at hc
        simp [hc]

/-! ## Theorems: the zlib model -/

theorem takeWhile_append_all {p : α → Bool} {l₁ : List α} (l₂ : List α)
    (h : ∀ x ∈ l₁, p x) :
    (l₁ ++ l₂).takeWhile p = l₁ ++ l₂.takeWhile p := by
  induction l₁ with
  | nil => simp
  | cons x xs ih =>
    simp only [List.cons_append, List.takeWhile_cons, h x (by simp), if_true]
    rw [ih (fun y hy => h y (by simp [hy]))]

theorem dropWhile_append_all {p : α → Bool} {l₁ : List α} (l₂ : List α)
    (h : ∀ x ∈ l₁, p x) :
    (l₁ ++ l₂).dropWhile p = l₂.dropWhile p := by
  induction l₁ with
  | nil => simp
  | cons x xs ih =>
    simp only [List.cons_append, List.dropWhile_cons, h x (by simp), if_true]
    rw [ih (fun y hy => h y (by simp [hy]))]

theorem zlib_header_digits (d : List Nat) :
    ∀ b ∈ (natToDec d.length).map Char.toNat, 48 ≤ b ∧ b ≤ 57 := by
  intro b hb
  rcases List.mem_map.mp hb with ⟨c, hc, rfl⟩
  exact natToDec_digits _ c hc

theorem zlib_decompress_compress (d : List Nat) :
    zlib_decompress (zlib_compress d) = some d := by
  unfold zlib_compress zlib_decompress
  have hdig := zlib_header_digits d
  have hall : ∀ b ∈ (natToDec d.length).map Char.toNat, (b ≠ 58 : Bool) := by
    intro b hb
    have := hdig b hb
    simp only [ne_eq, decide_eq_true_eq]
    omega
  rw [List.append_assoc]
  rw [takeWhile_append_all (([58] ++ d)) hall, dropWhile_append_all (([58] ++ d)) hall]
  have h58 : (List.takeWhile (fun b => (b ≠ 58 : Bool)) ([58] ++ d)) = [] := by
    simp [List.takeWhile_cons]
  have h58d : (List.dropWhile (fun b => (b ≠ 58 : Bool)) ([58] ++ d)) = 58 :: d := by
    simp [List.dropWhile_cons]
  rw [h58, h58d, List.append_nil]
  simp only []
  rw [if_pos]
  rw [Bool.and_eq_true, Bool.and_eq_true]
  refine ⟨⟨?_, ?_⟩, ?_⟩
  · simp only [ne_eq, decide_eq_true_eq]
    intro hmap
    exact natToDec_ne_nil d.length (List.map_eq_nil_iff.mp hmap)
  · rw [List.all_eq_true]
    intro b hb
    have := hdig b hb
    simp only [Bool.and_eq_true, decide_eq_true_eq]
    omega
  · simp only [decide_eq_true_eq]
    rw [List.foldl_map]
    show decVal (natToDec d.length) = d.length
    exact decVal_natToDec d.length

theorem zlib_decompress_truncated (d : List Nat) (hne : d ≠ []) :
    zlib_decompress ((zlib_compress d).dropLast) = none := by
  unfold zlib_compress zlib_decompress
  have hLd : ((natToDec (d.length)).map Char.toNat ++ [58] ++ d).dropLast =
      (natToDec (d.length)).map Char.toNat ++ [58] ++ d.dropLast := by
    rw [List.append_assoc, List.append_assoc]
    rw [List.dropLast_append_of_ne_nil _ (by simp [hne])]
    congr 1
    rcases d with _ | ⟨x, xs⟩
    · exact absurd rfl hne
    · simp
  rw [hLd]
  have hdig := zlib_header_digits d
  have hall : ∀ b ∈ (natToDec d.length).map Char.toNat, (b ≠ 58 : Bool) := by
    intro b hb
    have := hdig b hb
    simp only [ne_eq, decide_eq_true_eq]
    omega
  rw [List.append_assoc]
  rw [takeWhile_append_all (([58] ++ d.dropLast)) hall,
    dropWhile_append_all (([58] ++ d.dropLast)) hall]
  have h58 : (List.takeWhile (fun b => (b ≠ 58 : Bool)) ([58] ++ d.dropLast)) = [] := by
    simp [List.takeWhile_cons]
  have h58d : (List.dropWhile (fun b => (b ≠ 58 : Bool)) ([58] ++ d.dropLast)) =
      58 :: d.dropLast := by
    simp [List.dropWhile_cons]
  rw [h58, h58d, List.append_nil]
  simp only []
  rw [if_neg]
  intro hand
  rw [Bool.and_eq_true, Bool.and_eq_true] at hand
  rcases hand with ⟨⟨_, _⟩, hlen⟩
  simp only [decide_eq_true_eq] at hlen
  rw [List.foldl_map] at hlen
  have hdv : decVal (natToDec d.length) = d.length := decVal_natToDec d.length
  have : decVal (natToDec d.length) = d.dropLast.length := hlen
  rw [hdv] at this
  have hdl : d.dropLast.length = d.length - 1 := List.length_dropLast d
  have hpos : 1 ≤ d.length := by
    rcases d with _ | _
    · exact absurd rfl hne
    · simp
  omega

/-- Round trip of the bit packer: packing then unpacking with the recorded
length restores any non-empty binary string, leading zeros included. -/
theorem unpackBits_packBits (s : PyStr) (hne : s ≠ [])
    (hbin : ∀ c ∈ s, c = '0' ∨ c = '1') :
    ∃ bs, packBits s = .ok bs ∧ bs.length = (s.length + 7) / 8 ∧
      unpackBits bs s.length = s := by
  refine ⟨_, packBits_ok s hne hbin, natToBytesBE_length _ _, ?_⟩
  unfold unpackBits
  rw [fromBytesBE_natToBytesBE]
  · exact zfill_natToBin_binVal s hne hbin
  · calc binVal s < 2 ^ s.length := binVal_lt s
      _ ≤ 2 ^ (8 * ((s.length + 7) / 8)) := by
        apply Nat.pow_le_pow_right (by omega)
        omega
      _ = 256 ^ ((s.length + 7) / 8) := by
        rw [Nat.pow_mul]

/-! ## Theorems: tree construction -/

theorem heapSyms_nil : heapSyms [] = [] := rfl

theorem heapSyms_cons (e : Entry) (rest : List Entry) :
    heapSyms (e :: rest) = e.2.map (·.1) ++ heapSyms rest := by
  simp [heapSyms]

theorem heapSyms_append (h1 h2 : List Entry) :
    heapSyms (h1 ++ h2) = heapSyms h1 ++ heapSyms h2 := by
  simp [heapSyms]

theorem heapSyms_single (e : Entry) : heapSyms [e] = e.2.map (·.1) := by
  simp [heapSyms]

theorem heapSyms_mergeEntry (lo hi : Entry) :
    heapSyms [mergeEntry lo hi] = lo.2.map (·.1) ++ hi.2.map (·.1) := by
  simp [heapSyms, mergeEntry, Function.comp_def]

theorem heapSyms_step_perm (lo hi : Entry) (rest : List Entry) :
    (heapSyms (rest ++ [mergeEntry lo hi])).Perm (heapSyms (lo :: hi :: rest)) := by
  rw [heapSyms_append, heapSyms_mergeEntry, heapSyms_cons, heapSyms_cons]
  refine List.Perm.trans List.perm_append_comm ?_
  rw [List.append_assoc]

theorem PrefFree_of_perm {ps qs : List Pair} (hp : ps.Perm qs) (h : PrefFree ps) :
    PrefFree qs := by
  unfold PrefFree at *
  exact (hp.pairwise_iff (fun hxy => ⟨hxy.2, hxy.1⟩)).mp h

theorem PrefFree_mergeEntry {lo hi : Entry}
    (hl : PrefFree lo.2) (hh : PrefFree hi.2) :
    PrefFree (mergeEntry lo hi).2 := by
  unfold PrefFree at *
  show List.Pairwise _ (lo.2.map (fun p => (p.1, '0' :: p.2)) ++
    hi.2.map (fun p => (p.1, '1' :: p.2)))
  rw [List.pairwise_append]
  refine ⟨?_, ?_, ?_⟩
  · rw [List.pairwise_map]
    refine hl.imp ?_
    intro p q hpq
    simpa [List.cons_prefix_cons] using hpq
  · rw [List.pairwise_map]
    refine hh.imp ?_
    intro p q hpq
    simpa [List.cons_prefix_cons] using hpq
  · intro a ha b hb
    rcases List.mem_map.mp ha with ⟨p, _, rfl⟩
    rcases List.mem_map.mp hb with ⟨q, _, rfl⟩
    constructor
    · intro hpre
      rw [List.cons_prefix_cons] at hpre
      exact absurd hpre.1 (by decide)
    · intro hpre
      rw [List.cons_prefix_cons] at hpre
      exact absurd hpre.1 (by decide)

theorem HeapInv_of_perm {h1 h2 : List Entry} (hp : h1.Perm h2)
    (hi : HeapInv h1) : HeapInv h2 := by
  constructor
  · have hp2 : (heapSyms h1).Perm (heapSyms h2) := by
      unfold heapSyms
      exact hp.flatMap_right (fun e => e.2.map (·.1))
    exact hp2.nodup hi.nodup
  · intro e he
    exact hi.pf e (hp.mem_iff.mpr he)

theorem HeapInv_step {lo hi : Entry} {rest : List Entry}
    (h : HeapInv (lo :: hi :: rest)) : HeapInv (rest ++ [mergeEntry lo hi]) := by
  constructor
  · exact ((heapSyms_step_perm lo hi rest).symm).nodup h.nodup
  · intro e he
    rcases List.mem_append.mp he with h1 | h1
    · exact h.pf e (by simp [h1])
    · simp only [List.mem_singleton] at h1
      subst h1
      exact PrefFree_mergeEntry (h.pf lo (by simp)) (h.pf hi (by simp))

theorem construirLoop_base {heap : List Entry} (h : heap.length ≤ 1) :
    construirLoop heap = heap := by
  show construirLoopAux heap.length heap = heap
  rcases hl : heap.length with _ | n
  · rfl
  · simp only [construirLoopAux]
    rw [if_pos (show heap.length ≤ 1 from h)]

theorem construirLoop_step {heap : List Entry} (h : ¬ heap.length ≤ 1)
    {lo hi : Entry} {rest : List Entry}
    (hs : pySort entryLt heap = lo :: hi :: rest) :
    construirLoop heap = construirLoop (rest ++ [mergeEntry lo hi]) := by
  have hlen : heap.length = rest.length + 2 := by
    have := @pySort_length _ entryLt _ heap
    rw [hs] at this
    simp only [List.length_cons] at this
    omega
  have hlen2 : (rest ++ [mergeEntry lo hi]).length = rest.length + 1 := by
    simp
  show construirLoopAux heap.length heap =
    construirLoopAux (rest ++ [mergeEntry lo hi]).length (rest ++ [mergeEntry lo hi])
  rw [hlen, hlen2]
  simp only [construirLoopAux]
  rw [if_neg h, hs]

theorem pySort_entry_cases {heap : List Entry} (h : ¬ heap.length ≤ 1) :
    ∃ lo hi rest, pySort entryLt heap = lo :: hi :: rest := by
  rcases hs : pySort entryLt heap with _ | ⟨lo, _ | ⟨hi, rest⟩⟩
  · have := @pySort_length _ entryLt _ heap
    rw [hs] at this
    simp only [List.length_nil] at this
    omega
  · have := @pySort_length _ entryLt _ heap
    rw [hs] at this
    simp only [List.length_singleton] at this
    omega
  · exact ⟨lo, hi, rest, rfl⟩

/-- Induction along the runs of the construction loop. -/
theorem construirLoop_ind (motive : List Entry → Prop)
    (base : ∀ heap : List Entry, heap.length ≤ 1 → motive heap)
    (step : ∀ (heap : List Entry) (lo hi : Entry) (rest : List Entry),
      ¬ heap.length ≤ 1 → pySort entryLt heap = lo :: hi :: rest →
      motive (rest ++ [mergeEntry lo hi]) → motive heap) :
    ∀ heap, motive heap := by
  have H : ∀ n heap, List.length heap ≤ n → motive heap := by
    intro n
    induction n with
    | zero =>
      intro heap h
      exact base heap (by omega)
    | succ n ih =>
      intro heap hlen
      by_cases hle : heap.length ≤ 1
      · exact base heap hle
      · obtain ⟨lo, hi, rest, hs⟩ := pySort_entry_cases hle
        refine step heap lo hi rest hle hs (ih _ ?_)
        have := @pySort_length _ entryLt _ heap
        rw [hs] at this
        simp only [List.length_cons] at this
        simp only [List.length_append, List.length_cons, List.length_nil]
        omega
  exact fun heap => H heap.length heap le_rfl

theorem construirLoop_inv (heap : List Entry) (hinv : HeapInv heap) :
    HeapInv (construirLoop heap) := by
  induction heap using construirLoop_ind with
  | base x hle =>
    rw [construirLoop_base hle]
    exact hinv
  | step x lo hi rest hle hs ih =>
    rw [construirLoop_step hle hs]
    refine ih ?_
    refine HeapInv_step ?_
    refine HeapInv_of_perm ?_ hinv
    have := @pySort_perm _ entryLt _ x
    rw [hs] at this
    exact this.symm

theorem construirLoop_syms (heap : List Entry) :
    (heapSyms (construirLoop heap)).Perm (heapSyms heap) := by
  induction heap using construirLoop_ind with
  | base x hle =>
    rw [construirLoop_base hle]
  | step x lo hi rest hle hs ih =>
    rw [construirLoop_step hle hs]
    refine ih.trans ?_
    refine (heapSyms_step_perm lo hi rest).trans ?_
    have hperm := @pySort_perm _ entryLt _ x
    rw [hs] at hperm
    have hp2 : (heapSyms (lo :: hi :: rest)).Perm (heapSyms x) := by
      unfold heapSyms
      exact hperm.flatMap_right (fun e => e.2.map (·.1))
    exact hp2

theorem construirLoop_length (heap : List Entry) :
    (construirLoop heap).length ≤ 1 := by
  induction heap using construirLoop_ind with
  | base x hle =>
    rw [construirLoop_base hle]
    exact hle
  | step x lo hi rest hle hs ih =>
    rw [construirLoop_step hle hs]
    exact ih

theorem construirLoop_ne_nil (heap : List Entry) (hne : heap ≠ []) :
    construirLoop heap ≠ [] := by
  induction heap using construirLoop_ind with
  | base x hle =>
    rw [construirLoop_base hle]
    exact hne
  | step x lo hi rest hle hs ih =>
    rw [construirLoop_step hle hs]
    refine ih ?_
    simp

theorem construirLoop_codes (heap : List Entry)
    (hd : 2 ≤ heap.length ∨ ∀ e ∈ heap, ∀ p ∈ e.2, p.2 ≠ []) :
    ∀ e ∈ construirLoop heap, ∀ p ∈ e.2, p.2 ≠ [] := by
  induction heap using construirLoop_ind with
  | base x hle =>
    rw [construirLoop_base hle]
    rcases hd with h | h
    · omega
    · exact h
  | step x lo hi rest hle hs ih =>
    rw [construirLoop_step hle hs]
    refine ih ?_
    rcases rest with _ | ⟨r0, rrest⟩
    · refine Or.inr ?_
      intro e he p hp
      simp only [List.nil_append, List.mem_singleton] at he
      subst he
      rcases List.mem_append.mp hp with h1 | h1
      · rcases List.mem_map.mp h1 with ⟨q, _, rfl⟩
        simp
      · rcases List.mem_map.mp h1 with ⟨q, _, rfl⟩
        simp
    · refine Or.inl ?_
      simp

/-! ## Theorems: the frequency table -/

theorem bump_keys_mem (l : List (PyStr × Nat)) (c : Char) (k : PyStr) :
    k ∈ (bump l c).map (·.1) ↔ k ∈ l.map (·.1) ∨ k = [c] := by
  induction l with
  | nil => simp [bump]
  | cons kv rest ih =>
    by_cases h : kv.1 = [c]
    · simp [bump, h]
      tauto
    · simp only [bump, if_neg h, List.map_cons, List.mem_cons, ih]
      tauto

theorem bump_keys_nodup (l : List (PyStr × Nat)) (c : Char)
    (h : (l.map (·.1)).Nodup) : ((bump l c).map (·.1)).Nodup := by
  induction l with
  | nil => simp [bump]
  | cons kv rest ih =>
    by_cases hk : kv.1 = [c]
    · simpa [bump, hk] using h
    · simp only [bump, if_neg hk, List.map_cons, List.nodup_cons]
      simp only [List.map_cons, List.nodup_cons] at h
      refine ⟨?_, ih h.2⟩
      rw [bump_keys_mem]
      rintro (hmem | hemem)
      · exact h.1 hmem
      · exact hk hemem

theorem foldl_bump_keys_mem (t : PyStr) :
    ∀ (acc : List (PyStr × Nat)) (k : PyStr),
      k ∈ (t.foldl bump acc).map (·.1) ↔ k ∈ acc.map (·.1) ∨ ∃ c ∈ t, k = [c] := by
  induction t with
  | nil => simp
  | cons c rest ih =>
    intro acc k
    simp only [List.foldl_cons, ih, bump_keys_mem, List.mem_cons]
    constructor
    · rintro (( h | h) | ⟨d, hd, rfl⟩)
      · exact Or.inl h
      · exact Or.inr ⟨c, Or.inl rfl, h⟩
      · exact Or.inr ⟨d, Or.inr hd, rfl⟩
    · rintro (h | ⟨d, (rfl | hd), rfl⟩)
      · exact Or.inl (Or.inl h)
      · exact Or.inl (Or.inr rfl)
      · exact Or.inr ⟨d, hd, rfl⟩

theorem foldl_bump_keys_nodup (t : PyStr) :
    ∀ (acc : List (PyStr × Nat)), (acc.map (·.1)).Nodup →
      ((t.foldl bump acc).map (·.1)).Nodup := by
  induction t with
  | nil => intro acc h; simpa using h
  | cons c rest ih =>
    intro acc h
    exact ih (bump acc c) (bump_keys_nodup acc c h)

theorem calcular_frequencias_keys (t : PyStr) (k : PyStr) :
    k ∈ (calcular_frequencias t).map (·.1) ↔ ∃ c ∈ t, k = [c] := by
  unfold calcular_frequencias
  rw [foldl_bump_keys_mem]
  simp

theorem calcular_frequencias_nodup (t : PyStr) :
    ((calcular_frequencias t).map (·.1)).Nodup := by
  unfold calcular_frequencias
  exact foldl_bump_keys_nodup t [] (by simp)

theorem calcular_frequencias_ne_nil (t : PyStr) (hne : t ≠ []) :
    calcular_frequencias t ≠ [] := by
  rcases t with _ | ⟨c, rest⟩
  · exact absurd rfl hne
  · intro h
    have := (calcular_frequencias_keys (c :: rest) [c]).mpr ⟨c, by simp, rfl⟩
    rw [h] at this
    simp at this

theorem two_mem_length {l : List α} {a b : α} (ha : a ∈ l) (hb : b ∈ l)
    (hab : a ≠ b) : 2 ≤ l.length := by
  rcases l with _ | ⟨x, _ | ⟨y, rest⟩⟩
  · simp at ha
  · simp at ha hb
    exact absurd (ha.trans hb.symm) hab
  · simp

theorem calcular_frequencias_two (t : PyStr) {c d : Char}
    (hc : c ∈ t) (hd : d ∈ t) (hcd : c ≠ d) :
    2 ≤ (calcular_frequencias t).length := by
  have h1 := (calcular_frequencias_keys t [c]).mpr ⟨c, hc, rfl⟩
  have h2 := (calcular_frequencias_keys t [d]).mpr ⟨d, hd, rfl⟩
  have := two_mem_length h1 h2 (by simpa using hcd)
  simpa using this

/-! ## Theorems: `_construir_arvore_huffman` -/

theorem heapSyms_init (freq : List (PyStr × Nat)) :
    heapSyms (freq.map (fun sf => (sf.2, [(sf.1, [])]))) = freq.map (·.1) := by
  unfold heapSyms
  induction freq with
  | nil => simp
  | cons kv rest ih => simpa using ih

theorem construir_arvore_ok (freq : List (PyStr × Nat))
    (hnd : (freq.map (·.1)).Nodup) (hne : freq ≠ []) :
    ∃ ps, construir_arvore_huffman freq = .ok ps ∧
      (ps.map (·.1)).Perm (freq.map (·.1)) ∧ PrefFree ps ∧
      (2 ≤ freq.length → ∀ p ∈ ps, p.2 ≠ []) := by
  unfold construir_arvore_huffman
  have hsyms0 : heapSyms (freq.map (fun sf => (sf.2, [(sf.1, [])]))) =
      freq.map (·.1) := heapSyms_init freq
  have hinv0 : HeapInv (freq.map (fun sf => (sf.2, [(sf.1, [])]))) := by
    constructor
    · rw [hsyms0]; exact hnd
    · intro e he
      rcases List.mem_map.mp he with ⟨sf, _, rfl⟩
      simp [PrefFree]
  have hne0 : freq.map (fun sf => (sf.2, [(sf.1, ([] : PyStr))])) ≠ [] := by
    simpa using hne
  have hlen0 : (freq.map (fun sf => (sf.2, [(sf.1, ([] : PyStr))]))).length =
      freq.length := by simp
  rcases hres : construirLoop (freq.map (fun sf => (sf.2, [(sf.1, [])]))) with _ | ⟨e, rest⟩
  · exact absurd hres (construirLoop_ne_nil _ hne0)
  · have hinv := construirLoop_inv _ hinv0
    rw [hres] at hinv
    have hsyms := construirLoop_syms (freq.map (fun sf => (sf.2, [(sf.1, [])])))
    rw [hres, hsyms0] at hsyms
    have hlen1 := construirLoop_length (freq.map (fun sf => (sf.2, [(sf.1, [])])))
    rw [hres] at hlen1
    simp only [List.length_cons] at hlen1
    have hrest : rest = [] := by
      rcases rest with _ | _
      · rfl
      · simp at hlen1
    subst hrest
    rw [hres]
    refine ⟨pySort pairKeyLt e.2, rfl, ?_, ?_, ?_⟩
    · have hperm : ((pySort pairKeyLt e.2).map (·.1)).Perm (e.2.map (·.1)) :=
        (pySort_perm e.2).map (·.1)
      refine hperm.trans ?_
      rw [heapSyms_single] at hsyms
      exact hsyms
    · exact PrefFree_of_perm (pySort_perm e.2).symm (hinv.pf e (by simp))
    · intro h2 p hp
      have hcodes := construirLoop_codes (freq.map (fun sf => (sf.2, [(sf.1, [])])))
        (Or.inl (by omega))
      rw [hres] at hcodes
      exact hcodes e (by simp) p ((pySort_perm e.2).mem_iff.mp hp)

/-! ## Theorems: dict lookups -/

theorem dictGet_none {d : List Pair} {k : PyStr} (h : k ∉ d.map (·.1)) :
    dictGet d k = none := by
  unfold dictGet
  rw [Option.map_eq_none', List.find?_eq_none]
  intro p hp
  simp only [decide_eq_true_eq]
  intro hk
  exact h (List.mem_map.mpr ⟨p, hp, hk⟩)

theorem dictGet_mem {d : List Pair} {k v : PyStr} (h : dictGet d k = some v) :
    (k, v) ∈ d := by
  unfold dictGet at h
  rcases Option.map_eq_some'.mp h with ⟨p, hp, rfl⟩
  have hmem := List.mem_of_find?_eq_some hp
  have hkey := List.find?_some hp
  simp only [decide_eq_true_eq] at hkey
  subst hkey
  exact hmem

theorem dictGet_of_key_mem {d : List Pair} {k : PyStr} (h : k ∈ d.map (·.1)) :
    ∃ v, dictGet d k = some v := by
  induction d with
  | nil => simp at h
  | cons p rest ih =>
    by_cases hk : p.1 = k
    · exact ⟨p.2, by simp [dictGet, List.find?_cons, hk]⟩
    · have h2 : k ∈ rest.map (·.1) := by
        simp only [List.map_cons, List.mem_cons] at h
        rcases h with h | h
        · exact absurd h.symm hk
        · exact h
      rcases ih h2 with ⟨v, hv⟩
      refine ⟨v, ?_⟩
      simpa [dictGet, List.find?_cons, hk] using hv

theorem dictGet_of_nodup {d : List Pair} (hnd : (d.map (·.1)).Nodup)
    {k v : PyStr} (hmem : (k, v) ∈ d) : dictGet d k = some v := by
  induction d with
  | nil => simp at hmem
  | cons p rest ih =>
    simp only [List.map_cons, List.nodup_cons] at hnd
    rcases List.mem_cons.mp hmem with heq | htail
    · subst heq
      simp [dictGet, List.find?_cons]
    · have hk : p.1 ≠ k := by
        intro hk
        exact hnd.1 (List.mem_map.mpr ⟨(k, v), htail, by rw [hk]⟩)
      simpa [dictGet, List.find?_cons, hk] using ih hnd.2 htail

/-! ## Theorems: `_codificar_lista` -/

theorem codificar_ok (t : PyStr) (d : List Pair)
    (h : ∀ c ∈ t, ∃ v, dictGet d [c] = some v) :
    codificar_lista t d = .ok (encBits t d) := by
  induction t with
  | nil => rfl
  | cons c rest ih =>
    rcases h c (by simp) with ⟨v, hv⟩
    rw [codificar_lista, hv, ih (fun c2 hc2 => h c2 (by simp [hc2]))]
    simp [encBits, hv, Except.map]

theorem codificar_err (t : PyStr) (d : List Pair)
    (h : ∃ c ∈ t, dictGet d [c] = none) :
    codificar_lista t d = .error .valueError := by
  induction t with
  | nil => simp at h
  | cons c rest ih =>
    rcases hc : dictGet d [c] with _ | v
    · rw [codificar_lista, hc]
    · rw [codificar_lista, hc]
      have hrest : ∃ c2 ∈ rest, dictGet d [c2] = none := by
        rcases h with ⟨c2, hmem, hnone⟩
        rcases List.mem_cons.mp hmem with rfl | htail
        · rw [hc] at hnone
          cases hnone
        · exact ⟨c2, htail, hnone⟩
      rw [ih hrest]
      rfl


/-! ## Theorems: `_decodificar_texto` -/

theorem PrefFree_codes_nodup {ps : List Pair} (hpf : PrefFree ps) :
    (ps.map (·.2)).Nodup := by
  unfold PrefFree at hpf
  apply List.pairwise_map.mpr
  refine hpf.imp ?_
  intro p q h heq
  exact h.1 (heq ▸ List.prefix_refl p.2)

theorem invertDict_keys_nodup {ps : List Pair} (hpf : PrefFree ps) :
    ((invertDict ps).map (·.1)).Nodup := by
  unfold invertDict
  rw [List.map_reverse, List.nodup_reverse, List.map_map]
  exact PrefFree_codes_nodup hpf

theorem mem_invertDict {ps : List Pair} {s w : PyStr} :
    (w, s) ∈ invertDict ps ↔ (s, w) ∈ ps := by
  unfold invertDict
  rw [List.mem_reverse, List.mem_map]
  constructor
  · rintro ⟨⟨a, b⟩, hp, heq⟩
    simp only [Prod.mk.injEq] at heq
    rcases heq with ⟨rfl, rfl⟩
    exact hp
  · intro h
    exact ⟨(s, w), h, rfl⟩

theorem dictGet_invertDict_eq {ps : List Pair} (hpf : PrefFree ps)
    {s w : PyStr} (hmem : (s, w) ∈ ps) :
    dictGet (invertDict ps) w = some s :=
  dictGet_of_nodup (invertDict_keys_nodup hpf) (mem_invertDict.mpr hmem)

theorem dictGet_invertDict_none {ps : List Pair} {u : PyStr}
    (h : ∀ s : PyStr, (s, u) ∉ ps) :
    dictGet (invertDict ps) u = none := by
  apply dictGet_none
  intro hmem
  rcases List.mem_map.mp hmem with ⟨⟨w2, s2⟩, hmem2, heq⟩
  simp only at heq
  subst heq
  exact h s2 (mem_invertDict.mp hmem2)

theorem no_code_strict_pref {ps : List Pair} (hpf : PrefFree ps)
    {s w : PyStr} (hmem : (s, w) ∈ ps) {u : PyStr} (hu : u <+: w) (hne : u ≠ w) :
    ∀ s2, (s2, u) ∉ ps := by
  intro s2 hmem2
  have hpair_ne : (s2, u) ≠ (s, w) := by
    intro heq
    simp only [Prod.mk.injEq] at heq
    exact hne heq.2
  have hsymm : Symmetric (fun p q : Pair => ¬ p.2 <+: q.2 ∧ ¬ q.2 <+: p.2) := by
    intro p q h
    exact ⟨h.2, h.1⟩
  have hrel := (List.Pairwise.forall hsymm hpf) hmem2 hmem hpair_ne
  exact hrel.1 hu

theorem decodLoop_cons_some {inv : List Pair} {acc : PyStr} {b : Char}
    {rest : PyStr} {sym : PyStr} (h : dictGet inv (acc ++ [b]) = some sym) :
    decodLoop inv acc (b :: rest) = sym ++ decodLoop inv [] rest := by
  simp only [decodLoop]
  rw [h]

theorem decodLoop_cons_none {inv : List Pair} {acc : PyStr} {b : Char}
    {rest : PyStr} (h : dictGet inv (acc ++ [b]) = none) :
    decodLoop inv acc (b :: rest) = decodLoop inv (acc ++ [b]) rest := by
  simp only [decodLoop]
  rw [h]

theorem decodLoop_scan {ps : List Pair} (hpf : PrefFree ps)
    {s w : PyStr} (hmem : (s, w) ∈ ps) :
    ∀ (v u rest : PyStr), w = u ++ v → v ≠ [] →
      decodLoop (invertDict ps) u (v ++ rest) =
        s ++ decodLoop (invertDict ps) [] rest := by
  intro v
  induction v with
  | nil =>
    intro u rest _ hne
    exact absurd rfl hne
  | cons b v2 ih =>
    intro u rest hw _
    rw [List.cons_append]
    rcases v2 with _ | ⟨b2, v3⟩
    · have heq : u ++ [b] = w := hw.symm
      have hget : dictGet (invertDict ps) (u ++ [b]) = some s := by
        rw [heq]
        exact dictGet_invertDict_eq hpf hmem
      rw [decodLoop_cons_some hget]
      rw [List.nil_append]
    · have hpre : (u ++ [b]) <+: w := by
        refine ⟨b2 :: v3, ?_⟩
        rw [hw]
        simp
      have hne2 : u ++ [b] ≠ w := by
        intro heq
        have := congrArg List.length heq
        rw [hw] at this
        simp at this
      have hget : dictGet (invertDict ps) (u ++ [b]) = none :=
        dictGet_invertDict_none (no_code_strict_pref hpf hmem hpre hne2)
      rw [decodLoop_cons_none hget]
      refine ih (u ++ [b]) rest ?_ (by simp)
      rw [hw]
      simp

theorem decodLoop_encBits {ps : List Pair} (hpf : PrefFree ps)
    (hcodes : ∀ p ∈ ps, p.2 ≠ []) :
    ∀ (t rest : PyStr), (∀ c ∈ t, ∃ v, dictGet ps [c] = some v) →
      decodLoop (invertDict ps) [] (encBits t ps ++ rest) =
        t ++ decodLoop (invertDict ps) [] rest := by
  intro t
  induction t with
  | nil =>
    intro rest _
    simp [encBits]
  | cons c t2 ih =>
    intro rest h
    rcases h c (by simp) with ⟨w, hw⟩
    have hmem := dictGet_mem hw
    have hwne : w ≠ [] := hcodes ([c], w) hmem
    have henc : encBits (c :: t2) ps = w ++ encBits t2 ps := by
      simp [encBits, hw]
    rw [henc, List.append_assoc]
    rw [decodLoop_scan hpf hmem w [] (encBits t2 ps ++ rest) (by simp) hwne]
    rw [ih rest (fun c2 hc2 => h c2 (by simp [hc2]))]
    rfl

theorem decodLoop_nomatch (inv : List Pair) :
    ∀ (v acc : PyStr),
      (∀ u b v2, v = u ++ b :: v2 → dictGet inv (acc ++ u ++ [b]) = none) →
      decodLoop inv acc v = [] := by
  intro v
  induction v with
  | nil => intro acc _; rfl
  | cons b v2 ih =>
    intro acc h
    have h0 := h [] b v2 (by simp)
    rw [List.append_nil] at h0
    rw [decodLoop_cons_none h0]
    refine ih (acc ++ [b]) ?_
    intro u b2 v3 hsplit
    have := h (b :: u) b2 v3 (by rw [hsplit]; simp)
    rw [show acc ++ b :: u ++ [b2] = acc ++ [b] ++ u ++ [b2] by simp] at this
    exact this

/-! ## Theorems: the reader-side decode on the parsed JSON table -/

theorem invertJ_tableVal (ps : List Pair) :
    invertJ (ps.map (fun p => (p.1, PyVal.pStr p.2))) =
      (invertDict ps).map (fun q => (PyVal.pStr q.1, q.2)) := by
  simp [invertJ, invertDict, List.map_map, List.map_reverse, Function.comp_def]

theorem findJ_eq_dictGet (inv : List Pair) (k : PyStr) :
    ((inv.map (fun q => (PyVal.pStr q.1, q.2))).find?
        (fun p => p.1 = PyVal.pStr k)).map (·.2) = dictGet inv k := by
  induction inv with
  | nil => rfl
  | cons q rest ih =>
    simp only [List.map_cons, List.find?_cons]
    by_cases h : q.1 = k
    · subst h
      simp [dictGet, List.find?_cons]
    · have h2 : (decide (PyVal.pStr q.1 = PyVal.pStr k)) = false := by
        simp only [decide_eq_false_iff_not]
        intro heq
        exact h (PyVal.pStr.inj heq)
      have h3 : (decide (q.1 = k)) = false := by simp [h]
      rw [h2]
      unfold dictGet
      rw [List.find?_cons, h3]
      exact ih

theorem decodJLoop_eq (inv : List Pair) :
    ∀ texto acc, decodJLoop (inv.map (fun q => (PyVal.pStr q.1, q.2))) acc texto =
      decodLoop inv acc texto := by
  intro texto
  induction texto with
  | nil => intro acc; rfl
  | cons b rest ih =>
    intro acc
    simp only [decodJLoop, decodLoop, findJ_eq_dictGet]
    cases h : dictGet inv (acc ++ [b]) with
    | none => exact ih (acc ++ [b])
    | some sym => rw [ih []]

/-- On the table shape the writer serializes, the reader-side decode is the
pure scanning loop over the inverted table. -/
theorem decodificar_texto_json_table (texto : PyStr) (ps : List Pair) :
    decodificar_texto_json texto (tableVal ps) =
      .ok (decodificar_texto texto ps) := by
  have hall : ((ps.map (fun p => (p.1, PyVal.pStr p.2))).all
      fun e => e.2.isHashable) = true := by
    rw [List.all_eq_true]
    intro e he
    rcases List.mem_map.mp he with ⟨p, _, rfl⟩
    rfl
  unfold decodificar_texto
  simp only [decodificar_texto_json, tableVal, hall, if_true]
  rw [invertJ_tableVal, decodJLoop_eq]

/-! ## Theorems: the JSON parser, support lemmas -/

theorem skipWs_cons_not {c : Char} (h : isJsonWs c = false) (l : PyStr) :
    skipWs (c :: l) = c :: l := by
  simp [skipWs, List.dropWhile_cons, h]

theorem skipWs_space (l : PyStr) : skipWs (' ' :: l) = skipWs l := by
  simp [skipWs, List.dropWhile_cons, isJsonWs]

theorem jsonSafeChar_elim {c : Char} (h : jsonSafeChar c = true) :
    32 ≤ c.toNat ∧ c.toNat ≤ 126 ∧ c ≠ dquoteChar ∧ c ≠ backslashChar := by
  unfold jsonSafeChar at h
  simp only [Bool.and_eq_true, decide_eq_true_eq] at h
  exact ⟨h.1.1.1, h.1.1.2, h.1.2, h.2⟩

theorem jsonEscChar_safe {c : Char} (h : jsonSafeChar c = true) :
    jsonEscChar c = [c] := by
  obtain ⟨h1, h2, h3, h4⟩ := jsonSafeChar_elim h
  have hbn : ∀ n : Nat, n < 32 → c ≠ Char.ofNat n := by
    intro n hn heq
    rw [heq, charToNat_ofNat (by omega)] at h1
    omega
  unfold jsonEscChar
  rw [if_neg h3, if_neg h4, if_neg (hbn 8 (by omega)), if_neg (hbn 9 (by omega)),
    if_neg (hbn 10 (by omega)), if_neg (hbn 12 (by omega)), if_neg (hbn 13 (by omega)),
    if_pos]
  simp only [Bool.and_eq_true, decide_eq_true_eq]
  omega

theorem flatMap_jsonEscChar_safe {s : PyStr} (h : ∀ c ∈ s, jsonSafeChar c = true) :
    s.flatMap jsonEscChar = s := by
  induction s with
  | nil => rfl
  | cons c rest ih =>
    rw [List.flatMap_cons, jsonEscChar_safe (h c (by simp)),
      ih (fun d hd => h d (by simp [hd]))]
    rfl

theorem jsonDumpStr_safe {s : PyStr} (h : ∀ c ∈ s, jsonSafeChar c = true) :
    jsonDumpStr s = dquoteChar :: s ++ [dquoteChar] := by
  unfold jsonDumpStr
  rw [flatMap_jsonEscChar_safe h]

theorem parseStrBody_safe {s : PyStr} (h : ∀ c ∈ s, jsonSafeChar c = true) :
    ∀ rest, parseStrBody (s ++ dquoteChar :: rest) = some (s, rest) := by
  induction s with
  | nil =>
    intro rest
    show parseStrBody (dquoteChar :: rest) = _
    unfold parseStrBody
    rw [if_pos rfl]
  | cons c s2 ih =>
    intro rest
    obtain ⟨h1, h2, h3, h4⟩ := jsonSafeChar_elim (h c (by simp))
    show parseStrBody (c :: (s2 ++ dquoteChar :: rest)) = _
    unfold parseStrBody
    rw [if_neg h3, if_neg h4, if_neg (by omega)]
    rw [ih (fun d hd => h d (by simp [hd])) rest]
    rfl

theorem natToDec_no_leading_zero (n : Nat) :
    (2 ≤ (natToDec n).length && (natToDec n).head? = some '0') = false := by
  by_cases h : n < 10
  · rw [natToDec_eq, if_pos h]
    rfl
  · rw [Bool.and_eq_false_iff]
    right
    have := natToDec_head_ne_zero n (by omega)
    simp only [decide_eq_false_iff_not]
    exact this

theorem takeWhile_digits_natToDec (n : Nat) {rest : PyStr}
    (hrest : numSafe rest = true) :
    (natToDec n ++ rest).takeWhile isDigitChar = natToDec n ∧
    (natToDec n ++ rest).dropWhile isDigitChar = rest := by
  have hall : ∀ c ∈ natToDec n, isDigitChar c = true := by
    intro c hc
    have := natToDec_digits n c hc
    simp only [isDigitChar, Bool.and_eq_true, decide_eq_true_eq]
    omega
  constructor
  · rw [takeWhile_append_all rest hall]
    rcases rest with _ | ⟨c, r⟩
    · simp
    · unfold numSafe at hrest
      simp only [Bool.and_eq_true, Bool.not_eq_true'] at hrest
      simp [List.takeWhile_cons, hrest.1.1.1]
  · rw [dropWhile_append_all rest hall]
    rcases rest with _ | ⟨c, r⟩
    · simp
    · unfold numSafe at hrest
      simp only [Bool.and_eq_true, Bool.not_eq_true'] at hrest
      simp [List.dropWhile_cons, hrest.1.1.1]


theorem parseNumCore_natToDec (n : Nat) {rest : PyStr}
    (hrest : numSafe rest = true) :
    parseNumCore (natToDec n ++ rest) = some (n, rest) := by
  obtain ⟨htake, hdrop⟩ := takeWhile_digits_natToDec n hrest
  unfold parseNumCore
  rw [htake, hdrop]
  have hguard := natToDec_no_leading_zero n
  have hdv : decVal (natToDec n) = n := decVal_natToDec n
  rw [if_neg (by simp [natToDec_ne_nil n]), if_neg (by rw [hguard]; exact Bool.false_ne_true)]
  rcases rest with _ | ⟨c, r⟩
  · rw [hdv]
  · unfold numSafe at hrest
    simp only [Bool.and_eq_true, Bool.not_eq_true', decide_eq_true_eq] at hrest
    have hcond : (decide (c = '.') || decide (c = 'e') || decide (c = 'E')) = false := by
      simp only [Bool.or_eq_false_iff, decide_eq_false_iff_not]
      exact ⟨⟨hrest.1.1.2, hrest.1.2⟩, hrest.2⟩
    show (if (decide (c = '.') || decide (c = 'e') || decide (c = 'E')) = true then none
        else some (decVal (natToDec n), c :: r)) = some (n, c :: r)
    rw [hcond, hdv]
    simp

theorem parseNum_intToDec (i : Int) {rest : PyStr} (hrest : numSafe rest = true) :
    parseNum (intToDec i ++ rest) = some (.pInt i, rest) := by
  unfold intToDec
  by_cases hi : i < 0
  · rw [if_pos hi]
    show parseNum ('-' :: (natToDec i.natAbs ++ rest)) = _
    simp only [parseNum]
    rw [if_pos trivial, parseNumCore_natToDec i.natAbs hrest]
    have hv : -((i.natAbs : Nat) : Int) = i := by omega
    rw [Option.map_some']
    rw [hv]
  · rw [if_neg hi]
    rcases hsh : natToDec i.natAbs with _ | ⟨d, ds⟩
    · exact absurd hsh (natToDec_ne_nil _)
    · have hd : 48 ≤ d.toNat ∧ d.toNat ≤ 57 := by
        have := natToDec_digits i.natAbs d (by rw [hsh]; simp)
        exact this
      have hdneg : d ≠ '-' := by
        intro heq
        rw [heq] at hd
        have : ('-' : Char).toNat = 45 := by decide
        omega
      show parseNum (d :: (ds ++ rest)) = _
      simp only [parseNum]
      rw [if_neg hdneg]
      have hfold : d :: (ds ++ rest) = natToDec i.natAbs ++ rest := by
        rw [hsh]
        rfl
      rw [hfold, parseNumCore_natToDec i.natAbs hrest]
      have hv : ((i.natAbs : Nat) : Int) = i := by omega
      rw [Option.map_some']
      rw [hv]

theorem char_ne_of_toNat {c d : Char} (h : c.toNat ≠ d.toNat) : c ≠ d :=
  fun heq => h (by rw [heq])

theorem parseVal_ws (f : Nat) (s : PyStr) :
    parseVal f (' ' :: s) = parseVal f s := by
  cases f with
  | zero => rfl
  | succ f => simp only [parseVal, skipWs_space]

theorem parseItems_ws (f : Nat) (s : PyStr) :
    parseItems f (' ' :: s) = parseItems f s := by
  cases f with
  | zero => rfl
  | succ f => simp only [parseItems, parseVal_ws]

theorem parseMembers_ws (f : Nat) (s : PyStr) :
    parseMembers f (' ' :: s) = parseMembers f s := by
  cases f with
  | zero => rfl
  | succ f => simp only [parseMembers, skipWs_space]

theorem intToDec_head (i : Int) :
    ∃ c t, intToDec i = c :: t ∧ (c = '-' ∨ (48 ≤ c.toNat ∧ c.toNat ≤ 57)) := by
  unfold intToDec
  by_cases hi : i < 0
  · rw [if_pos hi]
    exact ⟨'-', _, rfl, Or.inl rfl⟩
  · rw [if_neg hi]
    rcases hsh : natToDec i.natAbs with _ | ⟨d, ds⟩
    · exact absurd hsh (natToDec_ne_nil _)
    · exact ⟨d, ds, rfl, Or.inr (natToDec_digits _ d (by rw [hsh]; simp))⟩

/-- Every `json.dumps` output starts with a character that is neither JSON
whitespace nor a closing bracket. -/
theorem json_dumps_cons (v : PyVal) :
    ∃ c t, json_dumps v = c :: t ∧ isJsonWs c = false ∧ c ≠ ']' := by
  have hsp : (' ' : Char).toNat = 32 := by decide
  have h9 : (Char.ofNat 9).toNat = 9 := by decide
  have h10 : (Char.ofNat 10).toNat = 10 := by decide
  have h13 : (Char.ofNat 13).toNat = 13 := by decide
  have hrb : (']' : Char).toNat = 93 := by decide
  cases v with
  | pInt i =>
    obtain ⟨c, t, hct, hc⟩ := intToDec_head i
    refine ⟨c, t, hct, ?_, ?_⟩
    · have hcn : c.toNat = 45 ∨ (48 ≤ c.toNat ∧ c.toNat ≤ 57) := by
        rcases hc with rfl | h
        · left; decide
        · right; exact h
      unfold isJsonWs
      simp only [Bool.or_eq_false_iff, decide_eq_false_iff_not]
      refine ⟨⟨⟨?_, ?_⟩, ?_⟩, ?_⟩ <;> refine char_ne_of_toNat ?_ <;> omega
    · refine char_ne_of_toNat ?_
      rcases hc with rfl | h
      · decide
      · omega
  | pStr s => exact ⟨dquoteChar, _, rfl, by decide, by decide⟩
  | pBool b =>
    cases b with
    | true => exact ⟨'t', _, rfl, by decide, by decide⟩
    | false => exact ⟨'f', _, rfl, by decide, by decide⟩
  | pNull => exact ⟨'n', _, rfl, by decide, by decide⟩
  | pList l => exact ⟨'[', _, rfl, by decide, by decide⟩
  | pDict d => exact ⟨lbraceChar, _, rfl, by decide, by decide⟩

theorem skipWs_dumps (v : PyVal) (rest : PyStr) :
    skipWs (json_dumps v ++ rest) = json_dumps v ++ rest := by
  obtain ⟨c, t, hct, hws, _⟩ := json_dumps_cons v
  rw [hct, List.cons_append]
  exact skipWs_cons_not hws _

theorem json_dumps_length_pos (v : PyVal) : 1 ≤ (json_dumps v).length := by
  obtain ⟨c, t, hct, _, _⟩ := json_dumps_cons v
  rw [hct]
  simp

theorem numSafe_head (c : Char) (X : PyStr) (h1 : isDigitChar c = false)
    (h2 : ¬ c = '.') (h3 : ¬ c = 'e') (h4 : ¬ c = 'E') : numSafe (c :: X) = true := by
  simp [numSafe, h1, h2, h3, h4]

/-- The JSON parser inverts `json.dumps` on JSON-clean values: mutual
round-trip for values, array items and object members, by strong induction on
size. -/
theorem parse_dumps_all (N : Nat) :
    (∀ v : PyVal, sizeOf v ≤ N → jsonOkVal v = true →
      ∀ fuel rest, numSafe rest = true → (json_dumps v).length < fuel →
        parseVal fuel (json_dumps v ++ rest) = some (v, rest)) ∧
    (∀ l : List PyVal, sizeOf l ≤ N → jsonOkItems l = true → l ≠ [] →
      ∀ fuel rest, (jsonDumpItems l).length + 1 < fuel →
        parseItems fuel (jsonDumpItems l ++ ']' :: rest) = some (l, rest)) ∧
    (∀ d : List (PyStr × PyVal), sizeOf d ≤ N → jsonOkMembers d = true → d ≠ [] →
      ∀ fuel rest, (jsonDumpMembers d).length + 1 < fuel →
        parseMembers fuel (jsonDumpMembers d ++ rbraceChar :: rest) = some (d, rest)) := by
  induction N using Nat.strong_induction_on with
  | _ N ih =>
    have h34 : (dquoteChar : Char).toNat = 34 := by decide
    have h91 : ('[' : Char).toNat = 91 := by decide
    have h123 : (lbraceChar : Char).toNat = 123 := by decide
    have h116 : ('t' : Char).toNat = 116 := by decide
    have h102 : ('f' : Char).toNat = 102 := by decide
    have h110 : ('n' : Char).toNat = 110 := by decide
    refine ⟨?_, ?_, ?_⟩
    · -- values
      intro v hsize hok fuel rest hrest hfuel
      rcases fuel with _ | g
      · omega
      cases v with
      | pInt i =>
        obtain ⟨c, t, hct, hc⟩ := intToDec_head i
        have hcn : c.toNat = 45 ∨ (48 ≤ c.toNat ∧ c.toNat ≤ 57) := by
          rcases hc with rfl | h
          · left; decide
          · right; exact h
        have hd : json_dumps (.pInt i) ++ rest = c :: (t ++ rest) := by
          show intToDec i ++ rest = _
          rw [hct]
          rfl
        have hne1 : ¬ c = dquoteChar := char_ne_of_toNat (by omega)
        have hne2 : ¬ c = '[' := char_ne_of_toNat (by omega)
        have hne3 : ¬ c = lbraceChar := char_ne_of_toNat (by omega)
        have hne4 : ¬ c = 't' := char_ne_of_toNat (by omega)
        have hne5 : ¬ c = 'f' := char_ne_of_toNat (by omega)
        have hne6 : ¬ c = 'n' := char_ne_of_toNat (by omega)
        have hlast : (decide (c = '-') || isDigitChar c) = true := by
          rcases hc with rfl | h
          · simp
          · simp only [isDigitChar, Bool.or_eq_true, decide_eq_true_eq,
              Bool.and_eq_true]
            right
            omega
        have hd2 : c :: (t ++ rest) = intToDec i ++ rest := by
          rw [hct]
          rfl
        simp only [parseVal]
        rw [skipWs_dumps (.pInt i) rest, hd]
        simp only [hne1, hne2, hne3, hne4, hne5, hne6, if_false, hlast, if_true]
        rw [hd2, parseNum_intToDec i hrest]
      | pStr s =>
        have hok2 : ∀ c ∈ s, jsonSafeChar c = true := by
          have : jsonOkVal (.pStr s) = s.all jsonSafeChar := rfl
          rw [this, List.all_eq_true] at hok
          exact hok
        have hd : json_dumps (.pStr s) ++ rest =
            dquoteChar :: (s ++ dquoteChar :: rest) := by
          show jsonDumpStr s ++ rest = _
          rw [jsonDumpStr_safe hok2]
          simp
        simp only [parseVal]
        rw [skipWs_dumps (.pStr s) rest, hd]
        simp only [reduceIte]
        rw [parseStrBody_safe hok2 rest]
        rfl
      | pBool b => simp [jsonOkVal] at hok
      | pNull => simp [jsonOkVal] at hok
      | pList l =>
        have hok2 : jsonOkItems l = true := hok
        rcases l with _ | ⟨v1, vs⟩
        · have hd : json_dumps (.pList []) ++ rest = '[' :: ']' :: rest := rfl
          simp only [parseVal]
          rw [skipWs_dumps (.pList []) rest, hd]
          simp only [reduceIte]
          rw [skipWs_cons_not (by decide)]
          simp only [reduceIte]
          rw [if_neg (show ¬ ('[' : Char) = dquoteChar by decide)]
        · have hd : json_dumps (.pList (v1 :: vs)) ++ rest =
              '[' :: (jsonDumpItems (v1 :: vs) ++ ']' :: rest) := by
            show '[' :: (jsonDumpItems (v1 :: vs) ++ [']']) ++ rest = _
            simp
          obtain ⟨c1, t1, hct1, hws1, hnrb1⟩ := json_dumps_cons v1
          have hhead : jsonDumpItems (v1 :: vs) ++ ']' :: rest =
              c1 :: (t1 ++ (match vs with
                | [] => [] | _ :: _ => ',' :: ' ' :: jsonDumpItems vs) ++ ']' :: rest) := by
            rcases vs with _ | ⟨v2, vs2⟩
            · show json_dumps v1 ++ ']' :: rest = _
              rw [hct1]
              simp
            · show (json_dumps v1 ++ ',' :: ' ' :: jsonDumpItems (v2 :: vs2)) ++ ']' :: rest = _
              rw [hct1]
              simp
          simp only [parseVal]
          rw [skipWs_dumps (.pList (v1 :: vs)) rest, hd]
          simp only [reduceIte]
          rw [hhead, skipWs_cons_not hws1]
          simp only [hnrb1, if_false]
          rw [← hhead]
          have hsl : sizeOf (v1 :: vs) < N := by
            have : sizeOf (PyVal.pList (v1 :: vs)) = 1 + sizeOf (v1 :: vs) := by simp
            omega
          have hflen : (jsonDumpItems (v1 :: vs)).length + 1 < g := by
            have : (json_dumps (.pList (v1 :: vs))).length =
                (jsonDumpItems (v1 :: vs)).length + 2 := by
              show ('[' :: (jsonDumpItems (v1 :: vs) ++ [']'])).length = _
              simp
            omega
          rw [(ih _ hsl).2.1 (v1 :: vs) le_rfl hok2 (by simp) g rest hflen]
          rw [if_neg (show ¬ ('[' : Char) = dquoteChar by decide)]
          rfl
      | pDict d =>
        have hok2 : jsonOkMembers d = true := hok
        rcases d with _ | ⟨⟨k1, v1⟩, kvs⟩
        · have hd : json_dumps (.pDict []) ++ rest = lbraceChar :: rbraceChar :: rest := rfl
          simp only [parseVal]
          rw [skipWs_dumps (.pDict []) rest, hd]
          simp only [reduceIte]
          rw [if_neg (show ¬ lbraceChar = dquoteChar by decide),
            if_neg (show ¬ lbraceChar = '[' by decide)]
          rw [skipWs_cons_not (by decide)]
          simp only [reduceIte]
        · have hk1 : ∀ c ∈ k1, jsonSafeChar c = true := by
            have : jsonOkMembers ((k1, v1) :: kvs) =
                (k1.all jsonSafeChar && jsonOkVal v1 && jsonOkMembers kvs) := rfl
            rw [this] at hok2
            simp only [Bool.and_eq_true, List.all_eq_true] at hok2
            exact hok2.1.1
          have hd : json_dumps (.pDict ((k1, v1) :: kvs)) ++ rest =
              lbraceChar :: (jsonDumpMembers ((k1, v1) :: kvs) ++ rbraceChar :: rest) := by
            show lbraceChar :: (jsonDumpMembers ((k1, v1) :: kvs) ++ [rbraceChar]) ++ rest = _
            simp
          have hheadm : ∃ mt, jsonDumpMembers ((k1, v1) :: kvs) ++ rbraceChar :: rest =
              dquoteChar :: mt := by
            rcases kvs with _ | ⟨kv2, kvs2⟩
            · refine ⟨k1 ++ dquoteChar ::
                (':' :: ' ' :: (json_dumps v1 ++ rbraceChar :: rest)), ?_⟩
              show (jsonDumpStr k1 ++ ':' :: ' ' :: json_dumps v1) ++ rbraceChar :: rest = _
              rw [jsonDumpStr_safe hk1]
              simp
            · refine ⟨k1 ++ dquoteChar :: (':' :: ' ' :: (json_dumps v1 ++
                ',' :: ' ' :: (jsonDumpMembers (kv2 :: kvs2) ++ rbraceChar :: rest))), ?_⟩
              show (jsonDumpStr k1 ++ ':' :: ' ' :: json_dumps v1 ++
                ',' :: ' ' :: jsonDumpMembers (kv2 :: kvs2)) ++ rbraceChar :: rest = _
              rw [jsonDumpStr_safe hk1]
              simp
          obtain ⟨mt, hmt⟩ := hheadm
          simp only [parseVal]
          rw [skipWs_dumps (.pDict ((k1, v1) :: kvs)) rest, hd]
          simp only [reduceIte]
          rw [if_neg (show ¬ lbraceChar = dquoteChar by decide),
            if_neg (show ¬ lbraceChar = '[' by decide)]
          rw [hmt, skipWs_cons_not (by decide)]
          simp only [reduceIte]
          rw [if_neg (show ¬ dquoteChar = rbraceChar by decide)]
          rw [← hmt]
          have hsl : sizeOf ((k1, v1) :: kvs) < N := by
            have : sizeOf (PyVal.pDict ((k1, v1) :: kvs)) =
                1 + sizeOf ((k1, v1) :: kvs) := by simp
            omega
          have hflen : (jsonDumpMembers ((k1, v1) :: kvs)).length + 1 < g := by
            have : (json_dumps (.pDict ((k1, v1) :: kvs))).length =
                (jsonDumpMembers ((k1, v1) :: kvs)).length + 2 := by
              show (lbraceChar :: (jsonDumpMembers ((k1, v1) :: kvs) ++ [rbraceChar])).length = _
              simp
            omega
          rw [(ih _ hsl).2.2 ((k1, v1) :: kvs) le_rfl hok2 (by simp) g rest hflen]
          rfl
    · -- array items
      intro l hsize hok hne fuel rest hfuel
      rcases fuel with _ | g
      · omega
      rcases l with _ | ⟨v1, vs⟩
      · exact absurd rfl hne
      have hok1 : jsonOkVal v1 = true ∧ jsonOkItems vs = true := by
        have : jsonOkItems (v1 :: vs) = (jsonOkVal v1 && jsonOkItems vs) := rfl
        rw [this] at hok
        simpa [Bool.and_eq_true] using hok
      have hsv1 : sizeOf v1 < N := by
        have : sizeOf (v1 :: vs) = 1 + sizeOf v1 + sizeOf vs := by simp
        have hpos : 0 < sizeOf vs := by
          rcases vs with _ | _ <;> simp <;> omega
        omega
      rcases vs with _ | ⟨v2, vs2⟩
      · -- single item
        have hd : jsonDumpItems [v1] ++ ']' :: rest = json_dumps v1 ++ ']' :: rest := rfl
        have hlen1 : (json_dumps v1).length < g := by
          have : (jsonDumpItems [v1]).length = (json_dumps v1).length := rfl
          omega
        simp only [parseItems, hd]
        rw [(ih _ hsv1).1 v1 le_rfl hok1.1 g (']' :: rest) (numSafe_head _ _ (by decide) (by decide) (by decide) (by decide)) hlen1]
        simp only [Option.bind_eq_bind, Option.some_bind]
        rw [skipWs_cons_not (by decide)]
        simp only [reduceIte]
        rw [if_neg (show ¬ (']' : Char) = ',' by decide)]
      · -- two or more
        have hd : jsonDumpItems (v1 :: v2 :: vs2) ++ ']' :: rest =
            json_dumps v1 ++ ',' :: ' ' :: (jsonDumpItems (v2 :: vs2) ++ ']' :: rest) := by
          show (json_dumps v1 ++ ',' :: ' ' :: jsonDumpItems (v2 :: vs2)) ++ ']' :: rest = _
          simp
        have hlen1 : (json_dumps v1).length < g := by
          have : (jsonDumpItems (v1 :: v2 :: vs2)).length =
              (json_dumps v1).length + 2 + (jsonDumpItems (v2 :: vs2)).length := by
            show (json_dumps v1 ++ ',' :: ' ' :: jsonDumpItems (v2 :: vs2)).length = _
            simp
            omega
          omega
        simp only [parseItems, hd]
        rw [(ih _ hsv1).1 v1 le_rfl hok1.1 g
          (',' :: ' ' :: (jsonDumpItems (v2 :: vs2) ++ ']' :: rest))
          (numSafe_head _ _ (by decide) (by decide) (by decide) (by decide)) hlen1]
        simp only [Option.bind_eq_bind, Option.some_bind]
        rw [skipWs_cons_not (by decide)]
        simp only [reduceIte]
        rw [parseItems_ws]
        have hsvs : sizeOf (v2 :: vs2) < N := by
          have : sizeOf (v1 :: v2 :: vs2) = 1 + sizeOf v1 + sizeOf (v2 :: vs2) := by simp
          omega
        have hlen2 : (jsonDumpItems (v2 :: vs2)).length + 1 < g := by
          have : (jsonDumpItems (v1 :: v2 :: vs2)).length =
              (json_dumps v1).length + 2 + (jsonDumpItems (v2 :: vs2)).length := by
            show (json_dumps v1 ++ ',' :: ' ' :: jsonDumpItems (v2 :: vs2)).length = _
            simp
            omega
          have := json_dumps_length_pos v1
          omega
        rw [(ih _ hsvs).2.1 (v2 :: vs2) le_rfl hok1.2 (by simp) g rest hlen2]
        rfl
    · -- object members
      intro d hsize hok hne fuel rest hfuel
      rcases fuel with _ | g
      · omega
      rcases d with _ | ⟨⟨k1, v1⟩, kvs⟩
      · exact absurd rfl hne
      have hok1 : (∀ c ∈ k1, jsonSafeChar c = true) ∧ jsonOkVal v1 = true ∧
          jsonOkMembers kvs = true := by
        have : jsonOkMembers ((k1, v1) :: kvs) =
            (k1.all jsonSafeChar && jsonOkVal v1 && jsonOkMembers kvs) := rfl
        rw [this] at hok
        simp only [Bool.and_eq_true, List.all_eq_true] at hok
        exact ⟨hok.1.1, hok.1.2, hok.2⟩
      have hsv1 : sizeOf v1 < N := by
        have h1 : sizeOf ((k1, v1) :: kvs) =
            1 + sizeOf ((k1, v1) : PyStr × PyVal) + sizeOf kvs := by simp
        have h2 : sizeOf ((k1, v1) : PyStr × PyVal) = 1 + sizeOf k1 + sizeOf v1 := by simp
        have hpos : 0 < sizeOf kvs := by
          rcases kvs with _ | _ <;> simp <;> omega
        omega
      have hklen : (jsonDumpStr k1).length = k1.length + 2 := by
        rw [jsonDumpStr_safe hok1.1]
        simp
      rcases kvs with _ | ⟨⟨k2, v2⟩, kvs2⟩
      · -- single member
        have hd : jsonDumpMembers [(k1, v1)] ++ rbraceChar :: rest =
            dquoteChar :: (k1 ++ dquoteChar ::
              (':' :: ' ' :: (json_dumps v1 ++ rbraceChar :: rest))) := by
          show (jsonDumpStr k1 ++ ':' :: ' ' :: json_dumps v1) ++ rbraceChar :: rest = _
          rw [jsonDumpStr_safe hok1.1]
          simp
        simp only [parseMembers, hd]
        rw [skipWs_cons_not (by decide)]
        simp only [reduceIte]
        rw [parseStrBody_safe hok1.1]
        simp only [Option.bind_eq_bind, Option.some_bind]
        rw [skipWs_cons_not (by decide)]
        simp only [reduceIte]
        rw [parseVal_ws]
        have hlen1 : (json_dumps v1).length < g := by
          have : (jsonDumpMembers [(k1, v1)]).length =
              (jsonDumpStr k1).length + 2 + (json_dumps v1).length := by
            show (jsonDumpStr k1 ++ ':' :: ' ' :: json_dumps v1).length = _
            simp
            omega
          omega
        rw [(ih _ hsv1).1 v1 le_rfl hok1.2.1 g (rbraceChar :: rest) (numSafe_head _ _ (by decide) (by decide) (by decide) (by decide)) hlen1]
        simp only [Option.bind_eq_bind, Option.some_bind]
        rw [skipWs_cons_not (by decide)]
        simp only [reduceIte]
        rw [if_neg (show ¬ rbraceChar = ',' by decide)]
      · -- two or more members
        have hd : jsonDumpMembers ((k1, v1) :: (k2, v2) :: kvs2) ++ rbraceChar :: rest =
            dquoteChar :: (k1 ++ dquoteChar ::
              (':' :: ' ' :: (json_dumps v1 ++
                ',' :: ' ' :: (jsonDumpMembers ((k2, v2) :: kvs2) ++ rbraceChar :: rest)))) := by
          show (jsonDumpStr k1 ++ ':' :: ' ' :: json_dumps v1 ++
              ',' :: ' ' :: jsonDumpMembers ((k2, v2) :: kvs2)) ++ rbraceChar :: rest = _
          rw [jsonDumpStr_safe hok1.1]
          simp
        simp only [parseMembers, hd]
        rw [skipWs_cons_not (by decide)]
        simp only [reduceIte]
        rw [parseStrBody_safe hok1.1]
        simp only [Option.bind_eq_bind, Option.some_bind]
        rw [skipWs_cons_not (by decide)]
        simp only [reduceIte]
        rw [parseVal_ws]
        have hmlen : (jsonDumpMembers ((k1, v1) :: (k2, v2) :: kvs2)).length =
            (jsonDumpStr k1).length + 2 + (json_dumps v1).length + 2 +
              (jsonDumpMembers ((k2, v2) :: kvs2)).length := by
          show (jsonDumpStr k1 ++ ':' :: ' ' :: json_dumps v1 ++
              ',' :: ' ' :: jsonDumpMembers ((k2, v2) :: kvs2)).length = _
          simp
          omega
        have hlen1 : (json_dumps v1).length < g := by
          omega
        rw [(ih _ hsv1).1 v1 le_rfl hok1.2.1 g
          (',' :: ' ' :: (jsonDumpMembers ((k2, v2) :: kvs2) ++ rbraceChar :: rest))
          (numSafe_head _ _ (by decide) (by decide) (by decide) (by decide)) hlen1]
        simp only [Option.bind_eq_bind, Option.some_bind]
        rw [skipWs_cons_not (by decide)]
        simp only [reduceIte]
        rw [parseMembers_ws]
        have hskvs : sizeOf ((k2, v2) :: kvs2) < N := by
          have : sizeOf ((k1, v1) :: (k2, v2) :: kvs2) =
              1 + sizeOf ((k1, v1) : PyStr × PyVal) + sizeOf ((k2, v2) :: kvs2) := by simp
          omega
        have hlen2 : (jsonDumpMembers ((k2, v2) :: kvs2)).length + 1 < g := by
          omega
        rw [(ih _ hskvs).2.2 ((k2, v2) :: kvs2) le_rfl hok1.2.2 (by simp) g rest hlen2]
        rfl

/-! ## Theorems: character classes and the two renderings -/

theorem jsonSafeChar_of_toNat {c : Char} (h1 : 32 ≤ c.toNat) (h2 : c.toNat ≤ 126)
    (h3 : c.toNat ≠ 34) (h4 : c.toNat ≠ 92) : jsonSafeChar c = true := by
  unfold jsonSafeChar
  have hd : c ≠ dquoteChar := char_ne_of_toNat (by simpa using h3)
  have hb : c ≠ backslashChar := char_ne_of_toNat (by simpa using h4)
  simp [h1, h2, hd, hb]

theorem goodChar_of_toNat {c : Char} (h1 : 32 ≤ c.toNat) (h2 : c.toNat ≤ 126)
    (h3 : c.toNat ≠ 34) (h4 : c.toNat ≠ 92) (h5 : c.toNat ≠ 39) :
    goodChar c = true := by
  unfold goodChar
  have hq : c ≠ quoteChar := char_ne_of_toNat (by simpa using h5)
  simp [jsonSafeChar_of_toNat h1 h2 h3 h4, hq]

theorem jsonSafe_of_good {c : Char} (h : goodChar c = true) :
    jsonSafeChar c = true := by
  unfold goodChar at h
  simp only [Bool.and_eq_true] at h
  exact h.1

theorem good_ne_quote {c : Char} (h : goodChar c = true) : c ≠ quoteChar := by
  unfold goodChar at h
  simp only [Bool.and_eq_true] at h
  simpa using h.2

theorem goodChar_of_digit {c : Char} (h : 48 ≤ c.toNat ∧ c.toNat ≤ 57) :
    goodChar c = true := by
  exact goodChar_of_toNat (by omega) (by omega) (by omega) (by omega) (by omega)

theorem intToDec_good (i : Int) : ∀ c ∈ intToDec i, goodChar c = true := by
  unfold intToDec
  by_cases h : i < 0
  · rw [if_pos h]
    intro c hc
    rcases List.mem_cons.mp hc with rfl | h1
    · exact goodChar_of_toNat (by decide) (by decide) (by decide) (by decide) (by decide)
    · exact goodChar_of_digit (natToDec_digits _ c h1)
  · rw [if_neg h]
    intro c hc
    exact goodChar_of_digit (natToDec_digits _ c hc)

theorem map_repl_id {s : PyStr} (h : ∀ c ∈ s, c ≠ quoteChar) :
    s.map repl = s := by
  have : s.map repl = s.map id :=
    List.map_congr_left (fun c hc => by unfold repl; rw [if_neg (h c hc)]; rfl)
  rw [this, List.map_id]

theorem reprQuote_good {s : PyStr} (h : ∀ c ∈ s, goodChar c = true) :
    reprQuote s = quoteChar := by
  unfold reprQuote
  rw [if_neg]
  intro hand
  rw [Bool.and_eq_true] at hand
  have hmem := List.mem_of_elem_eq_true hand.1
  exact good_ne_quote (h quoteChar hmem) rfl

theorem reprEscChar_good {c : Char} (h : goodChar c = true) :
    reprEscChar quoteChar c = [c] := by
  have hsafe := jsonSafe_of_good h
  unfold jsonSafeChar at hsafe
  simp only [Bool.and_eq_true, decide_eq_true_eq] at hsafe
  obtain ⟨⟨⟨h32, h126⟩, _⟩, hbs⟩ := hsafe
  have h9 : (Char.ofNat 9).toNat = 9 := by decide
  have h10 : (Char.ofNat 10).toNat = 10 := by decide
  have h13 : (Char.ofNat 13).toNat = 13 := by decide
  unfold reprEscChar
  rw [if_neg (by simpa using hbs), if_neg (good_ne_quote h),
    if_neg (char_ne_of_toNat (by rw [h9]; omega)),
    if_neg (char_ne_of_toNat (by rw [h10]; omega)),
    if_neg (char_ne_of_toNat (by rw [h13]; omega)),
    if_neg (by simp only [Bool.or_eq_true, decide_eq_true_eq, not_or]; omega)]

theorem reprStr_good {s : PyStr} (h : ∀ c ∈ s, goodChar c = true) :
    reprStr s = quoteChar :: (s ++ [quoteChar]) := by
  unfold reprStr
  rw [reprQuote_good h]
  have hfm : s.flatMap (reprEscChar quoteChar) = s := by
    induction s with
    | nil => rfl
    | cons c rest ih =>
      rw [List.flatMap_cons, reprEscChar_good (h c (by simp)),
        ih (fun d hd => h d (by simp [hd]))]
      rfl
  show quoteChar :: s.flatMap (reprEscChar quoteChar) ++ [quoteChar] = _
  rw [hfm]
  rfl

theorem repl_ne {c : Char} (h : c ≠ quoteChar) : repl c = c := by
  unfold repl
  rw [if_neg h]

/-- On good values the Python `str()` rendering is JSON-safe character for
character, and the quote substitution of `_texto_para_lista` turns it into
exactly the `json.dumps` rendering; moreover good values are `jsonOk`. -/
theorem good_renders (N : Nat) :
    (∀ v : PyVal, sizeOf v ≤ N → goodVal v = true →
      jsonOkVal v = true ∧ (∀ c ∈ reprPy v, jsonSafeChar c = true) ∧
        (reprPy v).map repl = json_dumps v) ∧
    (∀ l : List PyVal, sizeOf l ≤ N → goodItems l = true →
      jsonOkItems l = true ∧ (∀ c ∈ reprItems l, jsonSafeChar c = true) ∧
        (reprItems l).map repl = jsonDumpItems l) ∧
    (∀ d : List (PyStr × PyVal), sizeOf d ≤ N → goodMembers d = true →
      jsonOkMembers d = true ∧ (∀ c ∈ reprMembers d, jsonSafeChar c = true) ∧
        (reprMembers d).map repl = jsonDumpMembers d) := by
  induction N using Nat.strong_induction_on with
  | _ N ih =>
    refine ⟨?_, ?_, ?_⟩
    · -- values
      intro v hsize hg
      cases v with
      | pInt i =>
        refine ⟨rfl, ?_, ?_⟩
        · intro c hc
          exact jsonSafe_of_good (intToDec_good i c hc)
        · exact map_repl_id (fun c hc => good_ne_quote (intToDec_good i c hc))
      | pStr s =>
        have hgs : ∀ c ∈ s, goodChar c = true := by
          have : goodVal (.pStr s) = s.all goodChar := rfl
          rw [this, List.all_eq_true] at hg
          exact hg
        have hss : ∀ c ∈ s, jsonSafeChar c = true :=
          fun c hc => jsonSafe_of_good (hgs c hc)
        refine ⟨?_, ?_, ?_⟩
        · show s.all jsonSafeChar = true
          rw [List.all_eq_true]
          exact hss
        · show ∀ c ∈ reprStr s, jsonSafeChar c = true
          rw [reprStr_good hgs]
          intro c hc
          rcases List.mem_cons.mp hc with rfl | hc2
          · decide
          · rcases List.mem_append.mp hc2 with h1 | h1
            · exact hss c h1
            · simp only [List.mem_singleton] at h1
              subst h1
              decide
        · show (reprStr s).map repl = jsonDumpStr s
          rw [reprStr_good hgs, jsonDumpStr_safe hss]
          simp only [List.map_cons, List.map_append, List.map_cons, List.map_nil]
          rw [map_repl_id (fun c hc => good_ne_quote (hgs c hc))]
          rfl
      | pBool b => exact absurd hg (by cases b <;> simp [goodVal])
      | pNull => exact absurd hg (by simp [goodVal])
      | pList l =>
        have hgl : goodItems l = true := hg
        have hsl : sizeOf l < N := by
          have : sizeOf (PyVal.pList l) = 1 + sizeOf l := by simp
          omega
        obtain ⟨hok, hsafe, hmap⟩ := (ih _ hsl).2.1 l le_rfl hgl
        refine ⟨hok, ?_, ?_⟩
        · show ∀ c ∈ '[' :: (reprItems l ++ [']']), jsonSafeChar c = true
          intro c hc
          rcases List.mem_cons.mp hc with rfl | hc2
          · decide
          · rcases List.mem_append.mp hc2 with h1 | h1
            · exact hsafe c h1
            · simp only [List.mem_singleton] at h1
              subst h1
              decide
        · show ('[' :: (reprItems l ++ [']'])).map repl = '[' :: (jsonDumpItems l ++ [']'])
          simp only [List.map_cons, List.map_append, List.map_nil]
          rw [hmap, repl_ne (by decide), repl_ne (by decide)]
      | pDict d =>
        have hgd : goodMembers d = true := hg
        have hsd : sizeOf d < N := by
          have : sizeOf (PyVal.pDict d) = 1 + sizeOf d := by simp
          omega
        obtain ⟨hok, hsafe, hmap⟩ := (ih _ hsd).2.2 d le_rfl hgd
        refine ⟨hok, ?_, ?_⟩
        · show ∀ c ∈ lbraceChar :: (reprMembers d ++ [rbraceChar]), jsonSafeChar c = true
          intro c hc
          rcases List.mem_cons.mp hc with rfl | hc2
          · decide
          · rcases List.mem_append.mp hc2 with h1 | h1
            · exact hsafe c h1
            · simp only [List.mem_singleton] at h1
              subst h1
              decide
        · show (lbraceChar :: (reprMembers d ++ [rbraceChar])).map repl =
            lbraceChar :: (jsonDumpMembers d ++ [rbraceChar])
          simp only [List.map_cons, List.map_append, List.map_nil]
          rw [hmap, repl_ne (by decide), repl_ne (by decide)]
    · -- items
      intro l hsize hg
      rcases l with _ | ⟨v1, vs⟩
      · exact ⟨rfl, by simp [reprItems], rfl⟩
      have hg1 : goodVal v1 = true ∧ goodItems vs = true := by
        have : goodItems (v1 :: vs) = (goodVal v1 && goodItems vs) := rfl
        rw [this] at hg
        simpa [Bool.and_eq_true] using hg
      have hsv1 : sizeOf v1 < N := by
        have : sizeOf (v1 :: vs) = 1 + sizeOf v1 + sizeOf vs := by simp
        have hpos : 0 < sizeOf vs := by
          rcases vs with _ | _ <;> simp <;> omega
        omega
      have hsvs : sizeOf vs < N := by
        have : sizeOf (v1 :: vs) = 1 + sizeOf v1 + sizeOf vs := by simp
        have hpos : 0 < sizeOf v1 := by
          rcases v1 <;> simp <;> omega
        omega
      obtain ⟨hok1, hsafe1, hmap1⟩ := (ih _ hsv1).1 v1 le_rfl hg1.1
      rcases vs with _ | ⟨v2, vs2⟩
      · refine ⟨?_, ?_, ?_⟩
        · show (jsonOkVal v1 && jsonOkItems []) = true
          simp [hok1, jsonOkItems]
        · show ∀ c ∈ reprPy v1, jsonSafeChar c = true
          exact hsafe1
        · show (reprPy v1).map repl = json_dumps v1
          exact hmap1
      · obtain ⟨hok2, hsafe2, hmap2⟩ := (ih _ hsvs).2.1 (v2 :: vs2) le_rfl hg1.2
        refine ⟨?_, ?_, ?_⟩
        · show (jsonOkVal v1 && jsonOkItems (v2 :: vs2)) = true
          simp [hok1, hok2]
        · show ∀ c ∈ reprPy v1 ++ ',' :: ' ' :: reprItems (v2 :: vs2),
            jsonSafeChar c = true
          intro c hc
          rcases List.mem_append.mp hc with h1 | h1
          · exact hsafe1 c h1
          · rcases List.mem_cons.mp h1 with rfl | h2
            · decide
            · rcases List.mem_cons.mp h2 with rfl | h3
              · decide
              · exact hsafe2 c h3
        · show (reprPy v1 ++ ',' :: ' ' :: reprItems (v2 :: vs2)).map repl =
            json_dumps v1 ++ ',' :: ' ' :: jsonDumpItems (v2 :: vs2)
          simp only [List.map_append, List.map_cons]
          rw [hmap1, hmap2, repl_ne (by decide), repl_ne (by decide)]
    · -- members
      intro d hsize hg
      rcases d with _ | ⟨⟨k1, v1⟩, kvs⟩
      · exact ⟨rfl, by simp [reprMembers], rfl⟩
      have hg1 : (∀ c ∈ k1, goodChar c = true) ∧ goodVal v1 = true ∧
          goodMembers kvs = true := by
        have : goodMembers ((k1, v1) :: kvs) =
            (k1.all goodChar && goodVal v1 && goodMembers kvs) := rfl
        rw [this] at hg
        simp only [Bool.and_eq_true, List.all_eq_true] at hg
        exact ⟨hg.1.1, hg.1.2, hg.2⟩
      have hk1s : ∀ c ∈ k1, jsonSafeChar c = true :=
        fun c hc => jsonSafe_of_good (hg1.1 c hc)
      have hsv1 : sizeOf v1 < N := by
        have h1 : sizeOf ((k1, v1) :: kvs) = 1 + sizeOf (k1, v1) + sizeOf kvs := by simp
        have h2 : sizeOf (k1, v1) = 1 + sizeOf k1 + sizeOf v1 := by simp
        have hpos : 0 < sizeOf kvs := by
          rcases kvs with _ | _ <;> simp <;> omega
        omega
      have hskvs : sizeOf kvs < N := by
        have h1 : sizeOf ((k1, v1) :: kvs) = 1 + sizeOf (k1, v1) + sizeOf kvs := by simp
        have h2 : sizeOf (k1, v1) = 1 + sizeOf k1 + sizeOf v1 := by simp
        have hpos : 0 < sizeOf v1 := by
          rcases v1 <;> simp <;> omega
        omega
      obtain ⟨hok1, hsafe1, hmap1⟩ := (ih _ hsv1).1 v1 le_rfl hg1.2.1
      have hkrepr : ∀ c ∈ reprStr k1, jsonSafeChar c = true := by
        rw [reprStr_good hg1.1]
        intro c hc
        rcases List.mem_cons.mp hc with rfl | hc2
        · decide
        · rcases List.mem_append.mp hc2 with h1 | h1
          · exact hk1s c h1
          · simp only [List.mem_singleton] at h1
            subst h1
            decide
      have hkmap : (reprStr k1).map repl = jsonDumpStr k1 := by
        rw [reprStr_good hg1.1, jsonDumpStr_safe hk1s]
        simp only [List.map_cons, List.map_append, List.map_nil]
        rw [map_repl_id (fun c hc => good_ne_quote (hg1.1 c hc))]
        rfl
      rcases kvs with _ | ⟨⟨k2, v2⟩, kvs2⟩
      · refine ⟨?_, ?_, ?_⟩
        · show (k1.all jsonSafeChar && jsonOkVal v1 && jsonOkMembers []) = true
          simp [hok1, jsonOkMembers, List.all_eq_true]
          exact hk1s
        · show ∀ c ∈ reprStr k1 ++ ':' :: ' ' :: reprPy v1, jsonSafeChar c = true
          intro c hc
          rcases List.mem_append.mp hc with h1 | h1
          · exact hkrepr c h1
          · rcases List.mem_cons.mp h1 with rfl | h2
            · decide
            · rcases List.mem_cons.mp h2 with rfl | h3
              · decide
              · exact hsafe1 c h3
        · show (reprStr k1 ++ ':' :: ' ' :: reprPy v1).map repl =
            jsonDumpStr k1 ++ ':' :: ' ' :: json_dumps v1
          simp only [List.map_append, List.map_cons]
          rw [hkmap, hmap1, repl_ne (by decide), repl_ne (by decide)]
      · obtain ⟨hok2, hsafe2, hmap2⟩ := (ih _ hskvs).2.2 ((k2, v2) :: kvs2) le_rfl hg1.2.2
        refine ⟨?_, ?_, ?_⟩
        · show (k1.all jsonSafeChar && jsonOkVal v1 && jsonOkMembers ((k2, v2) :: kvs2)) = true
          simp [hok1, hok2, List.all_eq_true]
          exact hk1s
        · show ∀ c ∈ reprStr k1 ++ ':' :: ' ' :: reprPy v1 ++
              ',' :: ' ' :: reprMembers ((k2, v2) :: kvs2), jsonSafeChar c = true
          intro c hc
          rcases List.mem_append.mp hc with h1 | h1
          · rcases List.mem_append.mp h1 with h2 | h2
            · exact hkrepr c h2
            · rcases List.mem_cons.mp h2 with rfl | h3
              · decide
              · rcases List.mem_cons.mp h3 with rfl | h4
                · decide
                · exact hsafe1 c h4
          · rcases List.mem_cons.mp h1 with rfl | h3
            · decide
            · rcases List.mem_cons.mp h3 with rfl | h4
              · decide
              · exact hsafe2 c h4
        · show (reprStr k1 ++ ':' :: ' ' :: reprPy v1 ++
              ',' :: ' ' :: reprMembers ((k2, v2) :: kvs2)).map repl =
            jsonDumpStr k1 ++ ':' :: ' ' :: json_dumps v1 ++
              ',' :: ' ' :: jsonDumpMembers ((k2, v2) :: kvs2)
          have r1 : repl ':' = ':' := by decide
          have r2 : repl ' ' = ' ' := by decide
          have r3 : repl ',' = ',' := by decide
          simp only [List.map_append, List.map_cons]
          rw [hkmap, hmap1, hmap2, r1, r2, r3]

theorem goodVal_renders (v : PyVal) (h : goodVal v = true) :
    jsonOkVal v = true ∧ (∀ c ∈ reprPy v, jsonSafeChar c = true) ∧
      (reprPy v).map repl = json_dumps v :=
  (good_renders (sizeOf v)).1 v le_rfl h

theorem jsonSafeChar_lt128 {c : Char} (h : jsonSafeChar c = true) :
    c.toNat < 128 := by
  unfold jsonSafeChar at h
  simp only [Bool.and_eq_true, decide_eq_true_eq] at h
  omega

/-- On `jsonOk` values the `json.dumps` rendering is pure ASCII (so UTF-8 is
the identity byte for byte). -/
theorem json_dumps_ascii (N : Nat) :
    (∀ v : PyVal, sizeOf v ≤ N → jsonOkVal v = true →
      ∀ c ∈ json_dumps v, c.toNat < 128) ∧
    (∀ l : List PyVal, sizeOf l ≤ N → jsonOkItems l = true →
      ∀ c ∈ jsonDumpItems l, c.toNat < 128) ∧
    (∀ d : List (PyStr × PyVal), sizeOf d ≤ N → jsonOkMembers d = true →
      ∀ c ∈ jsonDumpMembers d, c.toNat < 128) := by
  induction N using Nat.strong_induction_on with
  | _ N ih =>
    refine ⟨?_, ?_, ?_⟩
    · intro v hsize hok
      cases v with
      | pInt i =>
        intro c hc
        exact Nat.lt_of_le_of_lt (by
          have := jsonSafe_of_good (intToDec_good i c hc)
          unfold jsonSafeChar at this
          simp only [Bool.and_eq_true, decide_eq_true_eq] at this
          exact this.1.1.2) (by omega)
      | pStr s =>
        have hss : ∀ c ∈ s, jsonSafeChar c = true := by
          have : jsonOkVal (.pStr s) = s.all jsonSafeChar := rfl
          rw [this, List.all_eq_true] at hok
          exact hok
        show ∀ c ∈ jsonDumpStr s, c.toNat < 128
        rw [jsonDumpStr_safe hss]
        intro c hc
        rcases List.mem_cons.mp hc with rfl | hc2
        · decide
        · rcases List.mem_append.mp hc2 with h1 | h1
          · exact jsonSafeChar_lt128 (hss c h1)
          · simp only [List.mem_singleton] at h1
            subst h1
            decide
      | pBool b => exact absurd hok (by cases b <;> simp [jsonOkVal])
      | pNull => exact absurd hok (by simp [jsonOkVal])
      | pList l =>
        have hsl : sizeOf l < N := by
          have : sizeOf (PyVal.pList l) = 1 + sizeOf l := by simp
          omega
        have hil := (ih _ hsl).2.1 l le_rfl hok
        show ∀ c ∈ '[' :: (jsonDumpItems l ++ [']']), c.toNat < 128
        intro c hc
        rcases List.mem_cons.mp hc with rfl | hc2
        · decide
        · rcases List.mem_append.mp hc2 with h1 | h1
          · exact hil c h1
          · simp only [List.mem_singleton] at h1
            subst h1
            decide
      | pDict d =>
        have hsd : sizeOf d < N := by
          have : sizeOf (PyVal.pDict d) = 1 + sizeOf d := by simp
          omega
        have hid := (ih _ hsd).2.2 d le_rfl hok
        show ∀ c ∈ lbraceChar :: (jsonDumpMembers d ++ [rbraceChar]), c.toNat < 128
        intro c hc
        rcases List.mem_cons.mp hc with rfl | hc2
        · decide
        · rcases List.mem_append.mp hc2 with h1 | h1
          · exact hid c h1
          · simp only [List.mem_singleton] at h1
            subst h1
            decide
    · intro l hsize hok
      rcases l with _ | ⟨v1, vs⟩
      · intro c hc
        simp [jsonDumpItems] at hc
      have hok1 : jsonOkVal v1 = true ∧ jsonOkItems vs = true := by
        have : jsonOkItems (v1 :: vs) = (jsonOkVal v1 && jsonOkItems vs) := rfl
        rw [this] at hok
        simpa [Bool.and_eq_true] using hok
      have hsv1 : sizeOf v1 < N := by
        have : sizeOf (v1 :: vs) = 1 + sizeOf v1 + sizeOf vs := by simp
        have hpos : 0 < sizeOf vs := by
          rcases vs with _ | _ <;> simp <;> omega
        omega
      have hsvs : sizeOf vs < N := by
        have : sizeOf (v1 :: vs) = 1 + sizeOf v1 + sizeOf vs := by simp
        have hpos : 0 < sizeOf v1 := by
          rcases v1 <;> simp <;> omega
        omega
      have h1 := (ih _ hsv1).1 v1 le_rfl hok1.1
      rcases vs with _ | ⟨v2, vs2⟩
      · exact h1
      · have h2 := (ih _ hsvs).2.1 (v2 :: vs2) le_rfl hok1.2
        show ∀ c ∈ json_dumps v1 ++ ',' :: ' ' :: jsonDumpItems (v2 :: vs2),
          c.toNat < 128
        intro c hc
        rcases List.mem_append.mp hc with hm | hm
        · exact h1 c hm
        · rcases List.mem_cons.mp hm with rfl | hm2
          · decide
          · rcases List.mem_cons.mp hm2 with rfl | hm3
            · decide
            · exact h2 c hm3
    · intro d hsize hok
      rcases d with _ | ⟨⟨k1, v1⟩, kvs⟩
      · intro c hc
        simp [jsonDumpMembers] at hc
      have hok1 : (∀ c ∈ k1, jsonSafeChar c = true) ∧ jsonOkVal v1 = true ∧
          jsonOkMembers kvs = true := by
        have : jsonOkMembers ((k1, v1) :: kvs) =
            (k1.all jsonSafeChar && jsonOkVal v1 && jsonOkMembers kvs) := rfl
        rw [this] at hok
        simp only [Bool.and_eq_true, List.all_eq_true] at hok
        exact ⟨hok.1.1, hok.1.2, hok.2⟩
      have hsv1 : sizeOf v1 < N := by
        have h1 : sizeOf ((k1, v1) :: kvs) = 1 + sizeOf (k1, v1) + sizeOf kvs := by simp
        have h2 : sizeOf (k1, v1) = 1 + sizeOf k1 + sizeOf v1 := by simp
        have hpos : 0 < sizeOf kvs := by
          rcases kvs with _ | _ <;> simp <;> omega
        omega
      have hskvs : sizeOf kvs < N := by
        have h1 : sizeOf ((k1, v1) :: kvs) = 1 + sizeOf (k1, v1) + sizeOf kvs := by simp
        have h2 : sizeOf (k1, v1) = 1 + sizeOf k1 + sizeOf v1 := by simp
        have hpos : 0 < sizeOf v1 := by
          rcases v1 <;> simp <;> omega
        omega
      have h1 := (ih _ hsv1).1 v1 le_rfl hok1.2.1
      have hkchars : ∀ c ∈ jsonDumpStr k1, c.toNat < 128 := by
        rw [jsonDumpStr_safe hok1.1]
        intro c hc
        rcases List.mem_cons.mp hc with rfl | hc2
        · decide
        · rcases List.mem_append.mp hc2 with hm | hm
          · exact jsonSafeChar_lt128 (hok1.1 c hm)
          · simp only [List.mem_singleton] at hm
            subst hm
            decide
      rcases kvs with _ | ⟨⟨k2, v2⟩, kvs2⟩
      · show ∀ c ∈ jsonDumpStr k1 ++ ':' :: ' ' :: json_dumps v1, c.toNat < 128
        intro c hc
        rcases List.mem_append.mp hc with hm | hm
        · exact hkchars c hm
        · rcases List.mem_cons.mp hm with rfl | hm2
          · decide
          · rcases List.mem_cons.mp hm2 with rfl | hm3
            · decide
            · exact h1 c hm3
      · have h2 := (ih _ hskvs).2.2 ((k2, v2) :: kvs2) le_rfl hok1.2.2
        show ∀ c ∈ jsonDumpStr k1 ++ ':' :: ' ' :: json_dumps v1 ++
            ',' :: ' ' :: jsonDumpMembers ((k2, v2) :: kvs2), c.toNat < 128
        intro c hc
        rcases List.mem_append.mp hc with hm | hm
        · rcases List.mem_append.mp hm with hm1 | hm1
          · exact hkchars c hm1
          · rcases List.mem_cons.mp hm1 with rfl | hm2
            · decide
            · rcases List.mem_cons.mp hm2 with rfl | hm3
              · decide
              · exact h1 c hm3
        · rcases List.mem_cons.mp hm with rfl | hm2
          · decide
          · rcases List.mem_cons.mp hm2 with rfl | hm3
            · decide
            · exact h2 c hm3

/-- `json.loads` inverts `json.dumps` on `jsonOk` values. -/
theorem json_loads_dumps {v : PyVal} (h : jsonOkVal v = true) :
    json_loads (json_dumps v) = some v := by
  have h1 := (parse_dumps_all (sizeOf v)).1 v le_rfl h
    ((json_dumps v).length + 1) [] rfl (by omega)
  rw [List.append_nil] at h1
  unfold json_loads
  rw [h1]
  simp [skipWs]

theorem utf8EncodeChar_ascii {c : Char} (h : c.toNat < 128) :
    utf8EncodeChar c = [c.toNat] := by
  unfold utf8EncodeChar
  rw [if_pos h]

theorem utf8Encode_ascii {s : PyStr} (h : ∀ c ∈ s, c.toNat < 128) :
    utf8Encode s = s.map Char.toNat := by
  induction s with
  | nil => rfl
  | cons c t ih =>
    show utf8EncodeChar c ++ utf8Encode t = _
    rw [utf8EncodeChar_ascii (h c (by simp)), ih (fun d hd => h d (by simp [hd]))]
    rfl

theorem utf8DecodeAux_ascii (s : PyStr) (h : ∀ c ∈ s, c.toNat < 128) :
    ∀ fuel, s.length ≤ fuel → utf8DecodeAux fuel (s.map Char.toNat) = some s := by
  induction s with
  | nil =>
    intro fuel _
    rcases fuel with _ | f <;> rfl
  | cons c t ih =>
    intro fuel hf
    rcases fuel with _ | f
    · simp at hf
    have hc := h c (by simp)
    show utf8DecodeAux (f + 1) (c.toNat :: t.map Char.toNat) = _
    simp only [utf8DecodeAux]
    rw [if_pos hc, ih (fun d hd => h d (by simp [hd])) f (by simpa using hf)]
    simp [Char.ofNat_toNat]

theorem utf8Decode_encode_ascii (s : PyStr) (h : ∀ c ∈ s, c.toNat < 128) :
    utf8Decode (utf8Encode s) = some s := by
  unfold utf8Decode
  rw [utf8Encode_ascii h]
  exact utf8DecodeAux_ascii s h _ (by simp)

theorem utf8EncodeChar_ne_nil (c : Char) : utf8EncodeChar c ≠ [] := by
  unfold utf8EncodeChar
  split_ifs <;> simp

theorem utf8Encode_ne_nil {s : PyStr} (h : s ≠ []) : utf8Encode s ≠ [] := by
  rcases s with _ | ⟨c, t⟩
  · exact absurd rfl h
  · show utf8EncodeChar c ++ utf8Encode t ≠ []
    intro hcon
    exact utf8EncodeChar_ne_nil c (List.append_eq_nil.mp hcon).1

theorem jsonOk_tableVal {ps : List Pair}
    (hk : ∀ p ∈ ps, ∀ c ∈ p.1, jsonSafeChar c = true)
    (hc : ∀ p ∈ ps, ∀ c ∈ p.2, jsonSafeChar c = true) :
    jsonOkVal (tableVal ps) = true := by
  show jsonOkMembers (ps.map fun p => (p.1, PyVal.pStr p.2)) = true
  induction ps with
  | nil => rfl
  | cons p rest ih =>
    show (p.1.all jsonSafeChar && jsonOkVal (.pStr p.2) &&
      jsonOkMembers (rest.map fun q => (q.1, PyVal.pStr q.2))) = true
    have h1 : p.1.all jsonSafeChar = true := by
      rw [List.all_eq_true]
      exact hk p (by simp)
    have h2 : jsonOkVal (.pStr p.2) = true := by
      show p.2.all jsonSafeChar = true
      rw [List.all_eq_true]
      exact hc p (by simp)
    have h3 := ih (fun q hq => hk q (by simp [hq])) (fun q hq => hc q (by simp [hq]))
    simp [h1, h2, h3]

theorem construirLoop_binary (heap : List Entry)
    (hd : ∀ e ∈ heap, ∀ p ∈ e.2, ∀ c ∈ p.2, c = '0' ∨ c = '1') :
    ∀ e ∈ construirLoop heap, ∀ p ∈ e.2, ∀ c ∈ p.2, c = '0' ∨ c = '1' := by
  induction heap using construirLoop_ind with
  | base x hle =>
    rw [construirLoop_base hle]
    exact hd
  | step x lo hi rest hle hs ih =>
    rw [construirLoop_step hle hs]
    refine ih ?_
    have hperm := @pySort_perm _ entryLt _ x
    rw [hs] at hperm
    have hmem : ∀ e ∈ lo :: hi :: rest, ∀ p ∈ e.2, ∀ c ∈ p.2, c = '0' ∨ c = '1' :=
      fun e he => hd e (hperm.mem_iff.mp he)
    intro e he
    rcases List.mem_append.mp he with h1 | h1
    · exact hmem e (by simp [h1])
    · simp only [List.mem_singleton] at h1
      subst h1
      intro p hp c hcp
      rcases List.mem_append.mp hp with h2 | h2
      · rcases List.mem_map.mp h2 with ⟨q, hq, rfl⟩
        rcases List.mem_cons.mp hcp with rfl | h3
        · exact Or.inl rfl
        · exact hmem lo (by simp) q hq c h3
      · rcases List.mem_map.mp h2 with ⟨q, hq, rfl⟩
        rcases List.mem_cons.mp hcp with rfl | h3
        · exact Or.inr rfl
        · exact hmem hi (by simp) q hq c h3

theorem construir_arvore_binary (freq : List (PyStr × Nat)) (ps : List Pair)
    (h : construir_arvore_huffman freq = .ok ps) :
    ∀ p ∈ ps, ∀ c ∈ p.2, c = '0' ∨ c = '1' := by
  unfold construir_arvore_huffman at h
  rcases hres : construirLoop (freq.map fun sf => (sf.2, [(sf.1, [])])) with _ | ⟨e, rest⟩
  · rw [hres] at h
    cases h
  · rw [hres] at h
    have hps : ps = pySort pairKeyLt e.2 := by
      injection h with h2
      exact h2.symm
    have hini : ∀ e2 ∈ freq.map (fun sf => (sf.2, [(sf.1, ([] : PyStr))])),
        ∀ p ∈ e2.2, ∀ c ∈ p.2, c = '0' ∨ c = '1' := by
      intro e2 he2 p hp c hcp
      rcases List.mem_map.mp he2 with ⟨sf, _, rfl⟩
      simp only [List.mem_singleton] at hp
      subst hp
      simp at hcp
    have hloop := construirLoop_binary _ hini e (by rw [hres]; simp)
    intro p hp c hcp
    exact hloop p ((pySort_perm e.2).mem_iff.mp (hps ▸ hp)) c hcp

theorem encBits_binary {t : PyStr} {ps : List Pair}
    (hbin : ∀ p ∈ ps, ∀ c ∈ p.2, c = '0' ∨ c = '1') :
    ∀ b ∈ encBits t ps, b = '0' ∨ b = '1' := by
  intro b hb
  unfold encBits at hb
  rcases List.mem_flatMap.mp hb with ⟨c, _, hbc⟩
  rcases hw : dictGet ps [c] with _ | w
  · rw [hw] at hbc
    simp at hbc
  · rw [hw] at hbc
    simp only [Option.getD_some] at hbc
    exact hbin ([c], w) (dictGet_mem hw) b hbc

theorem encBits_cons_ne_nil {c : Char} {rest : PyStr} {ps : List Pair}
    {w : PyStr} (hw : dictGet ps [c] = some w) (hwne : w ≠ []) :
    encBits (c :: rest) ps ≠ [] := by
  unfold encBits
  rw [List.flatMap_cons, hw]
  simp only [Option.getD_some]
  intro hcon
  exact hwne (List.append_eq_nil.mp hcon).1

/-! ## Theorems: the container on a healthy stream -/

theorem escrever_binario_body_ok (texto : PyStr) (ps : List Pair)
    (hne : texto ≠ []) (hbin : ∀ c ∈ texto, c = '0' ∨ c = '1')
    (hn : texto.length < 2 ^ 32) (hm : (tableBlob ps).length < 2 ^ 32) :
    escrever_binario_body texto ps freshFile = .ok ⟨containerBytes texto ps, none⟩ := by
  have h256 : (2:Nat) ^ 32 = 256 ^ 4 := by norm_num
  have htb : toBytesLE 4 texto.length = .ok (natToBytesLE 4 texto.length) := by
    unfold toBytesLE
    rw [if_pos (by omega)]
  have hlb : toBytesLE 4 (zlib_compress (utf8Encode (json_dumps_table ps))).length =
      .ok (natToBytesLE 4 (zlib_compress (utf8Encode (json_dumps_table ps))).length) := by
    unfold toBytesLE
    rw [if_pos (by unfold tableBlob at hm; omega)]
  have hpk := packBits_ok texto hne hbin
  simp only [escrever_binario_body]
  rw [htb, hpk, hlb]
  rfl

theorem except_ok_bind {a : α} {f : α → Except PyExc β} :
    (Except.ok a >>= f : Except PyExc β) = f a := rfl

theorem ler_binario_body_container (texto : PyStr) (ps : List Pair)
    (hne : texto ≠ []) (hbin : ∀ c ∈ texto, c = '0' ∨ c = '1')
    (hn : texto.length < 2 ^ 32) (hm : (tableBlob ps).length < 2 ^ 32)
    (hk : ∀ p ∈ ps, ∀ c ∈ p.1, jsonSafeChar c = true)
    (hcs : ∀ p ∈ ps, ∀ c ∈ p.2, jsonSafeChar c = true) :
    ler_binario_body (readFileOf (containerBytes texto ps)) =
      .ok ((texto, tableVal ps), ⟨[], none⟩) := by
  have h256 : (2:Nat) ^ 32 = 256 ^ 4 := by norm_num
  have hok := jsonOk_tableVal hk hcs
  have hsplit : containerBytes texto ps =
      natToBytesLE 4 texto.length ++
        (natToBytesBE ((texto.length + 7) / 8) (binVal texto) ++
          (natToBytesLE 4 (tableBlob ps).length ++ tableBlob ps)) := by
    unfold containerBytes
    simp [List.append_assoc]
  have hr1 : pyRead (readFileOf (containerBytes texto ps)) 4 =
      .ok (natToBytesLE 4 texto.length,
        ⟨natToBytesBE ((texto.length + 7) / 8) (binVal texto) ++
          (natToBytesLE 4 (tableBlob ps).length ++ tableBlob ps), none⟩) := by
    show Except.ok ((containerBytes texto ps).take 4,
      (⟨(containerBytes texto ps).drop 4, none⟩ : PyReadFile)) = _
    rw [hsplit, List.take_left' (natToBytesLE_length 4 _),
      List.drop_left' (natToBytesLE_length 4 _)]
  have hfrom1 : fromBytesLE (natToBytesLE 4 texto.length) = texto.length :=
    fromBytesLE_natToBytesLE (by omega)
  have hr2 : pyRead (⟨natToBytesBE ((texto.length + 7) / 8) (binVal texto) ++
        (natToBytesLE 4 (tableBlob ps).length ++ tableBlob ps), none⟩ : PyReadFile)
      ((texto.length + 7) / 8) =
      Except.ok (natToBytesBE ((texto.length + 7) / 8) (binVal texto),
        ⟨natToBytesLE 4 (tableBlob ps).length ++ tableBlob ps, none⟩) := by
    show Except.ok ((natToBytesBE ((texto.length + 7) / 8) (binVal texto) ++
        (natToBytesLE 4 (tableBlob ps).length ++ tableBlob ps)).take ((texto.length + 7) / 8),
      (⟨(natToBytesBE ((texto.length + 7) / 8) (binVal texto) ++
        (natToBytesLE 4 (tableBlob ps).length ++ tableBlob ps)).drop ((texto.length + 7) / 8),
        none⟩ : PyReadFile)) = _
    rw [List.take_left' (natToBytesBE_length _ _),
      List.drop_left' (natToBytesBE_length _ _)]
  have hr3 : pyRead (⟨natToBytesLE 4 (tableBlob ps).length ++ tableBlob ps, none⟩ :
      PyReadFile) 4 =
      Except.ok (natToBytesLE 4 (tableBlob ps).length, ⟨tableBlob ps, none⟩) := by
    show Except.ok ((natToBytesLE 4 (tableBlob ps).length ++ tableBlob ps).take 4,
      (⟨(natToBytesLE 4 (tableBlob ps).length ++ tableBlob ps).drop 4,
        none⟩ : PyReadFile)) = _
    rw [List.take_left' (natToBytesLE_length 4 _),
      List.drop_left' (natToBytesLE_length 4 _)]
  have hfrom2 : fromBytesLE (natToBytesLE 4 (tableBlob ps).length) =
      (tableBlob ps).length :=
    fromBytesLE_natToBytesLE (by omega)
  have hr4 : pyRead (⟨tableBlob ps, none⟩ : PyReadFile) (tableBlob ps).length =
      Except.ok (tableBlob ps, ⟨[], none⟩) := by
    show Except.ok ((tableBlob ps).take (tableBlob ps).length,
      (⟨(tableBlob ps).drop (tableBlob ps).length, none⟩ : PyReadFile)) = _
    rw [List.take_length, List.drop_length]
  have hz : zlib_decompress (tableBlob ps) =
      some (utf8Encode (json_dumps_table ps)) :=
    zlib_decompress_compress _
  have hascii : ∀ c ∈ json_dumps_table ps, c.toNat < 128 :=
    (json_dumps_ascii (sizeOf (tableVal ps))).1 _ le_rfl hok
  have hu : utf8Decode (utf8Encode (json_dumps_table ps)) =
      some (json_dumps_table ps) :=
    utf8Decode_encode_ascii _ hascii
  have hj : json_loads (json_dumps_table ps) = some (tableVal ps) :=
    json_loads_dumps hok
  have hup : unpackBits (natToBytesBE ((texto.length + 7) / 8) (binVal texto))
      texto.length = texto := by
    obtain ⟨bs, h1, h2, h3⟩ := unpackBits_packBits texto hne hbin
    rw [packBits_ok texto hne hbin] at h1
    injection h1 with h4
    rw [h4]
    exact h3
  unfold ler_binario_body
  rw [hr1]
  simp only [except_ok_bind]
  rw [hfrom1, hr2]
  simp only [except_ok_bind]
  rw [hr3]
  simp only [except_ok_bind]
  rw [hfrom2, hr4]
  simp only [except_ok_bind]
  rw [hz]
  simp only []
  rw [hu]
  simp only []
  rw [hj]
  simp only [except_ok_bind]
  rw [hup]


theorem ler_binario_container (texto : PyStr) (ps : List Pair)
    (hne : texto ≠ []) (hbin : ∀ c ∈ texto, c = '0' ∨ c = '1')
    (hn : texto.length < 2 ^ 32) (hm : (tableBlob ps).length < 2 ^ 32)
    (hk : ∀ p ∈ ps, ∀ c ∈ p.1, jsonSafeChar c = true)
    (hcs : ∀ p ∈ ps, ∀ c ∈ p.2, jsonSafeChar c = true) :
    ler_binario (readFileOf (containerBytes texto ps)) =
      .ok ((texto, tableVal ps), ⟨[], none⟩) := by
  unfold ler_binario
  rw [ler_binario_body_container texto ps hne hbin hn hm hk hcs]

theorem escrever_binario_ok (texto : PyStr) (ps : List Pair)
    (hne : texto ≠ []) (hbin : ∀ c ∈ texto, c = '0' ∨ c = '1')
    (hn : texto.length < 2 ^ 32) (hm : (tableBlob ps).length < 2 ^ 32) :
    escrever_binario texto ps freshFile = .ok ⟨containerBytes texto ps, none⟩ := by
  unfold escrever_binario
  rw [escrever_binario_body_ok texto ps hne hbin hn hm]

theorem escrever_binario_overflow_bits (texto : PyStr) (ps : List Pair)
    (f : PyWriteFile) (hn : ¬ texto.length < 2 ^ 32) :
    escrever_binario texto ps f = .error .otherExc := by
  have h256 : (2:Nat) ^ 32 = 256 ^ 4 := by norm_num
  have htb : toBytesLE 4 texto.length = .error .otherExc := by
    unfold toBytesLE
    rw [if_neg (by omega)]
  unfold escrever_binario
  simp only [escrever_binario_body]
  rw [htb]
  rfl

theorem escrever_binario_overflow_blob (texto : PyStr) (ps : List Pair)
    (hne : texto ≠ []) (hbin : ∀ c ∈ texto, c = '0' ∨ c = '1')
    (hn : texto.length < 2 ^ 32) (hm : ¬ (tableBlob ps).length < 2 ^ 32) :
    escrever_binario texto ps freshFile = .error .otherExc := by
  have h256 : (2:Nat) ^ 32 = 256 ^ 4 := by norm_num
  have htb : toBytesLE 4 texto.length = .ok (natToBytesLE 4 texto.length) := by
    unfold toBytesLE
    rw [if_pos (by omega)]
  have hlb : toBytesLE 4 (zlib_compress (utf8Encode (json_dumps_table ps))).length =
      .error .otherExc := by
    unfold toBytesLE
    rw [if_neg (by unfold tableBlob at hm; omega)]
  have hpk := packBits_ok texto hne hbin
  unfold escrever_binario
  simp only [escrever_binario_body]
  rw [htb, hpk, hlb]
  rfl

theorem tableBlob_ne_nil (ps : List Pair) : tableBlob ps ≠ [] := by
  unfold tableBlob zlib_compress
  simp

theorem ler_binario_truncated (texto : PyStr) (ps : List Pair)
    (hne : texto ≠ []) (hbin : ∀ c ∈ texto, c = '0' ∨ c = '1')
    (hn : texto.length < 2 ^ 32) (hm : (tableBlob ps).length < 2 ^ 32) :
    ler_binario (readFileOf ((containerBytes texto ps).dropLast)) =
      .error .otherExc := by
  have h256 : (2:Nat) ^ 32 = 256 ^ 4 := by norm_num
  have hblobne : tableBlob ps ≠ [] := tableBlob_ne_nil ps
  have hdataene : utf8Encode (json_dumps_table ps) ≠ [] := by
    refine utf8Encode_ne_nil ?_
    intro hcon
    have h2 : (1:Nat) ≤ (json_dumps_table ps).length :=
      json_dumps_length_pos (tableVal ps)
    rw [hcon] at h2
    simp at h2
  have hsplit : (containerBytes texto ps).dropLast =
      natToBytesLE 4 texto.length ++
        (natToBytesBE ((texto.length + 7) / 8) (binVal texto) ++
          (natToBytesLE 4 (tableBlob ps).length ++ (tableBlob ps).dropLast)) := by
    unfold containerBytes
    rw [List.dropLast_append_of_ne_nil _ hblobne]
    simp [List.append_assoc]
  have hr1 : pyRead (readFileOf ((containerBytes texto ps).dropLast)) 4 =
      Except.ok (natToBytesLE 4 texto.length,
        ⟨natToBytesBE ((texto.length + 7) / 8) (binVal texto) ++
          (natToBytesLE 4 (tableBlob ps).length ++ (tableBlob ps).dropLast), none⟩) := by
    show Except.ok (((containerBytes texto ps).dropLast).take 4,
      (⟨((containerBytes texto ps).dropLast).drop 4, none⟩ : PyReadFile)) = _
    rw [hsplit, List.take_left' (natToBytesLE_length 4 _),
      List.drop_left' (natToBytesLE_length 4 _)]
  have hfrom1 : fromBytesLE (natToBytesLE 4 texto.length) = texto.length :=
    fromBytesLE_natToBytesLE (by omega)
  have hr2 : pyRead (⟨natToBytesBE ((texto.length + 7) / 8) (binVal texto) ++
        (natToBytesLE 4 (tableBlob ps).length ++ (tableBlob ps).dropLast), none⟩ :
      PyReadFile) ((texto.length + 7) / 8) =
      Except.ok (natToBytesBE ((texto.length + 7) / 8) (binVal texto),
        ⟨natToBytesLE 4 (tableBlob ps).length ++ (tableBlob ps).dropLast, none⟩) := by
    show Except.ok ((natToBytesBE ((texto.length + 7) / 8) (binVal texto) ++
        (natToBytesLE 4 (tableBlob ps).length ++ (tableBlob ps).dropLast)).take
          ((texto.length + 7) / 8),
      (⟨(natToBytesBE ((texto.length + 7) / 8) (binVal texto) ++
        (natToBytesLE 4 (tableBlob ps).length ++ (tableBlob ps).dropLast)).drop
          ((texto.length + 7) / 8), none⟩ : PyReadFile)) = _
    rw [List.take_left' (natToBytesBE_length _ _),
      List.drop_left' (natToBytesBE_length _ _)]
  have hr3 : pyRead (⟨natToBytesLE 4 (tableBlob ps).length ++ (tableBlob ps).dropLast,
      none⟩ : PyReadFile) 4 =
      Except.ok (natToBytesLE 4 (tableBlob ps).length,
        ⟨(tableBlob ps).dropLast, none⟩) := by
    show Except.ok ((natToBytesLE 4 (tableBlob ps).length ++
        (tableBlob ps).dropLast).take 4,
      (⟨(natToBytesLE 4 (tableBlob ps).length ++ (tableBlob ps).dropLast).drop 4,
        none⟩ : PyReadFile)) = _
    rw [List.take_left' (natToBytesLE_length 4 _),
      List.drop_left' (natToBytesLE_length 4 _)]
  have hfrom2 : fromBytesLE (natToBytesLE 4 (tableBlob ps).length) =
      (tableBlob ps).length :=
    fromBytesLE_natToBytesLE (by omega)
  have hr4 : pyRead (⟨(tableBlob ps).dropLast, none⟩ : PyReadFile)
      (tableBlob ps).length =
      Except.ok ((tableBlob ps).dropLast, ⟨[], none⟩) := by
    show Except.ok (((tableBlob ps).dropLast).take (tableBlob ps).length,
      (⟨((tableBlob ps).dropLast).drop (tableBlob ps).length, none⟩ : PyReadFile)) = _
    rw [List.take_of_length_le (by simp [List.length_dropLast]),
      List.drop_eq_nil_of_le (by simp [List.length_dropLast])]
  have hz : zlib_decompress ((tableBlob ps).dropLast) = none :=
    zlib_decompress_truncated _ hdataene
  unfold ler_binario ler_binario_body
  rw [hr1]
  simp only [except_ok_bind]
  rw [hfrom1, hr2]
  simp only [except_ok_bind]
  rw [hr3]
  simp only [except_ok_bind]
  rw [hfrom2, hr4]
  simp only [except_ok_bind]
  rw [hz]
  rfl

/-! ## Theorems: the compaction pipeline -/

/-- The writer pipeline on any record list: the tree construction succeeds and
yields a prefix-free table with non-empty binary codes covering every
character of the rendering, and the encoder produces the non-empty binary
concatenation of the codes. -/
theorem compactar_layout (x : List PyVal) :
    ∃ ps, construir_arvore_huffman
        (calcular_frequencias (reprPy (.pList x))) = .ok ps ∧
      (∀ k ∈ ps.map (·.1), ∃ c ∈ reprPy (.pList x), k = [c]) ∧
      PrefFree ps ∧ (∀ p ∈ ps, p.2 ≠ []) ∧
      (∀ p ∈ ps, ∀ c ∈ p.2, c = '0' ∨ c = '1') ∧
      (∀ c ∈ reprPy (.pList x), ∃ w, dictGet ps [c] = some w) ∧
      codificar_lista (reprPy (.pList x)) ps =
        .ok (encBits (reprPy (.pList x)) ps) ∧
      encBits (reprPy (.pList x)) ps ≠ [] ∧
      (∀ b ∈ encBits (reprPy (.pList x)) ps, b = '0' ∨ b = '1') := by
  have hshape : reprPy (.pList x) = '[' :: (reprItems x ++ [']']) := rfl
  have hmem1 : '[' ∈ reprPy (.pList x) := by rw [hshape]; simp
  have hmem2 : ']' ∈ reprPy (.pList x) := by rw [hshape]; simp
  have htne : reprPy (.pList x) ≠ [] := by rw [hshape]; simp
  have hnd := calcular_frequencias_nodup (reprPy (.pList x))
  have hfne := calcular_frequencias_ne_nil _ htne
  have h2 : 2 ≤ (calcular_frequencias (reprPy (.pList x))).length :=
    calcular_frequencias_two _ hmem1 hmem2 (by decide)
  obtain ⟨ps, hok, hperm, hpf, hcodes⟩ := construir_arvore_ok _ hnd hfne
  have hcodes2 : ∀ p ∈ ps, p.2 ≠ [] := hcodes h2
  have hbinc : ∀ p ∈ ps, ∀ c ∈ p.2, c = '0' ∨ c = '1' :=
    construir_arvore_binary _ ps hok
  have hkeys : ∀ k ∈ ps.map (·.1), ∃ c ∈ reprPy (.pList x), k = [c] := by
    intro k hk
    exact (calcular_frequencias_keys _ k).mp (hperm.mem_iff.mp hk)
  have hcover : ∀ c ∈ reprPy (.pList x), ∃ w, dictGet ps [c] = some w := by
    intro c hc
    refine dictGet_of_key_mem ?_
    rw [hperm.mem_iff]
    exact (calcular_frequencias_keys _ [c]).mpr ⟨c, hc, rfl⟩
  have hcod := codificar_ok _ ps hcover
  have hence : encBits (reprPy (.pList x)) ps ≠ [] := by
    obtain ⟨w, hw⟩ := hcover '[' hmem1
    rw [hshape]
    exact encBits_cons_ne_nil hw (hcodes2 _ (dictGet_mem hw))
  refine ⟨ps, hok, hkeys, hpf, hcodes2, hbinc, hcover, hcod, hence, ?_⟩
  exact encBits_binary hbinc

/-- A successful compaction pins the written bytes to the container layout of
the encoder output and the generated table. -/
theorem compactarBytes_layout (x : List PyVal) (bs : List Nat)
    (h : compactarBytes x = some bs) :
    ∃ ps, construir_arvore_huffman
        (calcular_frequencias (reprPy (.pList x))) = .ok ps ∧
      (encBits (reprPy (.pList x)) ps).length < 2 ^ 32 ∧
      (tableBlob ps).length < 2 ^ 32 ∧
      bs = containerBytes (encBits (reprPy (.pList x)) ps) ps := by
  obtain ⟨ps, hok, hkeys, hpf, hcodes2, hbinc, hcover, hcod, hence, hbinb⟩ :=
    compactar_layout x
  simp only [compactarBytes, compactarRun] at h
  rw [hok] at h
  simp only [except_ok_bind, gerar_codigo_huffman] at h
  rw [hcod] at h
  simp only [except_ok_bind] at h
  by_cases hb1 : (encBits (reprPy (.pList x)) ps).length < 2 ^ 32
  · by_cases hb2 : (tableBlob ps).length < 2 ^ 32
    · rw [escrever_binario_ok _ ps hence hbinb hb1 hb2] at h
      simp only [Option.some.injEq] at h
      exact ⟨ps, hok, hb1, hb2, h.symm⟩
    · rw [escrever_binario_overflow_blob _ ps hence hbinb hb1 hb2] at h
      cases h
  · rw [escrever_binario_overflow_bits _ ps freshFile hb1] at h
    cases h

/-- End-to-end: decompacting the container written for a good record list
recovers the list. -/
theorem descompactar_compactar (x : List PyVal) (hg : goodItems x = true)
    (hd : x.all PyVal.isDict = true) (bs : List Nat)
    (hbs : compactarBytes x = some bs) :
    descompactar_lista (readFileOf bs) = (CODES_SUCESSO, DescompRet.lista x) := by
  obtain ⟨ps, hok, hkeys, hpf, hcodes2, hbinc, hcover, hcod, hence, hbinb⟩ :=
    compactar_layout x
  obtain ⟨ps2, hok2, hb1, hb2, hbytes⟩ := compactarBytes_layout x bs hbs
  rw [hok] at hok2
  injection hok2 with hps2
  subst hps2
  have hgv : goodVal (.pList x) = true := hg
  obtain ⟨hjok, hsafe, hmap⟩ := goodVal_renders (.pList x) hgv
  have hk : ∀ p ∈ ps, ∀ c ∈ p.1, jsonSafeChar c = true := by
    intro p hp c hc
    obtain ⟨c2, hc2, heq⟩ := hkeys p.1 (List.mem_map.mpr ⟨p, hp, rfl⟩)
    rw [heq] at hc
    simp only [List.mem_singleton] at hc
    subst hc
    exact hsafe _ hc2
  have hcs : ∀ p ∈ ps, ∀ c ∈ p.2, jsonSafeChar c = true := by
    intro p hp c hc
    rcases hbinc p hp c hc with rfl | rfl <;> decide
  have hread := ler_binario_container _ ps hence hbinb hb1 hb2 hk hcs
  have hdec : decodificar_texto (encBits (reprPy (.pList x)) ps) ps =
      reprPy (.pList x) := by
    unfold decodificar_texto
    have hloop := decodLoop_encBits hpf hcodes2 (reprPy (.pList x)) [] hcover
    rw [List.append_nil] at hloop
    rw [hloop]
    simp [decodLoop]
  have htpl : texto_para_lista (reprPy (.pList x)) = .ok x := by
    unfold texto_para_lista
    rw [hmap, json_loads_dumps hjok]
    simp only []
    rw [if_pos hd]
  unfold descompactar_lista descompactarRun
  rw [hbytes, hread]
  simp only [except_ok_bind]
  rw [decodificar_texto_json_table]
  simp only [except_ok_bind]
  rw [hdec, htpl]

/-- Truncating the table blob of any container compaction wrote makes
decompaction fail through the `except Exception` arm (code 3), the `zlib`
error being neither an `OSError` nor a `json.JSONDecodeError`. -/
theorem descompactar_truncated (x : List PyVal) (bs : List Nat)
    (hbs : compactarBytes x = some bs) :
    descompactar_lista (readFileOf bs.dropLast) =
      (CODES_ERRO_DECODIFICACAO, DescompRet.errMsg .otherExc) := by
  obtain ⟨ps, hok, hb1, hb2, hbytes⟩ := compactarBytes_layout x bs hbs
  obtain ⟨ps2, hok2, hkeys, hpf, hcodes2, hbinc, hcover, hcod, hence, hbinb⟩ :=
    compactar_layout x
  rw [hok] at hok2
  injection hok2 with hps2
  subst hps2
  have hread := ler_binario_truncated _ ps hence hbinb hb1 hb2
  unfold descompactar_lista descompactarRun
  rw [hbytes, hread]
  rfl

theorem decodificar_texto_json_ne_osError (texto : PyStr) (v : PyVal) :
    decodificar_texto_json texto v ≠ .error .osError := by
  unfold decodificar_texto_json
  rcases v <;> simp only []
  case pDict entries => split_ifs <;> simp
  all_goals simp

theorem texto_para_lista_ne_osError (texto : PyStr) :
    texto_para_lista texto ≠ .error .osError := by
  unfold texto_para_lista
  rcases h : json_loads (texto.map repl) with _ | v
  · simp
  · rcases v <;> simp only []
    case pList l => split_ifs <;> simp
    all_goals simp

theorem ler_binario_ne_osError (f : PyReadFile) :
    ler_binario f ≠ .error .osError := by
  unfold ler_binario
  rcases hb : ler_binario_body f with e | r
  · cases e <;> simp
  · simp

theorem descompactarRun_ne_osError (f : PyReadFile) :
    descompactarRun f ≠ .error .osError := by
  unfold descompactarRun
  rcases hb : ler_binario f with e | ⟨⟨texto, cod⟩, f4⟩
  · intro hcon
    have h2 : (Except.error e : Except PyExc (List PyVal)) =
        Except.error PyExc.osError := hcon
    injection h2 with h3
    subst h3
    exact ler_binario_ne_osError f hb
  · simp only [except_ok_bind]
    rcases hdj : decodificar_texto_json texto cod with e2 | s
    · intro hcon
      have h2 : (Except.error e2 : Except PyExc (List PyVal)) =
          Except.error PyExc.osError := hcon
      injection h2 with h3
      subst h3
      exact decodificar_texto_json_ne_osError texto cod hdj
    · simp only [except_ok_bind]
      exact texto_para_lista_ne_osError s

theorem descompactar_lista_codes (f : PyReadFile) :
    (∃ l, descompactar_lista f = (CODES_SUCESSO, DescompRet.lista l)) ∨
      (descompactar_lista f).1 = CODES_ERRO_DECODIFICACAO := by
  rcases hr : descompactarRun f with e | l
  · right
    unfold descompactar_lista
    rw [hr]
    cases e
    case osError => exact absurd hr (descompactarRun_ne_osError f)
    all_goals rfl
  · left
    exact ⟨l, by unfold descompactar_lista; rw [hr]⟩

/-- `_decodificar_texto` drops a trailing residue no prefix of which matches a
code, returning just the symbols matched so far. -/
theorem decodificar_trailing (ps : List Pair) (hpf : PrefFree ps)
    (hcodes : ∀ p ∈ ps, p.2 ≠ []) (t : PyStr)
    (hcover : ∀ c ∈ t, ∃ v, dictGet ps [c] = some v) (u : PyStr)
    (hu : ∀ u1 b u2, u = u1 ++ b :: u2 → dictGet (invertDict ps) (u1 ++ [b]) = none) :
    decodificar_texto (encBits t ps ++ u) ps = t := by
  unfold decodificar_texto
  rw [decodLoop_encBits hpf hcodes t u hcover]
  rw [decodLoop_nomatch (invertDict ps) u []
    (by intro u1 b u2 h; simpa using hu u1 b u2 h)]
  simp

/-- The tree construction depends only on the multiset of (symbol, frequency)
entries: permuting the frequency table does not change the result, because the
loop sorts the heap under a linear order before every merge. -/
theorem construirLoop_perm (h1 h2 : List Entry) (hp : h1.Perm h2) :
    construirLoop h1 = construirLoop h2 := by
  induction h1 using construirLoop_ind generalizing h2 with
  | base x hle =>
    rw [construirLoop_base hle, construirLoop_base (hp.length_eq ▸ hle)]
    rcases x with _ | ⟨a, t⟩
    · exact (List.Perm.nil_eq hp).symm ▸ rfl
    · rcases t with _ | _
      · exact List.Perm.singleton_eq hp ▸ rfl
      · simp at hle
  | step x lo hi rest hle hs ih =>
    have hle2 : ¬ h2.length ≤ 1 := by
      rw [← hp.length_eq]
      exact hle
    have hsort : pySort entryLt h2 = lo :: hi :: rest := by
      rw [pySort_eq_of_perm entryLt_slo hp.symm]
      exact hs
    rw [construirLoop_step hle hs, construirLoop_step hle2 hsort]

theorem construir_arvore_perm (f1 f2 : List (PyStr × Nat)) (hp : f1.Perm f2) :
    construir_arvore_huffman f1 = construir_arvore_huffman f2 := by
  unfold construir_arvore_huffman
  rw [construirLoop_perm (f1.map fun sf => (sf.2, [(sf.1, [])]))
    (f2.map fun sf => (sf.2, [(sf.1, [])])) (hp.map _)]

/-! ## The claims -/

/-- C1 (amended): for record sequences of dicts over good values — strings
and keys of printable-ASCII characters other than the quote, double quote and
backslash, integers, and nested lists/dicts of such values — whenever
`compactar_lista` succeeds on a fresh healthy file, `descompactar_lista` on
the written container returns exactly the original list with the success
code.  The unamended claim (`every JSON-representable value without breaking
characters`) is refuted by `claim_C1_counterexample`: a boolean value breaks
the round trip even though it contains no characters at all. -/
theorem claim_C1_roundtrip (x : List PyVal) (bs : List Nat)
    (hg : goodItems x = true) (hd : x.all PyVal.isDict = true)
    (hbs : compactarBytes x = some bs) :
    descompactar_lista (readFileOf bs) = (CODES_SUCESSO, DescompRet.lista x) :=
  descompactar_compactar x hg hd bs hbs

set_option maxRecDepth 1000000 in
set_option maxHeartbeats 4000000 in
/-- C1 witness: the concrete round trip of `[{}]` through the concrete
56-byte container. -/
theorem claim_C1_witness :
    descompactar_lista (readFileOf
      [8, 0, 0, 0, 45, 47, 0, 0, 0, 52, 52, 58, 123, 34, 91, 34, 58, 32,
        34, 48, 48, 34, 44, 32, 34, 93, 34, 58, 32, 34, 48, 49, 34, 44, 32, 34,
        123, 34, 58, 32, 34, 49, 48, 34, 44, 32, 34, 125, 34, 58, 32, 34, 49,
        49, 34, 125]) = (CODES_SUCESSO, DescompRet.lista [PyVal.pDict []]) :=
  claim_C1_roundtrip [PyVal.pDict []] _ (by decide) (by decide) (by decide)

set_option maxRecDepth 1000000 in
set_option maxHeartbeats 4000000 in
/-- C1 counterexample: `[{'a': True}]` is a record sequence of
JSON-representable values with no problematic characters, compaction
succeeds, but decompaction returns the decoding-error code 3 (the rendering
`True` is not JSON, `json.loads` fails, and the `ValueError` is caught at the
boundary), not the original list. -/
theorem claim_C1_counterexample :
    (compactarBytes [PyVal.pDict [(['a'], PyVal.pBool true)]]).isSome = true ∧
    (compactarBytes [PyVal.pDict [(['a'], PyVal.pBool true)]]).map
      (fun bs => descompactar_lista (readFileOf bs)) =
      some (CODES_ERRO_DECODIFICACAO, DescompRet.errMsg .valueError) ∧
    CODES_ERRO_DECODIFICACAO ≠ CODES_SUCESSO := by decide

set_option maxRecDepth 1000000 in
/-- C2: the source has no single-symbol special case.  For a text of one
repeated character the tree construction returns the single pair with the
EMPTY code (no merge step ever prepends a bit), the encoded text is therefore
empty, and `int('', 2)` inside `_escrever_binario` raises `ValueError` — the
claimed 1-bit code and round trip are impossible. -/
theorem claim_C2_single_symbol :
    construir_arvore_huffman (calcular_frequencias ['a', 'a', 'a']) =
      .ok [(['a'], [])] ∧
    codificar_lista ['a', 'a', 'a'] [(['a'], [])] = .ok [] ∧
    escrever_binario [] [(['a'], [])] freshFile = .error .valueError := by decide

set_option maxRecDepth 1000000 in
set_option maxHeartbeats 4000000 in
/-- C3 (amended): compacting the empty record sequence renders `"[]"`, so the
container records `bit_length = 2` (one bit per bracket) and a TWO-entry code
table, and decompacting it returns the empty sequence with the success code.
The claimed `bit_length == 0` with an empty or single-entry table is refuted
by `claim_C3_counterexample`. -/
theorem claim_C3_empty :
    (compactarBytes []).map (fun bs => (fromBytesLE (bs.take 4),
        descompactar_lista (readFileOf bs))) =
      some (2, (CODES_SUCESSO, DescompRet.lista [])) ∧
    construir_arvore_huffman (calcular_frequencias (reprPy (.pList []))) =
      .ok [(['['], ['0']), ([']'], ['1'])] := by decide

set_option maxRecDepth 1000000 in
/-- C3 counterexample: the bit-length field of the container written for `[]`
holds 2, not 0, and the code table has two entries, not at most one. -/
theorem claim_C3_counterexample :
    (compactarBytes []).map (fun bs => fromBytesLE (bs.take 4)) = some 2 ∧
    (2 : Nat) ≠ 0 ∧
    (calcular_frequencias (reprPy (.pList []))).length = 2 ∧
    ¬ (calcular_frequencias (reprPy (.pList []))).length ≤ 1 := by decide

/-- C4: compaction is deterministic — the model is a pure function, so two
runs on the same input agree byte for byte; substantively, the tree
construction depends only on the multiset of frequency entries (the heap is
re-sorted under a linear order before every merge, fixing the tie-breaking),
so any traversal order of the same frequency table yields the same tree. -/
theorem claim_C4_deterministic (x : List PyVal) (f1 f2 : List (PyStr × Nat))
    (hp : f1.Perm f2) :
    compactarBytes x = compactarBytes x ∧
    construir_arvore_huffman f1 = construir_arvore_huffman f2 :=
  ⟨rfl, construir_arvore_perm f1 f2 hp⟩

/-- C4 witness: the same two-symbol frequency table in either order yields
the same tree. -/
theorem claim_C4_witness :
    compactarBytes [] = compactarBytes [] ∧
    construir_arvore_huffman [(['a'], 2), (['b'], 1)] =
      construir_arvore_huffman [(['b'], 1), (['a'], 2)] :=
  claim_C4_deterministic [] [(['a'], 2), (['b'], 1)] [(['b'], 1), (['a'], 2)]
    (by decide)

/-- C5 (amended): for every NON-EMPTY binary bit string, packing serializes
the bits as a big-endian integer into exactly ceil(n/8) bytes and unpacking
with the recorded length restores the bits, leading zeros included.  The
universal claim fails on the empty bit sequence: `int('', 2)` raises
`ValueError` (`claim_C5_counterexample`). -/
theorem claim_C5_pack_unpack (s : PyStr) (hne : s ≠ [])
    (hbin : ∀ c ∈ s, c = '0' ∨ c = '1') :
    ∃ bs, packBits s = .ok bs ∧ bs.length = (s.length + 7) / 8 ∧
      unpackBits bs s.length = s :=
  unpackBits_packBits s hne hbin

/-- C5 witness: the bit string `001` round-trips through one byte, its
leading zeros restored. -/
theorem claim_C5_witness :
    ∃ bs, packBits ['0', '0', '1'] = .ok bs ∧ bs.length = (3 + 7) / 8 ∧
      unpackBits bs 3 = ['0', '0', '1'] := by
  have h := claim_C5_pack_unpack ['0', '0', '1'] (by decide) (by decide)
  simpa using h

/-- C5 counterexample: packing the empty bit sequence does not produce
ceil(0/8) = 0 bytes — it raises `ValueError`, so `unpack(pack(b), length b)`
is not even defined at `b = []`. -/
theorem claim_C5_counterexample :
    packBits [] = .error .valueError ∧ (([] : PyStr).length + 7) / 8 = 0 := by
  decide

/-- C6: encoding concatenates the characters' codes in order and fails with
`ValueError` — which `compactar_lista` maps to the encoding-error code 2 —
exactly when some character of the text has no entry in the code table. -/
theorem claim_C6_encode (t : PyStr) (d : List Pair) :
    ((∃ c ∈ t, dictGet d [c] = none) →
      codificar_lista t d = .error .valueError ∧
        compactExcCode .valueError = CODES_ERRO_CODIFICACAO) ∧
    ((∀ c ∈ t, ∃ v, dictGet d [c] = some v) →
      codificar_lista t d = .ok (encBits t d)) :=
  ⟨fun h => ⟨codificar_err t d h, rfl⟩, fun h => codificar_ok t d h⟩

/-- C6 witness: `'a'` against the empty table fails with `ValueError`;
against a table carrying `'a' ↦ "0"` it encodes to `"0"`. -/
theorem claim_C6_witness :
    codificar_lista ['a'] [] = .error .valueError ∧
    codificar_lista ['a'] [(['a'], ['0'])] = .ok ['0'] := by
  constructor
  · exact ((claim_C6_encode ['a'] []).1 ⟨'a', by decide, by decide⟩).1
  · have h := (claim_C6_encode ['a'] [(['a'], ['0'])]).2 (by
      intro c hc
      have hc2 := List.mem_singleton.mp hc
      subst hc2
      exact ⟨['0'], by decide⟩)
    rw [h]
    decide

/-- C7 (amended): when the bit sequence is exhausted while a non-empty
accumulated prefix matches no code, `_decodificar_texto` does NOT fail — it
has no error channel at all — but silently drops the residue and returns
exactly the symbols matched so far.  The claimed `DecodingError` is refuted
by `claim_C7_counterexample`. -/
theorem claim_C7_trailing (ps : List Pair) (hpf : PrefFree ps)
    (hcodes : ∀ p ∈ ps, p.2 ≠ []) (t : PyStr)
    (hcover : ∀ c ∈ t, ∃ v, dictGet ps [c] = some v) (u : PyStr)
    (hu : ∀ u1 b u2, u = u1 ++ b :: u2 →
      dictGet (invertDict ps) (u1 ++ [b]) = none) :
    decodificar_texto (encBits t ps ++ u) ps = t :=
  decodificar_trailing ps hpf hcodes t hcover u hu

/-- C7 witness: with codes `'a' ↦ "0"`, `'b' ↦ "11"`, the bits `"0"++"1"`
(the encoding of `"a"` followed by half the code of `'b'`) decode to `"a"`,
the dangling `"1"` silently dropped. -/
theorem claim_C7_witness :
    decodificar_texto
      (encBits ['a'] [(['a'], ['0']), (['b'], ['1', '1'])] ++ ['1'])
      [(['a'], ['0']), (['b'], ['1', '1'])] = ['a'] := by
  refine claim_C7_trailing [(['a'], ['0']), (['b'], ['1', '1'])]
    (by unfold PrefFree; decide) (by decide) ['a'] ?_ ['1'] ?_
  · intro c hc
    have hc2 := List.mem_singleton.mp hc
    subst hc2
    exact ⟨['0'], by decide⟩
  · intro u1 b u2 h
    rcases u1 with _ | ⟨a, u1t⟩
    · simp only [List.nil_append] at h
      injection h with h1 h2
      subst h1
      decide
    · injection h with h1 h2
      simp at h2

/-- C7 counterexample: decoding the bits `"01"` under the table
`'a' ↦ "0"`, `'b' ↦ "11"` runs out mid-symbol on the trailing `"1"` and
returns the partial text `"a"` — it does not fail, contradicting the claimed
`DecodingError`. -/
theorem claim_C7_counterexample :
    decodificar_texto ['0', '1'] [(['a'], ['0']), (['b'], ['1', '1'])] =
      ['a'] ∧
    encBits ['a'] [(['a'], ['0']), (['b'], ['1', '1'])] = ['0'] := by decide

/-- C8 (amended): truncating the table blob of any container compaction wrote
by one byte makes `descompactar_lista` fail — but with the decoding-error
code 3, not the spec's FORMAT_ERROR code 5: the `zlib.error` of the truncated
stream is neither an `OSError` nor a `json.JSONDecodeError`, so it falls
through to the final `except Exception` arm.  The claimed code 5 is refuted
by `claim_C8_counterexample`. -/
theorem claim_C8_truncation (x : List PyVal) (bs : List Nat)
    (hbs : compactarBytes x = some bs) :
    descompactar_lista (readFileOf bs.dropLast) =
      (CODES_ERRO_DECODIFICACAO, DescompRet.errMsg .otherExc) ∧
    CODES_ERRO_DECODIFICACAO ≠ CODES_ERRO_FORMATO_DADOS :=
  ⟨descompactar_truncated x bs hbs, by decide⟩

set_option maxRecDepth 1000000 in
/-- C8 witness: the concrete container of `[]`, truncated by one byte,
decompacts to the decoding-error code 3. -/
theorem claim_C8_witness :
    descompactar_lista (readFileOf
      ([2, 0, 0, 0, 1, 23, 0, 0, 0, 50, 48, 58, 123, 34, 91, 34, 58, 32, 34,
        48, 34, 44, 32, 34, 93, 34, 58, 32, 34, 49, 34, 125].dropLast)) =
      (CODES_ERRO_DECODIFICACAO, DescompRet.errMsg .otherExc) ∧
    CODES_ERRO_DECODIFICACAO ≠ CODES_ERRO_FORMATO_DADOS :=
  claim_C8_truncation [] _ (by decide)

set_option maxRecDepth 1000000 in
set_option maxHeartbeats 4000000 in
/-- C8 counterexample: the container compacted from `[]` is valid (it
decompacts to `[]` with code 0), and truncating its last byte yields the
decoding-error code 3 — not the FORMAT_ERROR code 5 the claim names. -/
theorem claim_C8_counterexample :
    (compactarBytes []).map
      (fun bs => (descompactar_lista (readFileOf bs.dropLast)).1) =
      some CODES_ERRO_DECODIFICACAO ∧
    CODES_ERRO_DECODIFICACAO ≠ CODES_ERRO_FORMATO_DADOS ∧
    (compactarBytes []).map (fun bs => descompactar_lista (readFileOf bs)) =
      some (CODES_SUCESSO, DescompRet.lista []) := by decide

set_option maxRecDepth 1000000 in
/-- C9: the OSError→RuntimeError conversions inside `_escrever_binario` and
`_ler_binario` defeat the `except (OSError, IOError)` handlers at the
boundary.  A write that raises `OSError` on the first call makes
`compactar_lista` return the encoding-error code 2, and a read that raises
`OSError` makes `descompactar_lista` return the decoding-error code 3 — the
file-error code 1 promised for I/O failure is unreachable on these paths. -/
theorem claim_C9_io_masked :
    compactar_lista [PyVal.pDict []] ⟨[], some 0⟩ = CODES_ERRO_CODIFICACAO ∧
    compactar_lista [PyVal.pDict []] ⟨[], some 0⟩ ≠ CODES_ERRO_ARQUIVO ∧
    descompactar_lista ⟨[], some 0⟩ =
      (CODES_ERRO_DECODIFICACAO, DescompRet.errMsg .runtimeError) ∧
    (descompactar_lista ⟨[], some 0⟩).1 ≠ CODES_ERRO_ARQUIVO := by decide

/-- C10: for every input stream, `descompactar_lista` either succeeds with a
record list and code 0 or returns the decoding-error code 3: codes 1, 4 and 5
are unreachable, because `_ler_binario` converts stream failures to
`RuntimeError` and JSON failures to `ValueError` before the boundary match. -/
theorem claim_C10_codes (f : PyReadFile) :
    (∃ l, descompactar_lista f = (CODES_SUCESSO, DescompRet.lista l)) ∨
      (descompactar_lista f).1 = CODES_ERRO_DECODIFICACAO :=
  descompactar_lista_codes f

end Compacta
